import Mathlib

/-!
Verification of the core path/grid algorithms of the `random_td` repository.

The Rust source is shallowly embedded:
* `GridIndex` (axial hex index, `i32` pairs modelled as `Int`);
* the `Cache` trait impls on `HashMap` become association-list operations
  (`getV`, `updateValue`, `setKey`, `eraseKey`, `min_by`); hash-map iteration
  order is modelled as list order;
* the Dijkstra engine (`src/path/dijkstra.rs`), the resolver
  (`src/path/resolver.rs`) and the waypoint-stitching generator
  (`src/path/random_selected.rs`) are embedded generically over the distance
  type, mirroring the Rust generics (`DT : DistanceValue`), with the `u32`
  instance modelled as `Nat` and the `f32` instance modelled as an exact
  ordered field;
* the spatial hash index (`HexSpatialGrid` in `src/grid.rs`);
* the hex geometry (`to_world_pos` / `from_world_pos` / `cube_round`), with
  `f32` arithmetic modelled as exact real arithmetic.
-/

namespace RandomTD

/-- Axial hex index, `GridIndex { q: i32, r: i32 }` from `src/grid.rs`. -/
structure GridIndex where
  q : Int
  r : Int
deriving DecidableEq, Repr

/-- Component-wise addition (`impl Add for GridIndex`). -/
instance : Add GridIndex := ⟨fun a b => ⟨a.q + b.q, a.r + b.r⟩⟩

/-- Component-wise subtraction (`impl Sub for GridIndex`). -/
instance : Sub GridIndex := ⟨fun a b => ⟨a.q - b.q, a.r - b.r⟩⟩

theorem GridIndex.add_def (a b : GridIndex) : a + b = ⟨a.q + b.q, a.r + b.r⟩ := rfl

/-- The six neighbor directions, in the declaration order of
`GridDirections::VARIANTS` (RIGHT, LEFT, TOPLEFT, TOPRIGHT, BOTTOMLEFT,
BOTTOMRIGHT). -/
def GridDirections : List GridIndex :=
  [⟨1, 0⟩, ⟨-1, 0⟩, ⟨-1, 1⟩, ⟨0, 1⟩, ⟨0, -1⟩, ⟨1, -1⟩]

/-- `TileState` from `src/path/dijkstra.rs`. -/
inductive TileState where
  | Blocked
  | Useable
deriving DecidableEq, Repr

/-- `GridEntry` from `src/grid.rs`. -/
inductive GridEntry where
  | None
  | Tower
  | Path
  | PathStart
  | PathEnd
deriving DecidableEq, Repr

/-- `CacheUpdateResult` from `src/path/context.rs`. -/
inductive CacheUpdateResult where
  | Inserted
  | Updated
  | Ignored
deriving DecidableEq, Repr

section MapOps

variable {K V : Type} [DecidableEq K]

/-- `Cache::get` on a hash map, modelled on an association list: the value of
the first entry with the given key. -/
def getV : List (K × V) → K → Option V
  | [], _ => none
  | (k', v) :: t, k => if k' = k then some v else getV t k

/-- In-place value replacement: the effect of a successful
`Cache::update` on an existing key (no entry is created or removed). -/
def updateValue : List (K × V) → K → V → List (K × V)
  | [], _, _ => []
  | (k', v') :: t, k, v =>
    if k' = k then (k, v) :: updateValue t k v else (k', v') :: updateValue t k v

/-- The keys of the map. -/
def keysOf (l : List (K × V)) : List K :=
  l.map Prod.fst

/-- Whether the map contains the key. -/
def containsK (l : List (K × V)) (k : K) : Prop :=
  k ∈ keysOf l

instance (l : List (K × V)) (k : K) : Decidable (containsK l k) := by
  unfold containsK; infer_instance

/-- `Cache<InsertMissingEntries>::update` with an always-true predicate:
replace the value if the key is present, insert the entry otherwise. -/
def setKey (l : List (K × V)) (k : K) (v : V) :
    List (K × V) :=
  if containsK l k then updateValue l k v else l ++ [(k, v)]

/-- `Cache::remove`, dropping the entry with the given key. -/
def eraseKey : List (K × V) → K → List (K × V)
  | [], _ => []
  | (k', v') :: t, k =>
    if k' = k then eraseKey t k else (k', v') :: eraseKey t k

/-- Hash maps have no duplicate keys; association lists produced by the
embedding maintain this invariant. -/
def NodupKeys (l : List (K × V)) : Prop :=
  (keysOf l).Nodup

instance (l : List (K × V)) : Decidable (NodupKeys l) := by
  unfold NodupKeys; infer_instance

@[simp] theorem keysOf_nil : keysOf ([] : List (K × V)) = [] := rfl

@[simp] theorem keysOf_cons (p : K × V) (t : List (K × V)) :
    keysOf (p :: t) = p.1 :: keysOf t := rfl

@[simp] theorem getV_nil (k : K) : getV ([] : List (K × V)) k = none := rfl

@[simp] theorem getV_cons (k0 : K) (v0 : V) (t : List (K × V))
    (k : K) :
    getV ((k0, v0) :: t) k = if k0 = k then some v0 else getV t k := rfl

theorem getV_eq_none_iff (l : List (K × V)) (k : K) :
    getV l k = none ↔ ¬ containsK l k := by
  induction l with
  | nil => simp [getV, containsK]
  | cons p t ih =>
    obtain ⟨k', v⟩ := p
    by_cases h : k' = k
    · subst h
      simp [getV, containsK]
    · simp [getV, h, containsK] at ih ⊢
      constructor
      · intro hn
        exact ⟨fun he => h he.symm, ih.1 hn⟩
      · intro hn
        exact ih.2 hn.2

theorem containsK_of_getV {l : List (K × V)} {k : K} {v : V}
    (h : getV l k = some v) : containsK l k := by
  by_contra hc
  rw [← getV_eq_none_iff] at hc
  rw [h] at hc
  exact Option.noConfusion hc

theorem getV_mem {l : List (K × V)} {k : K} {v : V}
    (h : getV l k = some v) : (k, v) ∈ l := by
  induction l with
  | nil => simp [getV] at h
  | cons p t ih =>
    obtain ⟨k', v'⟩ := p
    by_cases hk : k' = k
    · subst hk
      simp [getV] at h
      simp [h]
    · simp [getV, hk] at h
      exact List.mem_cons_of_mem _ (ih h)

theorem mem_getV_of_nodup {l : List (K × V)} (hl : NodupKeys l)
    {k : K} {v : V} (h : (k, v) ∈ l) : getV l k = some v := by
  induction l with
  | nil => simp at h
  | cons p t ih =>
    obtain ⟨k', v'⟩ := p
    simp only [NodupKeys, keysOf_cons, List.nodup_cons] at hl
    rcases List.mem_cons.1 h with h1 | h1
    · cases h1
      simp [getV]
    · have hk : ¬ k' = k := by
        intro he
        subst he
        exact hl.1 (List.mem_map.2 ⟨(k', v), h1, rfl⟩)
      simp only [getV, if_neg hk]
      exact ih hl.2 h1

theorem getV_updateValue (l : List (K × V)) (k : K) (v : V)
    (k' : K) :
    getV (updateValue l k v) k' =
      if k' = k then (if containsK l k then some v else none) else getV l k' := by
  induction l with
  | nil => by_cases h : k' = k <;> simp [updateValue, getV, containsK, h]
  | cons p t ih =>
    obtain ⟨k0, v0⟩ := p
    by_cases h0 : k0 = k
    · subst h0
      by_cases h1 : k' = k0
      · subst h1
        simp [updateValue, getV, containsK]
      · simp only [updateValue, if_pos rfl, getV, if_neg (Ne.symm h1)]
        rw [ih]
        simp [getV, h1, if_neg (Ne.symm h1)]
    · by_cases h1 : k' = k0
      · subst h1
        have hne : ¬ k' = k := h0
        simp [updateValue, h0, getV, hne]
      · simp only [updateValue, if_neg h0, getV, if_neg (Ne.symm h1)]
        rw [ih]
        by_cases h2 : k' = k
        · subst h2
          rw [if_pos rfl, if_pos rfl]
          by_cases h3 : containsK t k'
          · have h4 : containsK ((k0, v0) :: t) k' := by
              unfold containsK at h3 ⊢
              simp only [keysOf_cons, List.mem_cons]
              exact Or.inr h3
            rw [if_pos h3, if_pos h4]
          · have h4 : ¬ containsK ((k0, v0) :: t) k' := by
              unfold containsK at h3 ⊢
              simp only [keysOf_cons, List.mem_cons]
              intro hor
              rcases hor with h | h
              · exact h1 h
              · exact h3 h
            rw [if_neg h3, if_neg h4]
        · simp [h2, getV, if_neg (Ne.symm h1)]

/-- `entry(k).and_modify(f)`: apply `f` to the value at `k` when present. -/
def modifyValue (l : List (K × V)) (k : K) (f : V → V) : List (K × V) :=
  l.map fun p => if p.1 = k then (k, f p.2) else p

theorem modifyValue_cons (k0 : K) (v0 : V) (t : List (K × V)) (k : K)
    (f : V → V) :
    modifyValue ((k0, v0) :: t) k f =
      (if k0 = k then (k, f v0) else (k0, v0)) :: modifyValue t k f := rfl

theorem getV_modifyValue (l : List (K × V)) (k : K) (f : V → V) (k' : K) :
    getV (modifyValue l k f) k' =
      if k' = k then (getV l k).map f else getV l k' := by
  induction l with
  | nil => by_cases h : k' = k <;> simp [modifyValue, h]
  | cons p t ih =>
    obtain ⟨k0, v0⟩ := p
    rw [modifyValue_cons]
    by_cases h0 : k0 = k
    · rw [if_pos h0, getV_cons]
      by_cases h1 : k' = k
      · have hkk' : k = k' := h1.symm
        rw [if_pos hkk', if_pos h1, getV_cons, if_pos h0]
        rfl
      · have hkk' : ¬ k = k' := fun he => h1 he.symm
        have hk0k' : ¬ k0 = k' := fun he => h1 (he.symm.trans h0)
        rw [if_neg hkk', ih, if_neg h1, if_neg h1, getV_cons, if_neg hk0k']
    · rw [if_neg h0, getV_cons]
      by_cases h1 : k0 = k'
      · have hne : ¬ k' = k := fun he => h0 (h1.trans he)
        rw [if_pos h1, if_neg hne, getV_cons, if_pos h1]
      · rw [if_neg h1, ih]
        by_cases h2 : k' = k
        · rw [if_pos h2, if_pos h2, getV_cons, if_neg h0]
        · rw [if_neg h2, if_neg h2, getV_cons, if_neg h1]

theorem eraseKey_cons (k0 : K) (v0 : V) (t : List (K × V))
    (k : K) :
    eraseKey ((k0, v0) :: t) k =
      if k0 = k then eraseKey t k else (k0, v0) :: eraseKey t k := rfl

theorem getV_eraseKey (l : List (K × V)) (k k' : K) :
    getV (eraseKey l k) k' = if k' = k then none else getV l k' := by
  induction l with
  | nil => by_cases h : k' = k <;> simp [eraseKey, h]
  | cons p t ih =>
    obtain ⟨k0, v0⟩ := p
    rw [eraseKey_cons]
    by_cases h0 : k0 = k
    · rw [if_pos h0, ih]
      by_cases h2 : k' = k
      · simp [h2]
      · rw [if_neg h2, if_neg h2, getV_cons]
        have hne : ¬ k0 = k' := fun he => h2 (he.symm.trans h0)
        rw [if_neg hne]
    · rw [if_neg h0, getV_cons]
      by_cases h1 : k0 = k'
      · rw [if_pos h1]
        have h2 : ¬ k' = k := fun he => h0 (h1.trans he)
        rw [if_neg h2, getV_cons, if_pos h1]
      · rw [if_neg h1, ih]
        by_cases h2 : k' = k
        · simp [h2]
        · rw [if_neg h2, if_neg h2, getV_cons, if_neg h1]

theorem getV_append_single (l : List (K × V)) (k : K) (v : V)
    (k' : K) (hc : ¬ containsK l k) :
    getV (l ++ [(k, v)]) k' = if k' = k then some v else getV l k' := by
  induction l with
  | nil =>
    by_cases h1 : k' = k
    · subst h1; simp [getV]
    · simp [getV, h1, Ne.symm h1]
  | cons p t ih =>
    obtain ⟨k0, v0⟩ := p
    have hk0 : ¬ k0 = k := by
      intro he
      exact hc (by simp [containsK, keysOf_cons, List.mem_cons, he])
    have hc' : ¬ containsK t k := by
      intro hm
      exact hc (by
        unfold containsK at hm ⊢
        simp only [keysOf_cons, List.mem_cons]
        exact Or.inr hm)
    by_cases h1 : k' = k0
    · subst h1
      have hne : ¬ k' = k := fun he => hk0 he
      rw [List.cons_append, getV_cons, if_pos rfl, if_neg hne, getV_cons, if_pos rfl]
    · rw [List.cons_append, getV_cons, if_neg (Ne.symm h1), ih hc']
      by_cases h2 : k' = k
      · simp [h2]
      · rw [if_neg h2, if_neg h2, getV_cons, if_neg (Ne.symm h1)]

theorem getV_setKey (l : List (K × V)) (k : K) (v : V)
    (k' : K) :
    getV (setKey l k v) k' = if k' = k then some v else getV l k' := by
  unfold setKey
  by_cases hc : containsK l k
  · rw [if_pos hc, getV_updateValue]
    by_cases h1 : k' = k <;> simp [h1, hc]
  · rw [if_neg hc]
    exact getV_append_single l k v k' hc

@[simp] theorem keysOf_updateValue (l : List (K × V)) (k : K) (v : V) :
    keysOf (updateValue l k v) = keysOf l := by
  induction l with
  | nil => rfl
  | cons p t ih =>
    obtain ⟨k0, v0⟩ := p
    by_cases h0 : k0 = k
    · subst h0; simp [updateValue, ih]
    · simp [updateValue, h0, ih]

@[simp] theorem length_updateValue (l : List (K × V)) (k : K) (v : V) :
    (updateValue l k v).length = l.length := by
  induction l with
  | nil => rfl
  | cons p t ih =>
    obtain ⟨k0, v0⟩ := p
    by_cases h0 : k0 = k <;> simp [updateValue, h0, ih]

theorem length_eraseKey_lt (l : List (K × V)) (k : K)
    (h : containsK l k) : (eraseKey l k).length < l.length := by
  induction l with
  | nil => simp [containsK] at h
  | cons p t ih =>
    obtain ⟨k0, v0⟩ := p
    by_cases h0 : k0 = k
    · subst h0
      calc (eraseKey ((k0, v0) :: t) k0).length = (eraseKey t k0).length := by
            simp [eraseKey]
        _ ≤ t.length := by
            clear ih h
            induction t with
            | nil => simp [eraseKey]
            | cons q s ihs =>
              obtain ⟨k1, v1⟩ := q
              by_cases h1 : k1 = k0 <;> simp [eraseKey, h1] <;> omega
        _ < ((k0, v0) :: t).length := by simp
    · have ht : containsK t k := by
        unfold containsK at h ⊢
        simp only [keysOf_cons, List.mem_cons] at h
        rcases h with h | h
        · exact absurd h.symm h0
        · exact h
      simp [eraseKey, h0]
      exact ih ht

theorem nodupKeys_eraseKey (l : List (K × V)) (k : K)
    (h : NodupKeys l) : NodupKeys (eraseKey l k) := by
  induction l with
  | nil => simpa [eraseKey] using h
  | cons p t ih =>
    obtain ⟨k0, v0⟩ := p
    simp only [NodupKeys, keysOf_cons, List.nodup_cons] at h
    by_cases h0 : k0 = k
    · simpa [eraseKey, h0] using ih h.2
    · have hk : k0 ∉ keysOf (eraseKey t k) := by
        intro hm
        apply h.1
        obtain ⟨p1, hm1, hm2⟩ := List.mem_map.1 hm
        obtain ⟨k1, v1⟩ := p1
        have : (k1, v1) ∈ t := by
          clear ih h hm
          induction t with
          | nil => simp [eraseKey] at hm1
          | cons q s ihs =>
            obtain ⟨k2, v2⟩ := q
            by_cases h2 : k2 = k
            · simp only [eraseKey, if_pos h2] at hm1
              exact List.mem_cons_of_mem _ (ihs hm1)
            · simp only [eraseKey, if_neg h2, List.mem_cons] at hm1
              rcases hm1 with h3 | h3
              · simp [h3]
              · exact List.mem_cons_of_mem _ (ihs h3)
        exact List.mem_map.2 ⟨(k1, v1), this, hm2⟩
      have := ih h.2
      simp only [NodupKeys, keysOf_cons] at *
      simp [eraseKey, h0, List.nodup_cons, hk, this]

theorem nodupKeys_setKey (l : List (K × V)) (k : K) (v : V)
    (h : NodupKeys l) : NodupKeys (setKey l k v) := by
  unfold setKey
  by_cases hc : containsK l k
  · simpa [NodupKeys, if_pos hc] using h
  · rw [if_neg hc]
    simp only [NodupKeys, keysOf, List.map_append] at *
    simp only [List.map_cons, List.map_nil]
    rw [List.nodup_append]
    refine ⟨h, List.nodup_singleton k, ?_⟩
    intro a ha
    simp only [List.mem_singleton]
    intro he
    subst he
    exact hc (by simpa [containsK, keysOf] using ha)

end MapOps

section MinBy

variable {K α : Type} [DecidableEq K] [LinearOrder α]

/-- `Cache::min_by` with the `partial_cmp(..).unwrap_or(Equal)` comparator of
`DistanceCache::get_min`: the first entry with minimal value, as Rust's
`Iterator::min_by` returns the first of equally-minimal elements. -/
def min_by (l : List (K × α)) : Option (K × α) :=
  l.foldl
    (fun acc x =>
      match acc with
      | none => some x
      | some m => if x.2 < m.2 then some x else some m)
    none

theorem min_by_foldl_aux (l : List (K × α)) (m : K × α) :
    ∃ p, l.foldl
        (fun acc x =>
          match acc with
          | none => some x
          | some m => if x.2 < m.2 then some x else some m)
        (some m) = some p ∧
      (p ∈ l ∨ p = m) ∧ p.2 ≤ m.2 ∧ ∀ q ∈ l, p.2 ≤ q.2 := by
  induction l generalizing m with
  | nil => exact ⟨m, rfl, Or.inr rfl, le_refl _, by simp⟩
  | cons x t ih =>
    by_cases hx : x.2 < m.2
    · obtain ⟨p, hp1, hp2, hp3, hp4⟩ := ih x
      refine ⟨p, ?_, ?_, ?_, ?_⟩
      · simpa [List.foldl_cons, hx] using hp1
      · rcases hp2 with h | h
        · exact Or.inl (List.mem_cons_of_mem _ h)
        · exact Or.inl (h ▸ List.mem_cons_self x t)
      · exact le_trans hp3 (le_of_lt hx)
      · intro q hq
        rcases List.mem_cons.1 hq with h | h
        · exact h ▸ hp3
        · exact hp4 q h
    · obtain ⟨p, hp1, hp2, hp3, hp4⟩ := ih m
      refine ⟨p, ?_, ?_, hp3, ?_⟩
      · simpa [List.foldl_cons, hx] using hp1
      · rcases hp2 with h | h
        · exact Or.inl (List.mem_cons_of_mem _ h)
        · exact Or.inr h
      · intro q hq
        rcases List.mem_cons.1 hq with h | h
        · exact h ▸ le_trans hp3 (not_lt.1 hx)
        · exact hp4 q h

theorem min_by_spec {l : List (K × α)} {p : K × α}
    (h : min_by l = some p) : p ∈ l ∧ ∀ q ∈ l, p.2 ≤ q.2 := by
  cases l with
  | nil => simp [min_by] at h
  | cons x t =>
    obtain ⟨p', hp1, hp2, hp3, hp4⟩ := min_by_foldl_aux t x
    have : p' = p := by
      have : min_by (x :: t) = some p' := by simpa [min_by, List.foldl_cons] using hp1
      exact Option.some.inj (this.symm.trans h)
    subst this
    constructor
    · rcases hp2 with h2 | h2
      · exact List.mem_cons_of_mem _ h2
      · exact h2 ▸ List.mem_cons_self x t
    · intro q hq
      rcases List.mem_cons.1 hq with h2 | h2
      · exact h2 ▸ hp3
      · exact hp4 q h2

theorem min_by_eq_none_iff (l : List (K × α)) :
    min_by l = none ↔ l = [] := by
  cases l with
  | nil => simp [min_by]
  | cons x t =>
    simp only [min_by, List.foldl_cons]
    obtain ⟨p', hp1, _, _, _⟩ := min_by_foldl_aux t x
    constructor
    · intro h
      rw [show (t.foldl
          (fun acc x =>
            match acc with
            | none => some x
            | some m => if x.2 < m.2 then some x else some m)
          (some x)) = some p' from hp1] at h
      exact Option.noConfusion h
    · intro h
      exact List.noConfusion h

/-- The free function `get_min` of `src/path/dijkstra.rs`: extract the
minimal entry and remove it from the distance cache. -/
def get_min (l : List (K × α)) :
    Option ((K × α) × List (K × α)) :=
  match min_by l with
  | none => none
  | some m => some (m, eraseKey l m.1)

theorem get_min_spec {l : List (K × α)}
    {p : K × α} {rest : List (K × α)}
    (h : get_min l = some (p, rest)) :
    p ∈ l ∧ (∀ q ∈ l, p.2 ≤ q.2) ∧ rest = eraseKey l p.1 := by
  unfold get_min at h
  cases hm : min_by l with
  | none => rw [hm] at h; exact Option.noConfusion h
  | some m =>
    rw [hm] at h
    obtain ⟨h1, h2⟩ := Prod.mk.injEq .. ▸ Option.some.inj h
    obtain ⟨hmem, hle⟩ := min_by_spec hm
    subst h1
    exact ⟨hmem, hle, h2.symm⟩

theorem get_min_rest_length {l : List (K × α)}
    {p : K × α} {rest : List (K × α)}
    (h : get_min l = some (p, rest)) : rest.length < l.length := by
  obtain ⟨hmem, _, hrest⟩ := get_min_spec h
  have hc : containsK l p.1 := List.mem_map.2 ⟨p, hmem, rfl⟩
  rw [hrest]
  exact length_eraseKey_lt l p.1 hc

theorem get_min_eq_none_iff (l : List (K × α)) :
    get_min l = none ↔ l = [] := by
  unfold get_min
  cases hm : min_by l with
  | none => simpa using (min_by_eq_none_iff l).1 hm
  | some m =>
    constructor
    · intro h; exact Option.noConfusion h
    · intro h
      subst h
      have hnone : min_by ([] : List (K × α)) = none := by simp [min_by]
      rw [hnone] at hm
      exact Option.noConfusion hm

end MinBy

section Engine

variable {α : Type} [LinearOrder α] [AddCommMonoid α]

/-- `TileStateCache::is_blocked`: a cell is blocked when its tile-state entry
is `Blocked`; absent entries count as not blocked (`unwrap_or(false)`). -/
def is_blocked (ts : List (GridIndex × TileState)) (a : GridIndex) : Prop :=
  getV ts a = some TileState.Blocked

instance (ts : List (GridIndex × TileState)) (a : GridIndex) :
    Decidable (is_blocked ts a) := by
  unfold is_blocked; infer_instance

/-- `DijkstraData::can_be_path`. -/
def can_be_path (ts : List (GridIndex × TileState)) (a : GridIndex) : Prop :=
  ¬ is_blocked ts a

instance (ts : List (GridIndex × TileState)) (a : GridIndex) :
    Decidable (can_be_path ts a) := by
  unfold can_be_path; infer_instance

/-- `DistanceCache::update_distance`: relax an existing entry when the new
value is strictly smaller; absent keys are ignored
(`Cache<IgnoreMissingEntries>`). -/
def update_distance (l : List (GridIndex × α)) (k : GridIndex) (v : α) :
    List (GridIndex × α) × CacheUpdateResult :=
  match getV l k with
  | none => (l, CacheUpdateResult.Ignored)
  | some old =>
    if v < old then (updateValue l k v, CacheUpdateResult.Updated)
    else (l, CacheUpdateResult.Ignored)

/-- One iteration of the neighbor loop of `calcualte_distances`: relax the
cell `min + d` and, on a successful relaxation, record `min` as its
predecessor (`prevs.update(&neighbor, min, |old| *old != min)` over an
insert-missing cache leaves the predecessor entry equal to `min`). -/
def relaxDir (df : GridIndex → GridIndex → α) (ts : List (GridIndex × TileState))
    (m : GridIndex) (d : α)
    (st : List (GridIndex × α) × List (GridIndex × GridIndex))
    (dir : GridIndex) :
    List (GridIndex × α) × List (GridIndex × GridIndex) :=
  let n := m + dir
  if can_be_path ts n then
    match update_distance st.1 n (df n m + d) with
    | (l', CacheUpdateResult.Updated) => (l', setKey st.2 n m)
    | _ => st
  else st

/-- The whole neighbor loop of `calcualte_distances` over the six
directions. -/
def relaxAll (df : GridIndex → GridIndex → α) (ts : List (GridIndex × TileState))
    (m : GridIndex) (d : α)
    (dists : List (GridIndex × α)) (prevs : List (GridIndex × GridIndex)) :
    List (GridIndex × α) × List (GridIndex × GridIndex) :=
  GridDirections.foldl (relaxDir df ts m d) (dists, prevs)

theorem relaxDir_fst_length (df : GridIndex → GridIndex → α) (ts) (m : GridIndex)
    (d : α) (st : List (GridIndex × α) × List (GridIndex × GridIndex)) (dir) :
    (relaxDir df ts m d st dir).1.length = st.1.length := by
  unfold relaxDir
  by_cases h : can_be_path ts (m + dir)
  · simp only [if_pos h]
    unfold update_distance
    cases hg : getV st.1 (m + dir) with
    | none => rfl
    | some old =>
      by_cases hv : df (m + dir) m + d < old
      · simp [hv]
      · simp [hv]
  · simp [if_neg h]

theorem relaxAll_fst_length (df : GridIndex → GridIndex → α) (ts) (m : GridIndex)
    (d : α) (dists : List (GridIndex × α)) (prevs : List (GridIndex × GridIndex)) :
    (relaxAll df ts m d dists prevs).1.length = dists.length := by
  unfold relaxAll
  generalize GridDirections = dirs
  induction dirs generalizing dists prevs with
  | nil => rfl
  | cons dir t ih =>
    rw [List.foldl_cons]
    have h1 := relaxDir_fst_length df ts m d (dists, prevs) dir
    have h2 : relaxDir df ts m d (dists, prevs) dir =
        ((relaxDir df ts m d (dists, prevs) dir).1,
         (relaxDir df ts m d (dists, prevs) dir).2) := rfl
    rw [h2, ih]
    exact h1

/-- `DijkstraData::calcualte_distances` (name as in the source): repeatedly
extract the entry with minimal distance; stop at the `max` sentinel; skip
blocked cells; otherwise relax all six neighbors.  Returns the final
predecessor cache. -/
def calcualte_distances (df : GridIndex → GridIndex → α) (dmax : α)
    (ts : List (GridIndex × TileState)) :
    List (GridIndex × α) → List (GridIndex × GridIndex) →
      List (GridIndex × GridIndex)
  | dists, prevs =>
    match h : get_min dists with
    | none => prevs
    | some ((m, d), rest) =>
      if d = dmax then prevs
      else if ¬ can_be_path ts m then calcualte_distances df dmax ts rest prevs
      else
        let st := relaxAll df ts m d rest prevs
        calcualte_distances df dmax ts st.1 st.2
termination_by dists _ => dists.length
decreasing_by
  · exact get_min_rest_length h
  · calc (relaxAll df ts m d rest prevs).1.length = rest.length :=
        relaxAll_fst_length df ts m d rest prevs
    _ < dists.length := get_min_rest_length h

end Engine

section Resolver

/-- `HexPath` from `src/path/mod.rs` (the Rust field `end` is a Lean keyword
and is rendered `ende`). -/
structure HexPath where
  nodes : List GridIndex
  start : GridIndex
  ende : GridIndex
deriving DecidableEq, Repr

/-- The backward walk of `get_shortest_path` (`src/path/resolver.rs`), with
explicit fuel.  The accumulator holds the visited nodes in reversed order, so
the Rust `ret.reverse()` on success corresponds to returning `p :: acc`
directly.  The Rust loop is unbounded; exhausting the fuel (outer `none`)
models an execution that has not terminated within `fuel` iterations. -/
def walk_prevs (prevs : List (GridIndex × GridIndex)) (start : GridIndex) :
    ℕ → GridIndex → List GridIndex → Option (Option (List GridIndex))
  | 0, _, _ => none
  | fuel + 1, cur, acc =>
    match getV prevs cur with
    | none => some none
    | some p =>
      if p = start then some (some (p :: acc))
      else walk_prevs prevs start fuel p (p :: acc)

/-- `get_shortest_path`: walk predecessor links backward from `end`; fuel
`prevs.length + 1` is enough for every terminating execution of the Rust
loop (a longer run revisits a key, and the deterministic walk then cycles
forever); a fuel-exhausted walk therefore corresponds to a diverging Rust
execution and is mapped to `none`. -/
def get_shortest_path (prevs : List (GridIndex × GridIndex))
    (ende start : GridIndex) : Option (List GridIndex) :=
  match walk_prevs prevs start (prevs.length + 1) ende [ende] with
  | none => none
  | some r => r

/-- `ShortesPathResolver::resolve_path` (name as in the source). -/
def resolve_path (prevs : List (GridIndex × GridIndex))
    (start ende : GridIndex) : Option HexPath :=
  (get_shortest_path prevs ende start).map fun n => ⟨n, start, ende⟩

end Resolver

section Run

variable {α : Type} [LinearOrder α] [AddCommMonoid α]

/-- `TileStateCache::get_initial_distances`: seed zero at `start` and the
`max` sentinel at every other non-blocked cell, in tile-state iteration
order. -/
def get_initial_distances (dmax : α) (ts : List (GridIndex × TileState))
    (start : GridIndex) : List (GridIndex × α) :=
  (ts.filter fun p => ¬ p.2 = TileState.Blocked).map
    fun p => (p.1, if p.1 = start then 0 else dmax)

/-- `DijkstraData::run` with an empty predecessor cache (both call sites
construct `prevs` fresh): compute distances, then resolve the path from the
final predecessor cache. -/
def dijkstra_run (df : GridIndex → GridIndex → α) (dmax : α)
    (ts : List (GridIndex × TileState)) (dists : List (GridIndex × α))
    (start ende : GridIndex) : Option HexPath :=
  resolve_path (calcualte_distances df dmax ts dists []) start ende

/-- `try_get_path` from `src/path/random_selected.rs`, generic over the
distance model (the shipped instance uses `f32` and `WorldDistance`; on
adjacent hex cells that function is `sqrt 3 * size`, see
`WorldDistance_adjacent` below). -/
def try_get_path (df : GridIndex → GridIndex → α) (dmax : α)
    (ts : List (GridIndex × TileState)) (start ende : GridIndex) :
    Option HexPath :=
  dijkstra_run df dmax ts (get_initial_distances dmax ts start) start ende

/-- `ConstOneDF` with the `u32` distance model (`u32` modelled as `Nat`; the
run never leaves `{0, …, u32MAX}` when its initial values are so bounded). -/
def constOneDF : GridIndex → GridIndex → ℕ := fun _ _ => 1

/-- `u32::MAX`, the unreachable sentinel of the `u32` distance model. -/
def u32MAX : ℕ := 4294967295

end Run

section Region

/-- `HexGridColumns::get_actual_column_count`, the inclusive column range
`-c/2 ..= c/2` with Rust `i32` (truncating) division. -/
def column_range (columns : Int) : Int × Int :=
  (Int.tdiv (-columns) 2, Int.tdiv columns 2)

/-- `(-(column as f32) / 2.0).ceil() as i32` from
`HexGridRows::get_actual_row_count`. -/
def ceil_neg_half (column : Int) : Int :=
  -(Int.ediv column 2)

/-- `HexGridRows::get_actual_row_count`: the inclusive row range of a
column. -/
def row_range (rows column : Int) : Int × Int :=
  (-rows + ceil_neg_half column, rows + ceil_neg_half column)

/-- The inclusive integer range `a ..= b` as a list. -/
def intRange (a b : Int) : List Int :=
  (List.range (b + 1 - a).toNat).map fun (i : ℕ) => a + (i : Int)

/-- `PathContext::all`: every cell of the region, in iteration order
(`r` ranges over the column range, `q` over the per-column row range). -/
def all_cells (columns rows : Int) : List GridIndex :=
  (intRange (column_range columns).1 (column_range columns).2).flatMap fun r =>
    (intRange (row_range rows r).1 (row_range rows r).2).map fun q => ⟨q, r⟩

/-- The cells produced by `StartIterator` (leftmost cell of each column). -/
def start_column (columns rows : Int) : List GridIndex :=
  (intRange (column_range columns).1 (column_range columns).2).map fun r =>
    ⟨(row_range rows r).1, r⟩

/-- The cells produced by `EndIterator` (rightmost cell of each column). -/
def end_column (columns rows : Int) : List GridIndex :=
  (intRange (column_range columns).1 (column_range columns).2).map fun r =>
    ⟨(row_range rows r).2, r⟩

/-- `HexHashGrid::can_be_path`: the entry exists and is `None` or `Path`. -/
def grid_can_be_path (grid : List (GridIndex × GridEntry)) (a : GridIndex) :
    Prop :=
  getV grid a = some GridEntry.None ∨ getV grid a = some GridEntry.Path

instance (grid : List (GridIndex × GridEntry)) (a : GridIndex) :
    Decidable (grid_can_be_path grid a) := by
  unfold grid_can_be_path; infer_instance

/-- `PathContext` (`src/path/context.rs`): column/row counts and the hex
hash grid. -/
structure PathContext where
  columns : Int
  rows : Int
  grid : List (GridIndex × GridEntry)
deriving Repr

/-- `PathContext::can_be_path`: not on the start or end column, inside the
region ranges, and passable in the grid. -/
def ctx_can_be_path (c : PathContext) (a : GridIndex) : Prop :=
  a ∉ start_column c.columns c.rows ∧
  a ∉ end_column c.columns c.rows ∧
  (column_range c.columns).1 ≤ a.r ∧ a.r ≤ (column_range c.columns).2 ∧
  (row_range c.rows a.r).1 ≤ a.q ∧ a.q ≤ (row_range c.rows a.r).2 ∧
  grid_can_be_path c.grid a

instance (c : PathContext) (a : GridIndex) : Decidable (ctx_can_be_path c a) := by
  unfold ctx_can_be_path; infer_instance

/-- `PathContext::tile_state`: every region cell, `Useable` iff passable or
equal to `start`/`end`, in region iteration order. -/
def tile_state (c : PathContext) (start ende : GridIndex) :
    List (GridIndex × TileState) :=
  (all_cells c.columns c.rows).map fun i =>
    (i, if ctx_can_be_path c i ∨ i = start ∨ i = ende then TileState.Useable
        else TileState.Blocked)

/-- `HexHashGrid::from_rows_and_columns_with_init`: all region cells mapped
to `GridEntry::None`. -/
def grid_from_rows_and_columns (columns rows : Int) :
    List (GridIndex × GridEntry) :=
  (all_cells columns rows).map fun i => (i, GridEntry.None)

/-- The `u32` distance seeding of the blanket `SinglePathAlgorithm` impl in
`src/path/mod.rs`: zero at `start`, `u32::MAX` elsewhere, over
`all_pathable()` (note: this seeding omits any start cell that is not itself
pathable). -/
def all_pathable_distances (c : PathContext) (start : GridIndex) :
    List (GridIndex × ℕ) :=
  ((all_cells c.columns c.rows).filter fun a => ctx_can_be_path c a).map
    fun a => (a, if a = start then 0 else u32MAX)

/-- `Dijkstra::calculate_path_distance_aware` composed with the blanket
`SinglePathAlgorithm` impl (`src/path/dijkstra.rs` lines 239-262 and
`src/path/mod.rs` lines 115-128): `u32` distances over `all_pathable`,
`ConstOneDF`, tile state from the context. -/
def calculate_path_distance_aware (c : PathContext) (start ende : GridIndex) :
    Option HexPath :=
  dijkstra_run constOneDF u32MAX (tile_state c start ende)
    (all_pathable_distances c start) start ende

end Region

section Generator

variable {α : Type} [LinearOrder α] [AddCommMonoid α]

/-- `TileStateCache::get_random_unoccupied`: pick a `Useable` cell; the rng
draw selects the index among the useable entries in iteration order (model
of `IteratorRandom::choose`); `none` when no cell is useable. -/
def get_random_unoccupied (ts : List (GridIndex × TileState)) (draw : ℕ) :
    Option GridIndex :=
  let l := (ts.filter fun p => p.2 = TileState.Useable).map Prod.fst
  l[draw % l.length]?

/-- Modelled from the spec: `set_state` is called by
`RandomDijkstra::calculate_path` but defined nowhere under `src/`
(`MutTileStateCache` only offers `set_is_blocked`, implemented as
`self.update(access, TileState::Blocked, |_| true)` on the insert-missing
cache).  Following §4.5 of the spec ("mark each appended node Blocked in the
local tile-state cache", "reset every accumulated node back to Useable"), it
sets the given cell to the given state. -/
def set_state (ts : List (GridIndex × TileState)) (a : GridIndex)
    (s : TileState) : List (GridIndex × TileState) :=
  setKey ts a s

/-- The `while i <= num_points` loop of `RandomDijkstra::calculate_path`
(`src/path/random_selected.rs` lines 102-134), with the rng modelled as a
stream of natural draws indexed by `pos`.  The second component of the
result is the final value of the `tries` counter, returned for
specification purposes (the Rust code returns only the path option). -/
def calculate_path_loop (df : GridIndex → GridIndex → α) (dmax : α)
    (start ende : GridIndex) (rng : ℕ → ℕ) (num_points : ℕ) :
    GridIndex → ℕ → ℕ → List GridIndex → List (GridIndex × TileState) → ℕ →
      Option (List GridIndex) × ℕ
  | cStart, i, tries, path, ts, pos =>
    if hi : i ≤ num_points then
      let posAfter := if i = num_points then pos else pos + 1
      match (if i = num_points then some ende
             else get_random_unoccupied ts (rng pos)) with
      | none => (none, tries)
      | some cEnd =>
        match try_get_path df dmax ts cStart cEnd with
        | some p =>
          let newNodes := p.nodes.filter fun n => ¬ n = cEnd
          calculate_path_loop df dmax start ende rng num_points cEnd (i + 1)
            tries (path ++ newNodes)
            (newNodes.foldl (fun t n => set_state t n TileState.Blocked) ts)
            posAfter
        | none =>
          if htries : tries > 100 then (none, tries)
          else
            calculate_path_loop df dmax start ende rng num_points start 0
              (tries + 1) []
              (path.foldl (fun t n => set_state t n TileState.Useable) ts)
              posAfter
    else (some (path ++ [ende]), tries)
termination_by cStart i tries path ts pos =>
  (101 - tries) * (num_points + 2) + (num_points + 1 - i)
decreasing_by
  · omega
  · have h1 : 101 - tries = (101 - (tries + 1)) + 1 := by omega
    rw [h1, Nat.succ_mul]
    omega

/-- `RandomDijkstra::calculate_path`, generic over the distance model.
Draw 0 of the rng stream gives `num_points = random_range(1..=3)`; each
`get_random_unoccupied` consumes one further draw.  `num_points` is chosen
once, before the loop. -/
def calculate_path (df : GridIndex → GridIndex → α) (dmax : α)
    (c : PathContext) (start ende : GridIndex) (rng : ℕ → ℕ) :
    Option HexPath :=
  (calculate_path_loop df dmax start ende rng (1 + rng 0 % 3) start 0 0 []
      (tile_state c start ende) 1).1.map
    fun nodes => ⟨nodes, start, ende⟩

/-- Modelled from the spec: §4.5 step 5 states that on a segment failure the
generator retries "with a freshly chosen waypoint count/targets".  This
variant redraws `num_points` from the rng stream on every reset; the source
draws `num_points` exactly once, before the loop. -/
def calculate_path_loop_fresh (df : GridIndex → GridIndex → α) (dmax : α)
    (start ende : GridIndex) (rng : ℕ → ℕ) :
    ℕ → GridIndex → ℕ → ℕ → List GridIndex → List (GridIndex × TileState) →
      ℕ → Option (List GridIndex) × ℕ
  | num_points, cStart, i, tries, path, ts, pos =>
    if hi : i ≤ num_points then
      let posAfter := if i = num_points then pos else pos + 1
      match (if i = num_points then some ende
             else get_random_unoccupied ts (rng pos)) with
      | none => (none, tries)
      | some cEnd =>
        match try_get_path df dmax ts cStart cEnd with
        | some p =>
          let newNodes := p.nodes.filter fun n => ¬ n = cEnd
          calculate_path_loop_fresh df dmax start ende rng num_points cEnd
            (i + 1) tries (path ++ newNodes)
            (newNodes.foldl (fun t n => set_state t n TileState.Blocked) ts)
            posAfter
        | none =>
          if htries : tries > 100 then (none, tries)
          else
            calculate_path_loop_fresh df dmax start ende rng
              (1 + rng posAfter % 3) start 0 (tries + 1) []
              (path.foldl (fun t n => set_state t n TileState.Useable) ts)
              (posAfter + 1)
    else (some (path ++ [ende]), tries)
termination_by num_points cStart i tries path ts pos =>
  (101 - tries, num_points + 1 - i)
decreasing_by
  · exact Prod.Lex.right _ (by omega)
  · exact Prod.Lex.left _ _ (by omega)

/-- Modelled from the spec: `calculate_path` as §4.5 describes it, with a
fresh waypoint count drawn on every retry. -/
def calculate_path_fresh (df : GridIndex → GridIndex → α) (dmax : α)
    (c : PathContext) (start ende : GridIndex) (rng : ℕ → ℕ) :
    Option HexPath :=
  (calculate_path_loop_fresh df dmax start ende rng (1 + rng 0 % 3) start 0 0
      [] (tile_state c start ende) 1).1.map
    fun nodes => ⟨nodes, start, ende⟩

end Generator

section Spatial

/-- `HashSet::insert`. -/
def setInsert (e : ℕ) (l : List ℕ) : List ℕ :=
  if e ∈ l then l else e :: l

/-- `HashSet::remove`. -/
def setRemove (e : ℕ) (l : List ℕ) : List ℕ :=
  l.filter fun x => ¬ x = e

/-- `self.data.entry(i).and_modify(|s| { s.remove(&entity); })`: remove the
entity from the cell's set when the cell has one. -/
def data_remove (d : List (GridIndex × List ℕ)) (c : GridIndex) (e : ℕ) :
    List (GridIndex × List ℕ) :=
  modifyValue d c (setRemove e)

/-- `self.data.entry(index).and_modify(insert).or_insert_with(singleton)`. -/
def data_insert (d : List (GridIndex × List ℕ)) (c : GridIndex) (e : ℕ) :
    List (GridIndex × List ℕ) :=
  if containsK d c then modifyValue d c (setInsert e)
  else d ++ [(c, [e])]

/-- `HexSpatialGrid` from `src/grid.rs`: forward map cell → entity set and
reverse map entity → cell (entities modelled as `Nat`). -/
structure HexSpatialGrid where
  data : List (GridIndex × List ℕ)
  entries : List (ℕ × GridIndex)
deriving Repr

/-- `HexSpatialGrid::update`: if the entity is already indexed, remove it
from its old cell's set and repoint the reverse map; then insert it into the
new cell's set. -/
def HexSpatialGrid.update (g : HexSpatialGrid) (index : GridIndex)
    (entity : ℕ) : HexSpatialGrid :=
  match getV g.entries entity with
  | some old =>
    { entries := updateValue g.entries entity index,
      data := data_insert (data_remove g.data old entity) index entity }
  | none =>
    { entries := g.entries ++ [(entity, index)],
      data := data_insert g.data index entity }

/-- `HexSpatialGrid::remove`: no-op when the entity is not indexed. -/
def HexSpatialGrid.remove (g : HexSpatialGrid) (entity : ℕ) : HexSpatialGrid :=
  match getV g.entries entity with
  | none => g
  | some position =>
    { entries := eraseKey g.entries entity,
      data := data_remove g.data position entity }

/-- A call to the spatial index's mutating interface. -/
inductive SpatialOp where
  | update (c : GridIndex) (e : ℕ)
  | remove (e : ℕ)

/-- The empty spatial index (`HexSpatialGrid::default`). -/
def emptySpatial : HexSpatialGrid := ⟨[], []⟩

/-- Apply a sequence of `update`/`remove` calls. -/
def apply_ops (ops : List SpatialOp) (g : HexSpatialGrid) : HexSpatialGrid :=
  ops.foldl
    (fun g op =>
      match op with
      | SpatialOp.update c e => g.update c e
      | SpatialOp.remove e => g.remove e)
    g

theorem mem_setInsert {e e' : ℕ} {l : List ℕ} :
    e' ∈ setInsert e l ↔ e' = e ∨ e' ∈ l := by
  unfold setInsert
  by_cases h : e ∈ l
  · rw [if_pos h]
    exact ⟨fun h' => Or.inr h', fun h' => h'.elim (fun he => he ▸ h) id⟩
  · rw [if_neg h]
    exact List.mem_cons

theorem mem_setRemove {e e' : ℕ} {l : List ℕ} :
    e' ∈ setRemove e l ↔ e' ∈ l ∧ ¬ e' = e := by
  unfold setRemove
  simp [List.mem_filter]

theorem getV_data_remove (d : List (GridIndex × List ℕ)) (c : GridIndex)
    (e : ℕ) (c' : GridIndex) :
    getV (data_remove d c e) c' =
      if c' = c then (getV d c).map (setRemove e) else getV d c' :=
  getV_modifyValue d c (setRemove e) c'

theorem getV_data_insert (d : List (GridIndex × List ℕ)) (c : GridIndex)
    (e : ℕ) (c' : GridIndex) :
    getV (data_insert d c e) c' =
      if c' = c then
        some (match getV d c with | none => [e] | some s => setInsert e s)
      else getV d c' := by
  unfold data_insert
  by_cases hc : containsK d c
  · rw [if_pos hc, getV_modifyValue]
    cases hg : getV d c with
    | none => exact absurd ((getV_eq_none_iff d c).1 hg) (not_not_intro hc)
    | some s => by_cases h1 : c' = c <;> simp [h1, hg]
  · rw [if_neg hc, getV_append_single d c [e] c' hc]
    have hg : getV d c = none := by rw [getV_eq_none_iff]; exact hc
    by_cases h1 : c' = c <;> simp [h1, hg]

/-- Membership in the forward sets after `data_insert`. -/
theorem mem_data_insert (d : List (GridIndex × List ℕ)) (c : GridIndex)
    (ent e : ℕ) (c' : GridIndex) :
    (∃ s, getV (data_insert d c ent) c' = some s ∧ e ∈ s) ↔
      ((c' = c ∧ e = ent) ∨ ∃ s, getV d c' = some s ∧ e ∈ s) := by
  rw [getV_data_insert]
  by_cases hc : c' = c
  · subst hc
    rw [if_pos rfl]
    cases hg : getV d c' with
    | none => simp [mem_setInsert, List.mem_singleton]
    | some s0 => simp [mem_setInsert, hg]
  · rw [if_neg hc]
    simp [hc]

/-- Membership in the forward sets after `data_remove`. -/
theorem mem_data_remove (d : List (GridIndex × List ℕ)) (c : GridIndex)
    (ent e : ℕ) (c' : GridIndex) :
    (∃ s, getV (data_remove d c ent) c' = some s ∧ e ∈ s) ↔
      ((∃ s, getV d c' = some s ∧ e ∈ s) ∧ ¬ (c' = c ∧ e = ent)) := by
  rw [getV_data_remove]
  by_cases hc : c' = c
  · subst hc
    rw [if_pos rfl]
    cases hg : getV d c' with
    | none => simp [hg]
    | some s0 => simp [mem_setRemove, hg]
  · rw [if_neg hc]
    simp [hc]

/-- Consistency of the spatial index: an entity belongs to some cell's
forward set exactly when the reverse map records that cell for it. -/
def SpatialInv (g : HexSpatialGrid) : Prop :=
  ∀ (e : ℕ) (c : GridIndex),
    (∃ s, getV g.data c = some s ∧ e ∈ s) ↔ getV g.entries e = some c

theorem spatialInv_empty : SpatialInv emptySpatial := by
  intro e c
  simp [emptySpatial]

theorem spatialInv_update (g : HexSpatialGrid) (idx : GridIndex) (ent : ℕ)
    (h : SpatialInv g) : SpatialInv (g.update idx ent) := by
  intro e c
  unfold HexSpatialGrid.update
  cases hold : getV g.entries ent with
  | some old =>
    have hco : containsK g.entries ent := containsK_of_getV hold
    simp only []
    rw [mem_data_insert, mem_data_remove, getV_updateValue]
    by_cases he : e = ent
    · subst he
      rw [if_pos rfl, if_pos hco]
      constructor
      · rintro (⟨hc, _⟩ | ⟨hmem, hno⟩)
        · rw [hc]
        · have h2 := (h e c).1 hmem
          rw [hold] at h2
          exact absurd ⟨(Option.some.inj h2).symm, rfl⟩ hno
      · intro hsome
        exact Or.inl ⟨(Option.some.inj hsome).symm, rfl⟩
    · rw [if_neg he]
      constructor
      · rintro (⟨_, he2⟩ | ⟨hmem, _⟩)
        · exact absurd he2 he
        · exact (h e c).1 hmem
      · intro hsome
        refine Or.inr ⟨(h e c).2 hsome, ?_⟩
        rintro ⟨_, he2⟩
        exact he he2
  | none =>
    simp only []
    have hne : ¬ containsK g.entries ent := by
      rw [← getV_eq_none_iff]
      exact hold
    rw [mem_data_insert, getV_append_single g.entries ent idx e hne]
    by_cases he : e = ent
    · subst he
      rw [if_pos rfl]
      constructor
      · rintro (⟨hc, _⟩ | hmem)
        · rw [hc]
        · have h2 := (h e c).1 hmem
          rw [hold] at h2
          exact Option.noConfusion h2
      · intro hsome
        exact Or.inl ⟨(Option.some.inj hsome).symm, rfl⟩
    · rw [if_neg he]
      constructor
      · rintro (⟨_, he2⟩ | hmem)
        · exact absurd he2 he
        · exact (h e c).1 hmem
      · intro hsome
        exact Or.inr ((h e c).2 hsome)

theorem spatialInv_remove (g : HexSpatialGrid) (ent : ℕ)
    (h : SpatialInv g) : SpatialInv (g.remove ent) := by
  intro e c
  unfold HexSpatialGrid.remove
  cases hold : getV g.entries ent with
  | none => exact h e c
  | some old =>
    simp only []
    rw [mem_data_remove, getV_eraseKey]
    by_cases he : e = ent
    · subst he
      rw [if_pos rfl]
      constructor
      · rintro ⟨hmem, hno⟩
        have h2 := (h e c).1 hmem
        rw [hold] at h2
        exact absurd ⟨(Option.some.inj h2).symm, rfl⟩ hno
      · intro hsome
        exact Option.noConfusion hsome
    · rw [if_neg he]
      constructor
      · rintro ⟨hmem, _⟩
        exact (h e c).1 hmem
      · intro hsome
        refine ⟨(h e c).2 hsome, ?_⟩
        rintro ⟨_, he2⟩
        exact he he2

theorem spatialInv_apply_ops (ops : List SpatialOp) (g : HexSpatialGrid)
    (h : SpatialInv g) : SpatialInv (apply_ops ops g) := by
  induction ops generalizing g with
  | nil => exact h
  | cons op t ih =>
    cases op with
    | update c e => exact ih _ (spatialInv_update g c e h)
    | remove e => exact ih _ (spatialInv_remove g e h)

end Spatial

section Geometry

/-- `sqrt(3.0)` of the `AXIAL_CONVERT` matrix, `f32` modelled as `ℝ`. -/
noncomputable def sqrt3 : ℝ := Real.sqrt 3

/-- `GridIndex::to_world_pos`: `AXIAL_CONVERT.mul_vec2((q, r)) * size` with
matrix columns `(√3, 0)` and `(√3/2, 1.5)`. -/
noncomputable def to_world_pos (g : GridIndex) (size : ℝ) : ℝ × ℝ :=
  ((sqrt3 * g.q + sqrt3 / 2 * g.r) * size, (0 * g.q + 1.5 * g.r) * size)

/-- `f32::round`: round half away from zero. -/
noncomputable def round_away (x : ℝ) : ℝ :=
  if 0 ≤ x then ((⌊x + 1 / 2⌋ : ℤ) : ℝ) else ((⌈x - 1 / 2⌉ : ℤ) : ℝ)

/-- `cube_round` from `src/grid.rs`: round each cube axis, then rebuild the
axis with the largest rounding error from the other two. -/
noncomputable def cube_round (v : ℝ × ℝ × ℝ) : ℝ × ℝ × ℝ :=
  let rx := round_away v.1
  let ry := round_away v.2.1
  let rz := round_away v.2.2
  let dx := |rx - v.1|
  let dy := |ry - v.2.1|
  let dz := |rz - v.2.2|
  if dx > dy ∧ dx > dz then (-ry - rz, ry, rz)
  else if dy > dz then (rx, -rx - rz, rz)
  else (rx, ry, -rx - ry)

/-- `axial_to_cube`. -/
def axial_to_cube (v : ℝ × ℝ) : ℝ × ℝ × ℝ := (v.1, v.2, -v.1 - v.2)

/-- `cube_to_axial`. -/
def cube_to_axial (v : ℝ × ℝ × ℝ) : ℝ × ℝ := (v.1, v.2.1)

/-- `axial_round`. -/
noncomputable def axial_round (v : ℝ × ℝ) : ℝ × ℝ :=
  cube_to_axial (cube_round (axial_to_cube v))

/-- The `as i32` cast on an `f32`: truncation toward zero. -/
noncomputable def cast_to_i32 (x : ℝ) : ℤ :=
  if 0 ≤ x then ⌊x⌋ else ⌈x⌉

/-- `GridIndex::from_axial_vec`. -/
noncomputable def from_axial_vec (v : ℝ × ℝ) : GridIndex :=
  let r := axial_round v
  ⟨cast_to_i32 r.1, cast_to_i32 r.2⟩

/-- `GridIndex::from_world_pos`: divide by `size`, apply `AXIAL_INVERTED`
(columns `(√3/3, 0)` and `(-1/3, 2/3)`), then round. -/
noncomputable def from_world_pos (p : ℝ × ℝ) (size : ℝ) : GridIndex :=
  let x := p.1 / size
  let y := p.2 / size
  from_axial_vec (sqrt3 / 3 * x + -(1 / 3) * y, 0 * x + 2 / 3 * y)

/-- `WorldDistance::get_distance`: Euclidean length of the difference of the
world positions. -/
noncomputable def WorldDistance (size : ℝ) (rhs lhs : GridIndex) : ℝ :=
  Real.sqrt (((to_world_pos rhs size).1 - (to_world_pos lhs size).1) ^ 2 +
    ((to_world_pos rhs size).2 - (to_world_pos lhs size).2) ^ 2)

end Geometry

section ClaimC7

/-- C7: after any sequence of `HexSpatialGrid::update` and
`HexSpatialGrid::remove` calls starting from the empty index, every entity
appears in at most one cell's forward set, every entity recorded in the
reverse map lies in the forward set of its recorded cell, and every entity
found in some forward set is recorded in the reverse map with that cell. -/
theorem spatial_index_consistent (ops : List SpatialOp) :
    (∀ e c₁ c₂ s₁ s₂,
        getV (apply_ops ops emptySpatial).data c₁ = some s₁ → e ∈ s₁ →
        getV (apply_ops ops emptySpatial).data c₂ = some s₂ → e ∈ s₂ →
        c₁ = c₂) ∧
    (∀ e c, getV (apply_ops ops emptySpatial).entries e = some c →
        ∃ s, getV (apply_ops ops emptySpatial).data c = some s ∧ e ∈ s) ∧
    (∀ e c s, getV (apply_ops ops emptySpatial).data c = some s → e ∈ s →
        getV (apply_ops ops emptySpatial).entries e = some c) := by
  have h := spatialInv_apply_ops ops emptySpatial spatialInv_empty
  refine ⟨?_, ?_, ?_⟩
  · intro e c₁ c₂ s₁ s₂ h1 he1 h2 he2
    have q1 := (h e c₁).1 ⟨s₁, h1, he1⟩
    have q2 := (h e c₂).1 ⟨s₂, h2, he2⟩
    exact Option.some.inj (q1.symm.trans q2)
  · intro e c hc
    exact (h e c).2 hc
  · intro e c s hc he
    exact (h e c).1 ⟨s, hc, he⟩

end ClaimC7

section ClaimC8

theorem sqrt3_mul_self : sqrt3 * sqrt3 = 3 :=
  Real.mul_self_sqrt (by norm_num)

theorem round_away_intCast (n : ℤ) : round_away (n : ℝ) = n := by
  unfold round_away
  by_cases h : (0 : ℝ) ≤ n
  · rw [if_pos h]
    have hf : ⌊(n : ℝ) + 1 / 2⌋ = n := by
      rw [Int.floor_eq_iff]
      constructor
      · linarith
      · push_cast
        linarith
    rw [hf]
  · rw [if_neg h]
    have hf : ⌈(n : ℝ) - 1 / 2⌉ = n := by
      rw [Int.ceil_eq_iff]
      constructor
      · push_cast
        linarith
      · linarith
    rw [hf]

theorem cast_to_i32_intCast (n : ℤ) : cast_to_i32 (n : ℝ) = n := by
  unfold cast_to_i32
  by_cases h : (0 : ℝ) ≤ n
  · rw [if_pos h, Int.floor_intCast]
  · rw [if_neg h, Int.ceil_intCast]

theorem cube_round_intCast (a b c : ℤ) :
    cube_round ((a : ℝ), (b : ℝ), (c : ℝ)) =
      ((a : ℝ), (b : ℝ), (-(a : ℝ) - (b : ℝ))) := by
  unfold cube_round
  simp only [round_away_intCast]
  norm_num

theorem from_axial_vec_intCast (a b : ℤ) :
    from_axial_vec ((a : ℝ), (b : ℝ)) = ⟨a, b⟩ := by
  unfold from_axial_vec axial_round axial_to_cube cube_to_axial
  have hc : cube_round ((a : ℝ), (b : ℝ), -(a : ℝ) - (b : ℝ)) =
      ((a : ℝ), (b : ℝ), (-(a : ℝ) - (b : ℝ))) := by
    have := cube_round_intCast a b (-a - b)
    push_cast at this
    convert this using 3 <;> push_cast <;> ring
  simp only [hc]
  simp [cast_to_i32_intCast]

/-- C8: round-trip of the hex geometry conversions — for every hex index and
every positive tile size, `from_world_pos (to_world_pos idx size) size`
recovers the index exactly (the inverse linear transform followed by
cube-coordinate rounding is the identity on lattice points).  The `f32`
arithmetic of `src/grid.rs` is modelled as exact real arithmetic. -/
theorem from_world_pos_to_world_pos (g : GridIndex) (size : ℝ)
    (h : 0 < size) : from_world_pos (to_world_pos g size) size = g := by
  have hs : size ≠ 0 := ne_of_gt h
  have h3 : sqrt3 * sqrt3 = 3 := sqrt3_mul_self
  show from_axial_vec
      (sqrt3 / 3 * ((to_world_pos g size).1 / size) +
        -(1 / 3) * ((to_world_pos g size).2 / size),
       0 * ((to_world_pos g size).1 / size) +
        2 / 3 * ((to_world_pos g size).2 / size)) = g
  have e1 : sqrt3 / 3 * ((to_world_pos g size).1 / size) +
      -(1 / 3) * ((to_world_pos g size).2 / size) = ((g.q : ℤ) : ℝ) := by
    unfold to_world_pos
    rw [mul_div_cancel_right₀ _ hs, mul_div_cancel_right₀ _ hs]
    push_cast
    linear_combination ((g.q : ℝ) / 3 + (g.r : ℝ) / 6) * h3
  have e2 : 0 * ((to_world_pos g size).1 / size) +
      2 / 3 * ((to_world_pos g size).2 / size) = ((g.r : ℤ) : ℝ) := by
    unfold to_world_pos
    rw [mul_div_cancel_right₀ _ hs, mul_div_cancel_right₀ _ hs]
    push_cast
    ring
  rw [e1, e2, from_axial_vec_intCast]

/-- Witness for C8 at the index `(1, 2)` and size `1`. -/
theorem from_world_pos_to_world_pos_witness :
    (0 : ℝ) < 1 ∧ from_world_pos (to_world_pos ⟨1, 2⟩ 1) 1 = ⟨1, 2⟩ :=
  ⟨by norm_num, from_world_pos_to_world_pos ⟨1, 2⟩ 1 (by norm_num)⟩

end ClaimC8

section ClaimC4

/-- A faulty substitute predecessor cache holding the two-cycle
`(0,0) ↦ (1,0) ↦ (0,0)`; the designated start `(2,0)` is never reached. -/
def cycCache : List (GridIndex × GridIndex) :=
  [(⟨0, 0⟩, ⟨1, 0⟩), (⟨1, 0⟩, ⟨0, 0⟩)]

theorem resolver_cycle_aux :
    ∀ (fuel : ℕ) (acc : List GridIndex),
      walk_prevs cycCache ⟨2, 0⟩ fuel ⟨0, 0⟩ acc = none ∧
      walk_prevs cycCache ⟨2, 0⟩ fuel ⟨1, 0⟩ acc = none := by
  intro fuel
  induction fuel with
  | zero => intro acc; exact ⟨rfl, rfl⟩
  | succ f ih =>
    intro acc
    constructor
    · rw [walk_prevs]
      rw [show getV cycCache ⟨0, 0⟩ = some ⟨1, 0⟩ from by decide]
      change (if (⟨1, 0⟩ : GridIndex) = ⟨2, 0⟩
          then some (some ((⟨1, 0⟩ : GridIndex) :: acc))
          else walk_prevs cycCache ⟨2, 0⟩ f ⟨1, 0⟩
            ((⟨1, 0⟩ : GridIndex) :: acc)) = none
      rw [if_neg (by decide : ¬ (⟨1, 0⟩ : GridIndex) = ⟨2, 0⟩)]
      exact (ih _).2
    · rw [walk_prevs]
      rw [show getV cycCache ⟨1, 0⟩ = some ⟨0, 0⟩ from by decide]
      change (if (⟨0, 0⟩ : GridIndex) = ⟨2, 0⟩
          then some (some ((⟨0, 0⟩ : GridIndex) :: acc))
          else walk_prevs cycCache ⟨2, 0⟩ f ⟨0, 0⟩
            ((⟨0, 0⟩ : GridIndex) :: acc)) = none
      rw [if_neg (by decide : ¬ (⟨0, 0⟩ : GridIndex) = ⟨2, 0⟩)]
      exact (ih _).1

/-- C4: the backward walk of `get_shortest_path` carries no bound at all
(`src/path/resolver.rs` lines 31-41): on the cyclic substitute cache
`cycCache` with `end = (0,0)` and `start = (2,0)` it exhausts every fuel
budget, i.e. the unbounded Rust loop never terminates, where the claim (and
§4.4 of the spec) requires termination with `none` within the region's cell
count. -/
theorem resolver_unbounded_on_cycle :
    ∀ fuel : ℕ,
      walk_prevs cycCache ⟨2, 0⟩ fuel ⟨0, 0⟩ [⟨0, 0⟩] = none :=
  fun fuel => (resolver_cycle_aux fuel [⟨0, 0⟩]).1

end ClaimC4

section ClaimC2

theorem calculate_path_loop_tries_bound {α : Type} [LinearOrder α]
    [AddCommMonoid α] (df : GridIndex → GridIndex → α) (dmax : α)
    (start ende : GridIndex) (rng : ℕ → ℕ) (num_points : ℕ)
    (cStart : GridIndex) (i tries : ℕ) (path : List GridIndex)
    (ts : List (GridIndex × TileState)) (pos : ℕ) :
    tries ≤ 101 →
      (calculate_path_loop df dmax start ende rng num_points cStart i tries
        path ts pos).2 ≤ 101 := by
  induction cStart, i, tries, path, ts, pos
    using calculate_path_loop.induct df dmax start ende rng num_points with
  | case1 cStart i tries path ts pos hle htgt =>
    intro htries
    rw [dite_eq_ite] at htgt
    rw [calculate_path_loop, dif_pos hle]
    simp only [htgt]
    exact htries
  | case2 cStart i tries path ts pos hle posAfter cEnd htgt p hseg newNodes ih =>
    intro htries
    rw [dite_eq_ite] at htgt
    rw [calculate_path_loop, dif_pos hle]
    simp only [htgt, hseg]
    exact ih htries
  | case3 cStart i tries path ts pos hle cEnd htgt hseg hgt =>
    intro htries
    rw [dite_eq_ite] at htgt
    rw [calculate_path_loop, dif_pos hle]
    simp only [htgt, hseg, dif_pos hgt]
    exact htries
  | case4 cStart i tries path ts pos hle posAfter cEnd htgt hseg hgt ih =>
    intro _
    rw [dite_eq_ite] at htgt
    rw [calculate_path_loop, dif_pos hle]
    simp only [htgt, hseg, dif_neg hgt]
    exact ih (by omega)
  | case5 cStart i tries path ts pos hle =>
    intro htries
    rw [calculate_path_loop, dif_neg hle]
    exact htries

/-- C2: `RandomDijkstra::calculate_path` always terminates (its loop is a
total function: every iteration either advances the segment index, bounded
by `num_points ≤ 3`, or increments the retry counter, and a failure with the
counter above the ceiling of 100 returns `none`).  On every input the retry
counter never passes 101 — the code checks `tries > 100` before
incrementing, so at most 101 resets occur before a further failure yields
the overall `none` — and the call returns either a path or `none`. -/
theorem calculate_path_retry_bounded {α : Type} [LinearOrder α]
    [AddCommMonoid α] (df : GridIndex → GridIndex → α) (dmax : α)
    (c : PathContext) (start ende : GridIndex) (rng : ℕ → ℕ) :
    (calculate_path_loop df dmax start ende rng (1 + rng 0 % 3) start 0 0 []
        (tile_state c start ende) 1).2 ≤ 101 ∧
    (calculate_path df dmax c start ende rng = none ∨
      ∃ p, calculate_path df dmax c start ende rng = some p) := by
  constructor
  · exact calculate_path_loop_tries_bound df dmax start ende rng
      (1 + rng 0 % 3) start 0 0 [] (tile_state c start ende) 1 (by omega)
  · cases h : calculate_path df dmax c start ende rng with
    | none => exact Or.inl rfl
    | some p => exact Or.inr ⟨p, rfl⟩

end ClaimC2

section EngineLemmas

variable {α : Type} [LinearOrder α] [AddCommMonoid α]

/-- Folding a step function preserves any invariant each step preserves. -/
theorem foldl_preserve {β γ : Type} (I : γ → Prop) (step : γ → β → γ)
    (h : ∀ s b, I s → I (step s b)) :
    ∀ (l : List β) (s : γ), I s → I (l.foldl step s) := by
  intro l
  induction l with
  | nil => intro s hs; exact hs
  | cons b t ih => intro s hs; exact ih (step s b) (h s b hs)

theorem mem_eraseKey_sub {V : Type} {l : List (GridIndex × V)}
    {k : GridIndex} {p : GridIndex × V} (h : p ∈ eraseKey l k) : p ∈ l := by
  induction l with
  | nil => simpa [eraseKey] using h
  | cons q t ih =>
    obtain ⟨k0, v0⟩ := q
    rw [eraseKey_cons] at h
    by_cases h0 : k0 = k
    · rw [if_pos h0] at h
      exact List.mem_cons_of_mem _ (ih h)
    · rw [if_neg h0] at h
      rcases List.mem_cons.1 h with h1 | h1
      · exact h1 ▸ List.mem_cons_self _ _
      · exact List.mem_cons_of_mem _ (ih h1)

theorem mem_updateValue {V : Type} {l : List (GridIndex × V)}
    {k : GridIndex} {v : V} {p : GridIndex × V} (h : p ∈ updateValue l k v) :
    p = (k, v) ∨ p ∈ l := by
  induction l with
  | nil => simpa [updateValue] using h
  | cons q t ih =>
    obtain ⟨k0, v0⟩ := q
    unfold updateValue at h
    by_cases h0 : k0 = k
    · rw [if_pos h0] at h
      rcases List.mem_cons.1 h with h1 | h1
      · exact Or.inl h1
      · rcases ih h1 with h2 | h2
        · exact Or.inl h2
        · exact Or.inr (List.mem_cons_of_mem _ h2)
    · rw [if_neg h0] at h
      rcases List.mem_cons.1 h with h1 | h1
      · exact Or.inr (h1 ▸ List.mem_cons_self _ _)
      · rcases ih h1 with h2 | h2
        · exact Or.inl h2
        · exact Or.inr (List.mem_cons_of_mem _ h2)

theorem mem_setKey {V : Type} {l : List (GridIndex × V)} {k : GridIndex}
    {v : V} {p : GridIndex × V} (h : p ∈ setKey l k v) :
    p = (k, v) ∨ p ∈ l := by
  unfold setKey at h
  by_cases hc : containsK l k
  · rw [if_pos hc] at h
    exact mem_updateValue h
  · rw [if_neg hc] at h
    rcases List.mem_append.1 h with h1 | h1
    · exact Or.inr h1
    · exact Or.inl (List.mem_singleton.1 h1)

/-- Distance-cache values are bounded by the sentinel. -/
def ValLe (dmax : α) (dists : List (GridIndex × α)) : Prop :=
  ∀ k x, getV dists k = some x → x ≤ dmax

theorem relaxDir_keys (df : GridIndex → GridIndex → α) (ts) (m : GridIndex)
    (d : α) (st : List (GridIndex × α) × List (GridIndex × GridIndex)) (dir) :
    keysOf (relaxDir df ts m d st dir).1 = keysOf st.1 := by
  unfold relaxDir
  by_cases h : can_be_path ts (m + dir)
  · simp only [if_pos h]
    unfold update_distance
    cases hg : getV st.1 (m + dir) with
    | none => rfl
    | some old =>
      by_cases hv : df (m + dir) m + d < old
      · simp [hv]
      · simp [hv]
  · simp [if_neg h]

/-- The single-direction relaxation either leaves the state alone or
strictly decreases one existing entry and records `m` as its predecessor. -/
theorem relaxDir_cases (df : GridIndex → GridIndex → α) (ts) (m : GridIndex)
    (d : α) (st : List (GridIndex × α) × List (GridIndex × GridIndex)) (dir) :
    relaxDir df ts m d st dir = st ∨
    ∃ old, can_be_path ts (m + dir) ∧
      getV st.1 (m + dir) = some old ∧ df (m + dir) m + d < old ∧
      relaxDir df ts m d st dir =
        (updateValue st.1 (m + dir) (df (m + dir) m + d),
         setKey st.2 (m + dir) m) := by
  unfold relaxDir
  by_cases h : can_be_path ts (m + dir)
  · simp only [if_pos h]
    unfold update_distance
    cases hg : getV st.1 (m + dir) with
    | none => exact Or.inl rfl
    | some old =>
      by_cases hv : df (m + dir) m + d < old
      · refine Or.inr ⟨old, h, rfl, hv, ?_⟩
        simp [hv]
      · simp [hv]
  · simp [if_neg h]

end EngineLemmas

section RankAcyclic

variable {α : Type} [LinearOrder α] [AddCommMonoid α]

/-- Acyclicity invariant of the predecessor cache: every entry's value (the
predecessor) is already finalized (not in the distance cache), and the entry
either has a key still in the distance cache with a value strictly below the
sentinel, or respects a strictly decreasing rank. -/
def RankInvP (dmax : α) (rankf : GridIndex → ℕ)
    (dists : List (GridIndex × α)) (prevs : List (GridIndex × GridIndex)) :
    Prop :=
  ∀ p ∈ prevs, p.2 ∉ keysOf dists ∧
    ((∃ x, getV dists p.1 = some x ∧ x < dmax) ∨ rankf p.2 < rankf p.1)

theorem le_foldr_max (l : List ℕ) : ∀ a ∈ l, a ≤ l.foldr max 0 := by
  induction l with
  | nil => intro a ha; simp at ha
  | cons b t ih =>
    intro a ha
    rcases List.mem_cons.1 ha with h | h
    · subst h; exact le_max_left _ _
    · exact le_trans (ih a h) (le_max_right _ _)

theorem relaxAll_rank (df : GridIndex → GridIndex → α) (dmax : α) (ts)
    (m : GridIndex) (d : α) (rest : List (GridIndex × α))
    (prevs : List (GridIndex × GridIndex)) (rankf : GridIndex → ℕ)
    (hm : m ∉ keysOf rest) (hVal : ValLe dmax rest)
    (hPrev : RankInvP dmax rankf rest prevs) :
    ValLe dmax (relaxAll df ts m d rest prevs).1 ∧
    keysOf (relaxAll df ts m d rest prevs).1 = keysOf rest ∧
    RankInvP dmax rankf (relaxAll df ts m d rest prevs).1
      (relaxAll df ts m d rest prevs).2 := by
  have main :
      ValLe dmax (relaxAll df ts m d rest prevs).1 ∧
      keysOf (relaxAll df ts m d rest prevs).1 = keysOf rest ∧
      ∀ p ∈ (relaxAll df ts m d rest prevs).2, p.2 ∉ keysOf rest ∧
        ((∃ x, getV (relaxAll df ts m d rest prevs).1 p.1 = some x ∧
            x < dmax) ∨ rankf p.2 < rankf p.1) := by
    unfold relaxAll
    refine foldl_preserve
      (fun st => ValLe dmax st.1 ∧ keysOf st.1 = keysOf rest ∧
        ∀ p ∈ st.2, p.2 ∉ keysOf rest ∧
          ((∃ x, getV st.1 p.1 = some x ∧ x < dmax) ∨
            rankf p.2 < rankf p.1))
      (relaxDir df ts m d) ?_ GridDirections (rest, prevs)
      ⟨hVal, rfl, fun p hp => (hPrev p hp)⟩
    intro st dir ⟨hV, hK, hP⟩
    rcases relaxDir_cases df ts m d st dir with he | ⟨old, hcb, hold, hlt, he⟩
    · rw [he]; exact ⟨hV, hK, hP⟩
    · rw [he]
      have hnewle : df (m + dir) m + d < dmax :=
        lt_of_lt_of_le hlt (hV _ _ hold)
      have hcont : containsK st.1 (m + dir) := containsK_of_getV hold
      refine ⟨?_, ?_, ?_⟩
      · intro k x hx
        rw [getV_updateValue] at hx
        by_cases hk : k = m + dir
        · rw [if_pos hk, if_pos hcont] at hx
          exact le_of_lt (lt_of_le_of_lt (le_of_eq (Option.some.inj hx).symm)
            hnewle)
        · rw [if_neg hk] at hx
          exact hV k x hx
      · rw [keysOf_updateValue]; exact hK
      · intro p hp
        rcases mem_setKey hp with hpe | hpe
        · subst hpe
          refine ⟨hm, Or.inl ⟨df (m + dir) m + d, ?_, hnewle⟩⟩
          rw [getV_updateValue, if_pos rfl, if_pos hcont]
        · obtain ⟨hv, hd⟩ := hP p hpe
          refine ⟨hv, ?_⟩
          rcases hd with ⟨x, hx, hxlt⟩ | hr
          · by_cases hk : p.1 = m + dir
            · refine Or.inl ⟨df (m + dir) m + d, ?_, hnewle⟩
              rw [getV_updateValue, if_pos hk, if_pos hcont]
            · refine Or.inl ⟨x, ?_, hxlt⟩
              rw [getV_updateValue, if_neg hk]
              exact hx
          · exact Or.inr hr
  refine ⟨main.1, main.2.1, ?_⟩
  intro p hp
  obtain ⟨h1, h2⟩ := main.2.2 p hp
  refine ⟨?_, h2⟩
  rw [main.2.1]
  exact h1

theorem calc_none (df : GridIndex → GridIndex → α) (dmax : α) (ts)
    (dists : List (GridIndex × α)) (prevs) (h : get_min dists = none) :
    calcualte_distances df dmax ts dists prevs = prevs := by
  rw [calcualte_distances]
  split
  · rfl
  · next m2 d2 rest2 heq =>
    rw [h] at heq
    exact Option.noConfusion heq

theorem calc_max (df : GridIndex → GridIndex → α) (dmax : α) (ts)
    (dists : List (GridIndex × α)) (prevs) (m : GridIndex) (rest)
    (h : get_min dists = some ((m, dmax), rest)) :
    calcualte_distances df dmax ts dists prevs = prevs := by
  rw [calcualte_distances]
  split
  · next heq => exact Option.noConfusion (heq.symm.trans h)
  · next m2 d2 rest2 heq =>
    rw [h] at heq
    injection heq with heq1
    injection heq1 with heq2 heq3
    injection heq2 with heq4 heq5
    rw [if_pos heq5.symm]

theorem calc_blocked (df : GridIndex → GridIndex → α) (dmax : α) (ts)
    (dists : List (GridIndex × α)) (prevs) (m : GridIndex) (d : α) (rest)
    (h : get_min dists = some ((m, d), rest)) (hd : ¬ d = dmax)
    (hb : ¬ can_be_path ts m) :
    calcualte_distances df dmax ts dists prevs =
      calcualte_distances df dmax ts rest prevs := by
  rw [calcualte_distances]
  split
  · next heq => exact Option.noConfusion (heq.symm.trans h)
  · next m2 d2 rest2 heq =>
    rw [h] at heq
    injection heq with heq1
    injection heq1 with heq2 heq3
    injection heq2 with heq4 heq5
    subst heq4
    subst heq5
    subst heq3
    rw [if_neg hd, if_pos hb]

theorem calc_step (df : GridIndex → GridIndex → α) (dmax : α) (ts)
    (dists : List (GridIndex × α)) (prevs) (m : GridIndex) (d : α) (rest)
    (h : get_min dists = some ((m, d), rest)) (hd : ¬ d = dmax)
    (hb : can_be_path ts m) :
    calcualte_distances df dmax ts dists prevs =
      calcualte_distances df dmax ts (relaxAll df ts m d rest prevs).1
        (relaxAll df ts m d rest prevs).2 := by
  rw [calcualte_distances]
  split
  · next heq => exact Option.noConfusion (heq.symm.trans h)
  · next m2 d2 rest2 heq =>
    rw [h] at heq
    injection heq with heq1
    injection heq1 with heq2 heq3
    injection heq2 with heq4 heq5
    subst heq4
    subst heq5
    subst heq3
    rw [if_neg hd, if_neg (not_not_intro hb)]

theorem not_mem_keysOf_eraseKey {K V : Type} [DecidableEq K]
    (l : List (K × V)) (k : K) : k ∉ keysOf (eraseKey l k) := by
  induction l with
  | nil => simp [eraseKey, keysOf]
  | cons p t ih =>
    obtain ⟨k0, v0⟩ := p
    rw [eraseKey_cons]
    by_cases h0 : k0 = k
    · rw [if_pos h0]; exact ih
    · rw [if_neg h0, keysOf_cons]
      intro hm
      rcases List.mem_cons.1 hm with he | ht
      · exact h0 he.symm
      · exact ih ht

/-- After a full run of the relaxation loop, the predecessor cache is
acyclic: some rank strictly decreases along every predecessor link. -/
theorem calc_rank_final (df : GridIndex → GridIndex → α) (dmax : α) (ts)
    (dists : List (GridIndex × α)) (prevs : List (GridIndex × GridIndex)) :
    ValLe dmax dists →
    (∀ k ∈ keysOf dists, can_be_path ts k) →
    (∃ rankf : GridIndex → ℕ, RankInvP dmax rankf dists prevs) →
    ∃ rankf : GridIndex → ℕ,
      ∀ p ∈ calcualte_distances df dmax ts dists prevs,
        rankf p.2 < rankf p.1 := by
  induction dists, prevs using calcualte_distances.induct df dmax ts with
  | case1 dists prevs hmin =>
    rintro _ _ ⟨rankf, hR⟩
    refine ⟨rankf, ?_⟩
    rw [calc_none df dmax ts dists prevs hmin]
    intro p hp
    have hd : dists = [] := (get_min_eq_none_iff dists).1 hmin
    rcases (hR p hp).2 with ⟨x, hx, _⟩ | h2
    · rw [hd] at hx; exact absurd hx (by simp)
    · exact h2
  | case2 dists prevs m rest hmin =>
    rintro _ _ ⟨rankf, hR⟩
    refine ⟨rankf, ?_⟩
    rw [calc_max df dmax ts dists prevs m rest hmin]
    intro p hp
    obtain ⟨_, hle, _⟩ := get_min_spec hmin
    rcases (hR p hp).2 with ⟨x, hx, hxlt⟩ | h2
    · exact absurd hxlt (not_lt.2 (hle _ (getV_mem hx)))
    · exact h2
  | case3 dists prevs m d rest hmin hd hb ih =>
    rintro _ hUD _
    obtain ⟨hmem, _, _⟩ := get_min_spec hmin
    exact absurd (hUD m (List.mem_map.2 ⟨(m, d), hmem, rfl⟩)) hb
  | case4 dists prevs m d rest hmin hd hb st ih =>
    rintro hVal hUD ⟨rankf, hR⟩
    obtain ⟨hmem, _, hrest⟩ := get_min_spec hmin
    have hmkeys : m ∈ keysOf dists := List.mem_map.2 ⟨(m, d), hmem, rfl⟩
    have hmk : m ∉ keysOf rest := by
      rw [hrest]
      exact not_mem_keysOf_eraseKey dists m
    have hValrest : ValLe dmax rest := by
      intro k x hx
      rw [hrest, getV_eraseKey] at hx
      by_cases hk : k = m
      · rw [if_pos hk] at hx; exact Option.noConfusion hx
      · rw [if_neg hk] at hx; exact hVal k x hx
    have hUDrest : ∀ k ∈ keysOf rest, can_be_path ts k := by
      intro k hk
      obtain ⟨p, hp, hpk⟩ := List.mem_map.1 hk
      have hpd : p ∈ dists := by rw [hrest] at hp; exact mem_eraseKey_sub hp
      exact hUD k (List.mem_map.2 ⟨p, hpd, hpk⟩)
    set B := (prevs.map (fun p => rankf p.2)).foldr max 0 with hB
    set rankf2 := (fun x => if x = m then B + 1 else rankf x) with hrf
    have hR2pre : RankInvP dmax rankf2 rest prevs := by
      intro p hp
      obtain ⟨hv, hdisj⟩ := hR p hp
      have hvrest : p.2 ∉ keysOf rest := by
        intro hk
        obtain ⟨q, hq, hqk⟩ := List.mem_map.1 hk
        have hqd : q ∈ dists := by rw [hrest] at hq; exact mem_eraseKey_sub hq
        exact hv (List.mem_map.2 ⟨q, hqd, hqk⟩)
      refine ⟨hvrest, ?_⟩
      have hvm : ¬ p.2 = m := fun he => hv (he ▸ hmkeys)
      have hrfv : rankf2 p.2 = rankf p.2 := by rw [hrf]; simp [hvm]
      have hub : rankf p.2 ≤ B := by
        rw [hB]
        exact le_foldr_max _ _ (List.mem_map.2 ⟨p, hp, rfl⟩)
      rcases hdisj with ⟨x, hx, hxlt⟩ | hrk
      · by_cases hk : p.1 = m
        · refine Or.inr ?_
          rw [hrfv, hrf]
          simp only [hk, if_pos rfl, if_true]
          omega
        · refine Or.inl ⟨x, ?_, hxlt⟩
          rw [hrest, getV_eraseKey, if_neg hk]
          exact hx
      · refine Or.inr ?_
        rw [hrfv, hrf]
        by_cases hk : p.1 = m
        · simp only [hk, if_pos rfl, if_true]
          omega
        · simp only [if_neg hk]
          exact hrk
    obtain ⟨hV2, hK2, hR2⟩ :=
      relaxAll_rank df dmax ts m d rest prevs rankf2 hmk hValrest hR2pre
    rw [calc_step df dmax ts dists prevs m d rest hmin hd (not_not.1 hb)]
    have hUDst :
        ∀ k ∈ keysOf (relaxAll df ts m d rest prevs).1, can_be_path ts k := by
      intro k hk
      rw [hK2] at hk
      exact hUDrest k hk
    exact ih hV2 hUDst ⟨rankf2, hR2⟩

end RankAcyclic

section WalkNodup

/-- Along a successful backward walk, each step prepends a strictly
rank-smaller cell, so the returned node list is a strictly rank-increasing
chain. -/
theorem walk_prevs_chain (prevs : List (GridIndex × GridIndex))
    (start : GridIndex) (rankf : GridIndex → ℕ)
    (hrk : ∀ p ∈ prevs, rankf p.2 < rankf p.1) :
    ∀ fuel cur acc l,
      List.Chain' (fun a b => rankf a < rankf b) acc →
      (∀ a ∈ acc, rankf cur ≤ rankf a) →
      walk_prevs prevs start fuel cur acc = some (some l) →
      List.Chain' (fun a b => rankf a < rankf b) l := by
  intro fuel
  induction fuel with
  | zero =>
    intro cur acc l _ _ hw
    exact Option.noConfusion hw
  | succ fuel ih =>
    intro cur acc l hch hle hw
    cases hg : getV prevs cur with
    | none =>
      simp only [walk_prevs, hg] at hw
      exact Option.noConfusion (Option.some.inj hw)
    | some p =>
      simp only [walk_prevs, hg] at hw
      have hlt : rankf p < rankf cur := hrk (cur, p) (getV_mem hg)
      have hchx : List.Chain' (fun a b => rankf a < rankf b) (p :: acc) := by
        rcases acc with _ | ⟨a0, at0⟩
        · simp
        · refine List.chain'_cons.2 ⟨?_, hch⟩
          exact lt_of_lt_of_le hlt (hle a0 (List.mem_cons_self a0 at0))
      by_cases hp : p = start
      · rw [if_pos hp] at hw
        have he : p :: acc = l := Option.some.inj (Option.some.inj hw)
        rw [← he]
        exact hchx
      · rw [if_neg hp] at hw
        refine ih p (p :: acc) l hchx ?_ hw
        intro a ha
        rcases List.mem_cons.1 ha with h | h
        · rw [h]
        · exact le_of_lt (lt_of_lt_of_le hlt (hle a h))

/-- A strictly rank-increasing node list has no duplicates. -/
theorem chain_rank_nodup (rankf : GridIndex → ℕ) (l : List GridIndex)
    (h : List.Chain' (fun a b => rankf a < rankf b) l) : l.Nodup := by
  have hm : List.Chain' (fun a b : ℕ => a < b) (l.map rankf) :=
    (List.chain'_map rankf).2 h
  have hp : (l.map rankf).Pairwise (fun a b : ℕ => a < b) :=
    List.chain'_iff_pairwise.1 hm
  have hn : (l.map rankf).Nodup := hp.imp (fun hab => Nat.ne_of_lt hab)
  exact List.Nodup.of_map rankf hn

/-- If some rank strictly decreases along every predecessor link, every node
list returned by the resolver is duplicate-free. -/
theorem get_shortest_path_nodup (prevs : List (GridIndex × GridIndex))
    (start ende : GridIndex) (rankf : GridIndex → ℕ)
    (hrk : ∀ p ∈ prevs, rankf p.2 < rankf p.1) (l : List GridIndex)
    (h : get_shortest_path prevs ende start = some l) : l.Nodup := by
  rw [get_shortest_path] at h
  cases hw : walk_prevs prevs start (prevs.length + 1) ende [ende] with
  | none =>
    simp only [hw] at h
    exact Option.noConfusion h
  | some r =>
    simp only [hw] at h
    refine chain_rank_nodup rankf l
      (walk_prevs_chain prevs start rankf hrk (prevs.length + 1) ende
        [ende] l (List.chain'_singleton ende) ?_ ?_)
    · intro a ha
      rw [List.mem_singleton.1 ha]
    · rw [hw, h]

end WalkNodup

section InitialDistances

variable {α : Type} [LinearOrder α] [AddCommMonoid α]

theorem getV_map_pair {β : Type} (f : (GridIndex × TileState) → β)
    (l : List (GridIndex × TileState)) (k : GridIndex) (x : β)
    (h : getV (l.map fun p => (p.1, f p)) k = some x) :
    ∃ p ∈ l, p.1 = k ∧ x = f p := by
  induction l with
  | nil => exact Option.noConfusion h
  | cons p t ih =>
    rw [List.map_cons, getV_cons] at h
    by_cases hk : p.1 = k
    · rw [if_pos hk] at h
      exact ⟨p, List.mem_cons_self p t, hk, (Option.some.inj h).symm⟩
    · rw [if_neg hk] at h
      obtain ⟨q, hq, hqk, hx⟩ := ih h
      exact ⟨q, List.mem_cons_of_mem p hq, hqk, hx⟩

/-- Every value seeded by `get_initial_distances` is `0` at `start` and the
sentinel elsewhere. -/
theorem getV_initial (dmax : α) (ts : List (GridIndex × TileState))
    (start k : GridIndex) (x : α)
    (h : getV (get_initial_distances dmax ts start) k = some x) :
    x = (if k = start then 0 else dmax) := by
  rw [get_initial_distances] at h
  obtain ⟨p, _, hpk, hx⟩ :=
    getV_map_pair (fun p => if p.1 = start then 0 else dmax) _ k x h
  rw [hx, hpk]

theorem initial_ValLe (dmax : α) (ts : List (GridIndex × TileState))
    (start : GridIndex) (hdmax : 0 ≤ dmax) :
    ValLe dmax (get_initial_distances dmax ts start) := by
  intro k x hx
  rw [getV_initial dmax ts start k x hx]
  by_cases hk : k = start
  · rw [if_pos hk]; exact hdmax
  · rw [if_neg hk]

/-- Keys seeded by `get_initial_distances` are exactly the non-blocked
tile-state entries; under the hash-map key invariant they are pathable. -/
theorem initial_keys_pathable (dmax : α) (ts : List (GridIndex × TileState))
    (start : GridIndex) (hts : NodupKeys ts) :
    ∀ k ∈ keysOf (get_initial_distances dmax ts start), can_be_path ts k := by
  intro k hk
  obtain ⟨q, hq, hqk⟩ := List.mem_map.1 hk
  rw [get_initial_distances] at hq
  obtain ⟨p, hp, hpk⟩ := List.mem_map.1 hq
  obtain ⟨hpts, hpb⟩ := List.mem_filter.1 hp
  have hkp : p.1 = k := by rw [← hqk, ← hpk]
  have hgv : getV ts k = some p.2 := by
    rw [← hkp]
    exact mem_getV_of_nodup hts hpts
  intro hb
  rw [is_blocked, hgv] at hb
  have hpb2 : ¬ p.2 = TileState.Blocked := by
    have := of_decide_eq_true hpb
    exact this
  exact hpb2 (Option.some.inj hb)

end InitialDistances

section ClaimC10

variable {α : Type} [LinearOrder α] [AddCommMonoid α]

/-- C10: assuming the per-edge distance function is strictly positive (as
the constant-one and world-distance functions are), every path returned by a
single Dijkstra engine run (`DijkstraData::run` resolved by
`ShortesPathResolver`) is simple — its nodes are pairwise distinct — because
relaxation records a predecessor only on a strict distance improvement, so
the walked predecessor links never form a cycle. -/
theorem dijkstra_path_simple (df : GridIndex → GridIndex → α) (dmax : α)
    (ts : List (GridIndex × TileState)) (start ende : GridIndex) (p : HexPath)
    (hpos : ∀ a b : GridIndex, 0 < df a b) (hdmax : 0 ≤ dmax)
    (hts : NodupKeys ts)
    (h : try_get_path df dmax ts start ende = some p) :
    p.nodes.Nodup := by
  rw [try_get_path, dijkstra_run, resolve_path] at h
  cases hg : get_shortest_path (calcualte_distances df dmax ts
      (get_initial_distances dmax ts start) []) ende start with
  | none =>
    rw [hg] at h
    exact Option.noConfusion h
  | some l =>
    rw [hg] at h
    have he : HexPath.mk l start ende = p := Option.some.inj h
    rw [← he]
    obtain ⟨rankf, hrk⟩ :=
      calc_rank_final df dmax ts (get_initial_distances dmax ts start) []
        (initial_ValLe dmax ts start hdmax)
        (initial_keys_pathable dmax ts start hts)
        ⟨fun _ => 0, fun p hp => absurd hp (List.not_mem_nil p)⟩
    exact get_shortest_path_nodup _ start ende rankf hrk l hg

/-- Concrete two-cell region used by the C10 witness. -/
def tsTwo : List (GridIndex × TileState) :=
  [(⟨0, 0⟩, TileState.Useable), (⟨1, 0⟩, TileState.Useable)]

/-- The path the engine produces on `tsTwo` from `(0,0)` to `(1,0)`. -/
def pathTwo : HexPath := ⟨[⟨0, 0⟩, ⟨1, 0⟩], ⟨0, 0⟩, ⟨1, 0⟩⟩

/-- Concrete evaluation of the engine run on `tsTwo` (the well-founded
relaxation loop is unfolded step by step through its unfolding lemmas). -/
theorem try_get_path_two :
    try_get_path constOneDF u32MAX tsTwo ⟨0, 0⟩ ⟨1, 0⟩ = some pathTwo := by
  rw [try_get_path, dijkstra_run]
  rw [calc_step constOneDF u32MAX tsTwo
      (get_initial_distances u32MAX tsTwo ⟨0, 0⟩) [] ⟨0, 0⟩ 0
      [(⟨1, 0⟩, u32MAX)] (by decide) (by decide) (by decide)]
  have h1a : (relaxAll constOneDF tsTwo ⟨0, 0⟩ 0 [(⟨1, 0⟩, u32MAX)] []).1
      = [(⟨1, 0⟩, 1)] := by decide
  have h1b : (relaxAll constOneDF tsTwo ⟨0, 0⟩ 0 [(⟨1, 0⟩, u32MAX)] []).2
      = [(⟨1, 0⟩, ⟨0, 0⟩)] := by decide
  rw [h1a, h1b]
  rw [calc_step constOneDF u32MAX tsTwo [(⟨1, 0⟩, 1)] [(⟨1, 0⟩, ⟨0, 0⟩)]
      ⟨1, 0⟩ 1 [] (by decide) (by decide) (by decide)]
  have h2a : (relaxAll constOneDF tsTwo ⟨1, 0⟩ 1 [] [(⟨1, 0⟩, ⟨0, 0⟩)]).1
      = [] := by decide
  have h2b : (relaxAll constOneDF tsTwo ⟨1, 0⟩ 1 [] [(⟨1, 0⟩, ⟨0, 0⟩)]).2
      = [(⟨1, 0⟩, ⟨0, 0⟩)] := by decide
  rw [h2a, h2b]
  rw [calc_none constOneDF u32MAX tsTwo [] [(⟨1, 0⟩, ⟨0, 0⟩)] (by decide)]
  decide

/-- C10 witness: a concrete two-cell region where the run succeeds and the
returned path is duplicate-free. -/
theorem dijkstra_path_simple_witness :
    (∀ a b : GridIndex, 0 < constOneDF a b) ∧ (0 : ℕ) ≤ u32MAX ∧
    NodupKeys tsTwo ∧
    try_get_path constOneDF u32MAX tsTwo ⟨0, 0⟩ ⟨1, 0⟩ = some pathTwo ∧
    pathTwo.nodes.Nodup :=
  ⟨fun _ _ => Nat.one_pos, Nat.zero_le _, by decide, try_get_path_two,
    dijkstra_path_simple constOneDF u32MAX tsTwo ⟨0, 0⟩ ⟨1, 0⟩ pathTwo
      (fun _ _ => Nat.one_pos) (Nat.zero_le _) (by decide) try_get_path_two⟩

end ClaimC10

section ResolverLemmas

/-- The resolver gives up immediately when the predecessor cache has no
entry for `end`: the first lookup of the backward walk fails. -/
theorem get_shortest_path_no_entry (prevs : List (GridIndex × GridIndex))
    (start ende : GridIndex) (h : getV prevs ende = none) :
    get_shortest_path prevs ende start = none := by
  rw [get_shortest_path]
  have hw : walk_prevs prevs start (prevs.length + 1) ende [ende]
      = some none := by
    simp only [walk_prevs, h]
  simp only [hw]

end ResolverLemmas

section ClaimC9

variable {α : Type} [LinearOrderedAddCommMonoid α]

/-- With a nonnegative edge-distance function and nonnegative cache values
whose entries at `s` are all `≤ 0`, the relaxation loop never records a
predecessor for `s`: every successful relaxation strictly decreases a value,
and no value can drop below the value already held at `s`. -/
theorem calc_start_not_in_prevs (df : GridIndex → GridIndex → α) (dmax : α)
    (ts : List (GridIndex × TileState)) (s : GridIndex)
    (hdf : ∀ a b : GridIndex, 0 ≤ df a b)
    (dists : List (GridIndex × α)) (prevs : List (GridIndex × GridIndex)) :
    (∀ p ∈ dists, 0 ≤ p.2) →
    (∀ p ∈ dists, p.1 = s → p.2 ≤ 0) →
    s ∉ keysOf prevs →
    s ∉ keysOf (calcualte_distances df dmax ts dists prevs) := by
  induction dists, prevs using calcualte_distances.induct df dmax ts with
  | case1 dists prevs hmin =>
    intro _ _ hs
    rw [calc_none df dmax ts dists prevs hmin]
    exact hs
  | case2 dists prevs m rest hmin =>
    intro _ _ hs
    rw [calc_max df dmax ts dists prevs m rest hmin]
    exact hs
  | case3 dists prevs m d rest hmin hd hb ih =>
    intro hN hS hs
    obtain ⟨_, _, hrest⟩ := get_min_spec hmin
    rw [calc_blocked df dmax ts dists prevs m d rest hmin hd hb]
    refine ih ?_ ?_ hs
    · intro p hp
      rw [hrest] at hp
      exact hN p (mem_eraseKey_sub hp)
    · intro p hp
      rw [hrest] at hp
      exact hS p (mem_eraseKey_sub hp)
  | case4 dists prevs m d rest hmin hd hb st ih =>
    intro hN hS hs
    obtain ⟨hmem, _, hrest⟩ := get_min_spec hmin
    have hd0 : 0 ≤ d := hN (m, d) hmem
    have hNrest : ∀ p ∈ rest, 0 ≤ p.2 := by
      intro p hp
      rw [hrest] at hp
      exact hN p (mem_eraseKey_sub hp)
    have hSrest : ∀ p ∈ rest, p.1 = s → p.2 ≤ 0 := by
      intro p hp
      rw [hrest] at hp
      exact hS p (mem_eraseKey_sub hp)
    rw [calc_step df dmax ts dists prevs m d rest hmin hd (not_not.1 hb)]
    have main : (∀ p ∈ (relaxAll df ts m d rest prevs).1, 0 ≤ p.2) ∧
        (∀ p ∈ (relaxAll df ts m d rest prevs).1, p.1 = s → p.2 ≤ 0) ∧
        s ∉ keysOf (relaxAll df ts m d rest prevs).2 := by
      unfold relaxAll
      refine foldl_preserve
        (fun st2 => (∀ p ∈ st2.1, 0 ≤ p.2) ∧
          (∀ p ∈ st2.1, p.1 = s → p.2 ≤ 0) ∧ s ∉ keysOf st2.2)
        (relaxDir df ts m d) ?_ GridDirections (rest, prevs)
        ⟨hNrest, hSrest, hs⟩
      intro st2 dir hI
      obtain ⟨h1, h2, h3⟩ := hI
      rcases relaxDir_cases df ts m d st2 dir with he | ⟨old, hcb, hold, hlt, he⟩
      · rw [he]; exact ⟨h1, h2, h3⟩
      · rw [he]
        have hnew0 : 0 ≤ df (m + dir) m + d := add_nonneg (hdf _ _) hd0
        have hne : ¬ (m + dir) = s := by
          intro hes
          have hmem2 : ((m + dir), old) ∈ st2.1 := getV_mem hold
          have hold0 : old ≤ 0 := h2 _ hmem2 hes
          exact absurd hlt (not_lt.2 (le_trans hold0 hnew0))
        refine ⟨?_, ?_, ?_⟩
        · intro p hp
          rcases mem_updateValue hp with hpe | hpe
          · rw [hpe]; exact hnew0
          · exact h1 p hpe
        · intro p hp hps
          rcases mem_updateValue hp with hpe | hpe
          · rw [hpe] at hps; exact absurd hps hne
          · exact h2 p hpe hps
        · intro hk
          obtain ⟨p, hp, hpk⟩ := List.mem_map.1 hk
          rcases mem_setKey hp with hpe | hpe
          · rw [hpe] at hpk; exact hne hpk
          · exact h3 (List.mem_map.2 ⟨p, hpe, hpk⟩)
    exact ih main.1 main.2.1 main.2.2

/-- C9 (amended): when the designated start cell equals the designated end
cell, the core path search does *not* produce a single-cell path: the start
cell never receives a predecessor entry, the resolver's first lookup fails,
and the run returns the failure signal `none`. -/
theorem start_eq_end_returns_none (df : GridIndex → GridIndex → α) (dmax : α)
    (ts : List (GridIndex × TileState)) (s : GridIndex)
    (hdf : ∀ a b : GridIndex, 0 ≤ df a b) (hdmax : 0 ≤ dmax) :
    try_get_path df dmax ts s s = none := by
  rw [try_get_path, dijkstra_run, resolve_path]
  have hfin : s ∉ keysOf (calcualte_distances df dmax ts
      (get_initial_distances dmax ts s) []) := by
    refine calc_start_not_in_prevs df dmax ts s hdf _ [] ?_ ?_ ?_
    · intro p hp
      rw [get_initial_distances] at hp
      obtain ⟨q, hq, hqe⟩ := List.mem_map.1 hp
      rw [← hqe]
      show 0 ≤ if q.1 = s then 0 else dmax
      by_cases hqs : q.1 = s
      · rw [if_pos hqs]
      · rw [if_neg hqs]; exact hdmax
    · intro p hp hps
      rw [get_initial_distances] at hp
      obtain ⟨q, hq, hqe⟩ := List.mem_map.1 hp
      rw [← hqe] at hps ⊢
      show (if q.1 = s then 0 else dmax) ≤ 0
      rw [if_pos hps]
    · exact List.not_mem_nil s
  have hnone : getV (calcualte_distances df dmax ts
      (get_initial_distances dmax ts s) []) s = none :=
    (getV_eq_none_iff _ _).2 hfin
  rw [get_shortest_path_no_entry _ s s hnone]
  rfl

/-- Concrete evaluation of the engine run on a one-cell region with
`start == end`. -/
theorem try_get_path_single_eval :
    try_get_path constOneDF u32MAX [(⟨0, 0⟩, TileState.Useable)]
      ⟨0, 0⟩ ⟨0, 0⟩ = none := by
  rw [try_get_path, dijkstra_run]
  rw [calc_step constOneDF u32MAX [(⟨0, 0⟩, TileState.Useable)]
      (get_initial_distances u32MAX [(⟨0, 0⟩, TileState.Useable)] ⟨0, 0⟩) []
      ⟨0, 0⟩ 0 [] (by decide) (by decide) (by decide)]
  have ha : (relaxAll constOneDF [(⟨0, 0⟩, TileState.Useable)]
      ⟨0, 0⟩ 0 [] []).1 = [] := by decide
  have hb : (relaxAll constOneDF [(⟨0, 0⟩, TileState.Useable)]
      ⟨0, 0⟩ 0 [] []).2 = [] := by decide
  rw [ha, hb]
  rw [calc_none constOneDF u32MAX [(⟨0, 0⟩, TileState.Useable)] [] []
    (by decide)]
  decide

/-- C9 counterexample: on a one-cell region with `start == end == (0,0)` the
run returns `none`, not the single-cell path claimed by the spec. -/
theorem start_eq_end_not_single_cell :
    ¬ (try_get_path constOneDF u32MAX [(⟨0, 0⟩, TileState.Useable)]
        ⟨0, 0⟩ ⟨0, 0⟩ =
      some ⟨[⟨0, 0⟩], ⟨0, 0⟩, ⟨0, 0⟩⟩) := by
  rw [try_get_path_single_eval]
  exact fun h => Option.noConfusion h

/-- C9 witness: the amended behavior at a concrete one-cell region. -/
theorem start_eq_end_returns_none_witness :
    (∀ a b : GridIndex, 0 ≤ constOneDF a b) ∧ (0 : ℕ) ≤ u32MAX ∧
    try_get_path constOneDF u32MAX [(⟨0, 0⟩, TileState.Useable)]
      ⟨0, 0⟩ ⟨0, 0⟩ = none :=
  ⟨fun _ _ => Nat.zero_le _, Nat.zero_le _,
    start_eq_end_returns_none constOneDF u32MAX
      [(⟨0, 0⟩, TileState.Useable)] ⟨0, 0⟩
      (fun _ _ => Nat.zero_le _) (Nat.zero_le _)⟩

end ClaimC9

section ClaimC5

variable {α : Type} [LinearOrder α] [AddCommMonoid α]

/-- Cells connected to `start` by a chain of hex-neighbor steps through
cells the engine may use (`can_be_path`): a "Useable connecting route". -/
inductive Reachable (ts : List (GridIndex × TileState)) (start : GridIndex) :
    GridIndex → Prop
  | base : Reachable ts start start
  | step (m dir : GridIndex) : Reachable ts start m → dir ∈ GridDirections →
      can_be_path ts (m + dir) → Reachable ts start (m + dir)

theorem foldl_preserve_mem {β γ : Type} (I : γ → Prop) (step : γ → β → γ) :
    ∀ (l : List β), (∀ s b, b ∈ l → I s → I (step s b)) →
      ∀ s, I s → I (l.foldl step s) := by
  intro l
  induction l with
  | nil => intro _ s hs; exact hs
  | cons b t ih =>
    intro h s hs
    rw [List.foldl_cons]
    exact ih (fun s2 b2 hb2 hs2 => h s2 b2 (List.mem_cons_of_mem b hb2) hs2)
      (step s b) (h s b (List.mem_cons_self b t) hs)

/-- Relaxation never escapes the reachable set: every distance-cache entry
below the sentinel and every predecessor-cache key stays reachable from
`start`. -/
theorem calc_reach (df : GridIndex → GridIndex → α) (dmax : α)
    (ts : List (GridIndex × TileState)) (start : GridIndex)
    (dists : List (GridIndex × α)) (prevs : List (GridIndex × GridIndex)) :
    (∀ p ∈ dists, p.2 ≤ dmax) →
    (∀ p ∈ dists, ¬ p.2 = dmax → Reachable ts start p.1) →
    (∀ p ∈ prevs, Reachable ts start p.1) →
    ∀ p ∈ calcualte_distances df dmax ts dists prevs,
      Reachable ts start p.1 := by
  induction dists, prevs using calcualte_distances.induct df dmax ts with
  | case1 dists prevs hmin =>
    intro _ _ hP
    rw [calc_none df dmax ts dists prevs hmin]
    exact hP
  | case2 dists prevs m rest hmin =>
    intro _ _ hP
    rw [calc_max df dmax ts dists prevs m rest hmin]
    exact hP
  | case3 dists prevs m d rest hmin hd hb ih =>
    intro hV hD hP
    obtain ⟨_, _, hrest⟩ := get_min_spec hmin
    rw [calc_blocked df dmax ts dists prevs m d rest hmin hd hb]
    refine ih ?_ ?_ hP
    · intro p hp
      rw [hrest] at hp
      exact hV p (mem_eraseKey_sub hp)
    · intro p hp
      rw [hrest] at hp
      exact hD p (mem_eraseKey_sub hp)
  | case4 dists prevs m d rest hmin hd hb st ih =>
    intro hV hD hP
    obtain ⟨hmem, _, hrest⟩ := get_min_spec hmin
    have hRm : Reachable ts start m := hD (m, d) hmem hd
    have hVrest : ∀ p ∈ rest, p.2 ≤ dmax := by
      intro p hp
      rw [hrest] at hp
      exact hV p (mem_eraseKey_sub hp)
    have hDrest : ∀ p ∈ rest, ¬ p.2 = dmax → Reachable ts start p.1 := by
      intro p hp
      rw [hrest] at hp
      exact hD p (mem_eraseKey_sub hp)
    rw [calc_step df dmax ts dists prevs m d rest hmin hd (not_not.1 hb)]
    have main : (∀ p ∈ (relaxAll df ts m d rest prevs).1, p.2 ≤ dmax) ∧
        (∀ p ∈ (relaxAll df ts m d rest prevs).1, ¬ p.2 = dmax →
          Reachable ts start p.1) ∧
        (∀ p ∈ (relaxAll df ts m d rest prevs).2,
          Reachable ts start p.1) := by
      unfold relaxAll
      refine foldl_preserve_mem
        (fun st2 => (∀ p ∈ st2.1, p.2 ≤ dmax) ∧
          (∀ p ∈ st2.1, ¬ p.2 = dmax → Reachable ts start p.1) ∧
          (∀ p ∈ st2.2, Reachable ts start p.1))
        (relaxDir df ts m d) GridDirections ?_ (rest, prevs)
        ⟨hVrest, hDrest, hP⟩
      intro st2 dir hdir hI
      obtain ⟨h1, h2, h3⟩ := hI
      rcases relaxDir_cases df ts m d st2 dir with he | ⟨old, hcb, hold, hlt, he⟩
      · rw [he]; exact ⟨h1, h2, h3⟩
      · rw [he]
        have hRn : Reachable ts start (m + dir) :=
          Reachable.step m dir hRm hdir hcb
        have holdmem : ((m + dir), old) ∈ st2.1 := getV_mem hold
        have hnewlt : df (m + dir) m + d < dmax :=
          lt_of_lt_of_le hlt (h1 _ holdmem)
        refine ⟨?_, ?_, ?_⟩
        · intro p hp
          rcases mem_updateValue hp with hpe | hpe
          · rw [hpe]; exact le_of_lt hnewlt
          · exact h1 p hpe
        · intro p hp hpd
          rcases mem_updateValue hp with hpe | hpe
          · rw [hpe]; exact hRn
          · exact h2 p hpe hpd
        · intro p hp
          rcases mem_setKey hp with hpe | hpe
          · rw [hpe]; exact hRn
          · exact h3 p hpe
    exact ih main.1 main.2.1 main.2.2

/-- C5: for any two cells with no Useable connecting route, the engine run
returns `none` (and with it the resolver, whose backward walk fails at its
first lookup): the final predecessor cache carries no entry for the
unreachable `end` cell. -/
theorem unreachable_returns_none (df : GridIndex → GridIndex → α) (dmax : α)
    (ts : List (GridIndex × TileState)) (start ende : GridIndex)
    (hdmax : 0 ≤ dmax) (hnr : ¬ Reachable ts start ende) :
    try_get_path df dmax ts start ende = none := by
  rw [try_get_path, dijkstra_run, resolve_path]
  have hfin : ∀ p ∈ calcualte_distances df dmax ts
      (get_initial_distances dmax ts start) [], Reachable ts start p.1 := by
    refine calc_reach df dmax ts start _ [] ?_ ?_ ?_
    · intro p hp
      rw [get_initial_distances] at hp
      obtain ⟨q, hq, hqe⟩ := List.mem_map.1 hp
      rw [← hqe]
      show (if q.1 = start then 0 else dmax) ≤ dmax
      by_cases hqs : q.1 = start
      · rw [if_pos hqs]; exact hdmax
      · rw [if_neg hqs]
    · intro p hp hpd
      rw [get_initial_distances] at hp
      obtain ⟨q, hq, hqe⟩ := List.mem_map.1 hp
      rw [← hqe] at hpd ⊢
      by_cases hqs : q.1 = start
      · show Reachable ts start q.1
        rw [hqs]
        exact Reachable.base
      · exact absurd (if_neg hqs) hpd
    · intro p hp
      exact absurd hp (List.not_mem_nil p)
  have hne : ende ∉ keysOf (calcualte_distances df dmax ts
      (get_initial_distances dmax ts start) []) := by
    intro hk
    obtain ⟨p, hp, hpk⟩ := List.mem_map.1 hk
    exact hnr (hpk ▸ hfin p hp)
  have hnone := (getV_eq_none_iff _ _).2 hne
  rw [get_shortest_path_no_entry _ start ende hnone]
  rfl

/-- A blocked cell distinct from `start` is not reachable: its own last step
would need it pathable. -/
theorem not_reachable_blocked (ts : List (GridIndex × TileState))
    (start e : GridIndex) (hb : is_blocked ts e) (hne : ¬ e = start) :
    ¬ Reachable ts start e := by
  intro h
  cases h with
  | base => exact hne rfl
  | step m dir hm hdir hcb => exact hcb hb

/-- C5 witness: a region whose `end` cell is itself Blocked, hence walled
off; the run answers `none`. -/
theorem unreachable_returns_none_witness :
    (0 : ℕ) ≤ u32MAX ∧
    ¬ Reachable [(⟨1, 0⟩, TileState.Blocked)] ⟨0, 0⟩ ⟨1, 0⟩ ∧
    try_get_path constOneDF u32MAX [(⟨1, 0⟩, TileState.Blocked)]
      ⟨0, 0⟩ ⟨1, 0⟩ = none :=
  ⟨Nat.zero_le _,
    not_reachable_blocked _ _ _ (by decide) (by decide),
    unreachable_returns_none constOneDF u32MAX
      [(⟨1, 0⟩, TileState.Blocked)] ⟨0, 0⟩ ⟨1, 0⟩ (Nat.zero_le _)
      (not_reachable_blocked _ _ _ (by decide) (by decide))⟩

end ClaimC5

section GeneratorLemmas

variable {α : Type} [LinearOrder α] [AddCommMonoid α]

/-- Keys and values of the predecessor cache are always pathable cells:
keys are relaxed neighbors (each write is guarded by `can_be_path`), values
are extracted cells that passed the same guard. -/
theorem calc_prevs_pathable (df : GridIndex → GridIndex → α) (dmax : α)
    (ts : List (GridIndex × TileState))
    (dists : List (GridIndex × α)) (prevs : List (GridIndex × GridIndex)) :
    (∀ p ∈ prevs, can_be_path ts p.1 ∧ can_be_path ts p.2) →
    ∀ p ∈ calcualte_distances df dmax ts dists prevs,
      can_be_path ts p.1 ∧ can_be_path ts p.2 := by
  induction dists, prevs using calcualte_distances.induct df dmax ts with
  | case1 dists prevs hmin =>
    intro hP
    rw [calc_none df dmax ts dists prevs hmin]
    exact hP
  | case2 dists prevs m rest hmin =>
    intro hP
    rw [calc_max df dmax ts dists prevs m rest hmin]
    exact hP
  | case3 dists prevs m d rest hmin hd hb ih =>
    intro hP
    rw [calc_blocked df dmax ts dists prevs m d rest hmin hd hb]
    exact ih hP
  | case4 dists prevs m d rest hmin hd hb st ih =>
    intro hP
    rw [calc_step df dmax ts dists prevs m d rest hmin hd (not_not.1 hb)]
    have main : ∀ p ∈ (relaxAll df ts m d rest prevs).2,
        can_be_path ts p.1 ∧ can_be_path ts p.2 := by
      unfold relaxAll
      refine foldl_preserve
        (fun st2 => ∀ p ∈ st2.2, can_be_path ts p.1 ∧ can_be_path ts p.2)
        (relaxDir df ts m d) ?_ GridDirections (rest, prevs) hP
      intro st2 dir hI
      rcases relaxDir_cases df ts m d st2 dir with he | ⟨old, hcb, hold, hlt, he⟩
      · rw [he]; exact hI
      · rw [he]
        intro p hp
        rcases mem_setKey hp with hpe | hpe
        · rw [hpe]; exact ⟨hcb, not_not.1 hb⟩
        · exact hI p hpe
    exact ih main

/-- Every node the backward walk accumulates is either already in the
accumulator or a predecessor-cache value. -/
theorem walk_prevs_mem (prevs : List (GridIndex × GridIndex))
    (start : GridIndex) :
    ∀ fuel cur acc l,
      walk_prevs prevs start fuel cur acc = some (some l) →
      ∀ n ∈ l, n ∈ acc ∨ ∃ q ∈ prevs, q.2 = n := by
  intro fuel
  induction fuel with
  | zero => intro cur acc l hw; exact Option.noConfusion hw
  | succ fuel ih =>
    intro cur acc l hw
    cases hg : getV prevs cur with
    | none =>
      simp only [walk_prevs, hg] at hw
      exact Option.noConfusion (Option.some.inj hw)
    | some p =>
      simp only [walk_prevs, hg] at hw
      by_cases hp : p = start
      · rw [if_pos hp] at hw
        have he : p :: acc = l := Option.some.inj (Option.some.inj hw)
        intro n hn
        rw [← he] at hn
        rcases List.mem_cons.1 hn with h | h
        · exact Or.inr ⟨(cur, p), getV_mem hg, h.symm⟩
        · exact Or.inl h
      · rw [if_neg hp] at hw
        intro n hn
        rcases ih p (p :: acc) l hw n hn with h | h
        · rcases List.mem_cons.1 h with h2 | h2
          · exact Or.inr ⟨(cur, p), getV_mem hg, h2.symm⟩
          · exact Or.inl h2
        · exact Or.inr h

/-- A successful resolve requires a predecessor entry at `end`. -/
theorem get_shortest_path_entry (prevs : List (GridIndex × GridIndex))
    (start ende : GridIndex) (l : List GridIndex)
    (h : get_shortest_path prevs ende start = some l) :
    ∃ v, getV prevs ende = some v := by
  cases hg : getV prevs ende with
  | none =>
    rw [get_shortest_path_no_entry prevs start ende hg] at h
    exact Option.noConfusion h
  | some v => exact ⟨v, rfl⟩

/-- Every node of a resolved path is `end` or a predecessor-cache value. -/
theorem get_shortest_path_mem (prevs : List (GridIndex × GridIndex))
    (start ende : GridIndex) (l : List GridIndex)
    (h : get_shortest_path prevs ende start = some l) :
    ∀ n ∈ l, n = ende ∨ ∃ q ∈ prevs, q.2 = n := by
  rw [get_shortest_path] at h
  cases hw : walk_prevs prevs start (prevs.length + 1) ende [ende] with
  | none =>
    simp only [hw] at h
    exact Option.noConfusion h
  | some r =>
    simp only [hw] at h
    intro n hn
    rcases walk_prevs_mem prevs start (prevs.length + 1) ende [ende] l
        (by rw [hw, h]) n hn with h2 | h2
    · exact Or.inl (List.mem_singleton.1 h2)
    · exact Or.inr h2

/-- Decomposition of a successful `try_get_path`. -/
theorem try_get_path_some (df : GridIndex → GridIndex → α) (dmax : α)
    (ts : List (GridIndex × TileState)) (a b : GridIndex) (p : HexPath)
    (h : try_get_path df dmax ts a b = some p) :
    get_shortest_path (calcualte_distances df dmax ts
      (get_initial_distances dmax ts a) []) b a = some p.nodes ∧
    p.start = a ∧ p.ende = b := by
  rw [try_get_path, dijkstra_run, resolve_path] at h
  cases hg : get_shortest_path (calcualte_distances df dmax ts
      (get_initial_distances dmax ts a) []) b a with
  | none =>
    rw [hg] at h
    exact Option.noConfusion h
  | some l =>
    rw [hg] at h
    have he : HexPath.mk l a b = p := Option.some.inj h
    have hn : p.nodes = l := by rw [← he]
    have hs : p.start = a := by rw [← he]
    have hee : p.ende = b := by rw [← he]
    exact ⟨by rw [hn], hs, hee⟩

/-- A successful run certifies that `end` is pathable, and that every node
other than `end` is pathable in the tile state the run used. -/
theorem try_get_path_pathable (df : GridIndex → GridIndex → α) (dmax : α)
    (ts : List (GridIndex × TileState)) (a b : GridIndex) (p : HexPath)
    (h : try_get_path df dmax ts a b = some p) :
    can_be_path ts b ∧ ∀ n ∈ p.nodes, ¬ n = b → can_be_path ts n := by
  obtain ⟨hg, _, _⟩ := try_get_path_some df dmax ts a b p h
  have hPP : ∀ q ∈ calcualte_distances df dmax ts
      (get_initial_distances dmax ts a) [],
      can_be_path ts q.1 ∧ can_be_path ts q.2 :=
    calc_prevs_pathable df dmax ts _ []
      (fun q hq => absurd hq (List.not_mem_nil q))
  constructor
  · obtain ⟨v, hv⟩ := get_shortest_path_entry _ a b p.nodes hg
    exact (hPP (b, v) (getV_mem hv)).1
  · intro n hn hnb
    rcases get_shortest_path_mem _ a b p.nodes hg n hn with h2 | h2
    · exact absurd h2 hnb
    · obtain ⟨q, hq, hq2⟩ := h2
      rw [← hq2]
      exact (hPP q hq).2

/-- Every successfully resolved engine path has duplicate-free nodes (the
rank argument, packaged at the `try_get_path` level). -/
theorem try_get_path_nodup (df : GridIndex → GridIndex → α) (dmax : α)
    (ts : List (GridIndex × TileState)) (a b : GridIndex) (p : HexPath)
    (hdmax : 0 ≤ dmax) (hts : NodupKeys ts)
    (h : try_get_path df dmax ts a b = some p) :
    p.nodes.Nodup := by
  obtain ⟨hg, _, _⟩ := try_get_path_some df dmax ts a b p h
  obtain ⟨rankf, hrk⟩ :=
    calc_rank_final df dmax ts (get_initial_distances dmax ts a) []
      (initial_ValLe dmax ts a hdmax)
      (initial_keys_pathable dmax ts a hts)
      ⟨fun _ => 0, fun q hq => absurd hq (List.not_mem_nil q)⟩
  exact get_shortest_path_nodup _ a b rankf hrk p.nodes hg

/-- Blocking a list of cells blocks exactly those cells and keeps every
already-blocked cell blocked. -/
theorem foldl_block_spec (l : List GridIndex) :
    ∀ ts : List (GridIndex × TileState),
      (∀ n, is_blocked ts n → is_blocked
        (l.foldl (fun t n2 => set_state t n2 TileState.Blocked) ts) n) ∧
      (∀ n ∈ l, is_blocked
        (l.foldl (fun t n2 => set_state t n2 TileState.Blocked) ts) n) := by
  induction l with
  | nil =>
    intro ts
    exact ⟨fun n h => h, fun n hn => absurd hn (List.not_mem_nil n)⟩
  | cons x t ih =>
    intro ts
    rw [List.foldl_cons]
    constructor
    · intro n h
      refine (ih (set_state ts x TileState.Blocked)).1 n ?_
      show getV (setKey ts x TileState.Blocked) n = some TileState.Blocked
      rw [getV_setKey]
      by_cases hx : n = x
      · rw [if_pos hx]
      · rw [if_neg hx]; exact h
    · intro n hn
      rcases List.mem_cons.1 hn with h | h
      · refine (ih (set_state ts x TileState.Blocked)).1 n ?_
        show getV (setKey ts x TileState.Blocked) n = some TileState.Blocked
        rw [getV_setKey, if_pos h]
      · exact (ih (set_state ts x TileState.Blocked)).2 n h

/-- Re-marking cells keeps the hash-map key invariant. -/
theorem foldl_set_state_nodup (s : TileState) (l : List GridIndex) :
    ∀ ts : List (GridIndex × TileState), NodupKeys ts →
      NodupKeys (l.foldl (fun t n => set_state t n s) ts) := by
  induction l with
  | nil => intro ts h; exact h
  | cons x t ih =>
    intro ts h
    rw [List.foldl_cons]
    exact ih (set_state ts x s) (nodupKeys_setKey ts x s h)

theorem intRange_nodup (a b : Int) : (intRange a b).Nodup := by
  rw [intRange]
  have hinj : Function.Injective (fun i : ℕ => a + (i : Int)) := by
    intro i j hij
    have h2 : a + (i : Int) = a + (j : Int) := hij
    omega
  exact (List.nodup_range _).map hinj

theorem nodup_flatMap {β γ : Type} (f : β → List γ) :
    ∀ l : List β, l.Nodup → (∀ b ∈ l, (f b).Nodup) →
      (∀ b1 ∈ l, ∀ b2 ∈ l, ¬ b1 = b2 → ∀ x ∈ f b1, x ∉ f b2) →
      (l.flatMap f).Nodup := by
  intro l
  induction l with
  | nil => intro _ _ _; exact List.nodup_nil
  | cons b t ih =>
    intro hl hf hdisj
    rw [List.flatMap_cons]
    have hbt : b ∉ t := (List.nodup_cons.1 hl).1
    refine List.Nodup.append (hf b (List.mem_cons_self b t)) ?_ ?_
    · exact ih (List.nodup_cons.1 hl).2
        (fun b2 hb2 => hf b2 (List.mem_cons_of_mem b hb2))
        (fun b1 hb1 b2 hb2 hne => hdisj b1 (List.mem_cons_of_mem b hb1) b2
          (List.mem_cons_of_mem b hb2) hne)
    · intro x hx hx2
      obtain ⟨b2, hb2, hxb2⟩ := List.mem_flatMap.1 hx2
      have hne : ¬ b = b2 := fun he => hbt (he ▸ hb2)
      exact hdisj b (List.mem_cons_self b t) b2 (List.mem_cons_of_mem b hb2)
        hne x hx hxb2

theorem all_cells_nodup (columns rows : Int) :
    (all_cells columns rows).Nodup := by
  rw [all_cells]
  refine nodup_flatMap _ _ (intRange_nodup _ _) ?_ ?_
  · intro r hr
    refine List.Nodup.map ?_ (intRange_nodup _ _)
    intro q1 q2 h
    injection h with h1 h2
  · intro r1 hr1 r2 hr2 hne x hx hx2
    obtain ⟨q1, hq1m, hq1⟩ := List.mem_map.1 hx
    obtain ⟨q2, hq2m, hq2⟩ := List.mem_map.1 hx2
    have he : (⟨q1, r1⟩ : GridIndex) = ⟨q2, r2⟩ := hq1.trans hq2.symm
    injection he with h1 h2
    exact hne h2

theorem keysOf_tile_state (c : PathContext) (start ende : GridIndex) :
    keysOf (tile_state c start ende) = all_cells c.columns c.rows := by
  rw [tile_state, keysOf, List.map_map]
  show List.map (fun a => a) (all_cells c.columns c.rows)
      = all_cells c.columns c.rows
  exact List.map_id' _

theorem tile_state_nodup (c : PathContext) (start ende : GridIndex) :
    NodupKeys (tile_state c start ende) := by
  unfold NodupKeys
  rw [keysOf_tile_state]
  exact all_cells_nodup _ _

end GeneratorLemmas

section ClaimC6

variable {α : Type} [LinearOrder α] [AddCommMonoid α]

/-- The stitching-loop invariant: the tile-state cache keeps distinct keys,
the accumulated path is duplicate-free and fully blocked, and once the
segment index passes the waypoint count the end cell is not among the
accumulated nodes; any `some` result of the loop is then duplicate-free. -/
theorem calculate_path_loop_nodup (df : GridIndex → GridIndex → α) (dmax : α)
    (start ende : GridIndex) (rng : ℕ → ℕ) (num_points : ℕ) (hdmax : 0 ≤ dmax)
    (cStart : GridIndex) (i tries : ℕ) (path : List GridIndex)
    (ts : List (GridIndex × TileState)) (pos : ℕ) :
    NodupKeys ts →
    path.Nodup →
    (∀ n ∈ path, is_blocked ts n) →
    (i > num_points → ende ∉ path) →
    ∀ nodes, (calculate_path_loop df dmax start ende rng num_points cStart i
      tries path ts pos).1 = some nodes →
    nodes.Nodup := by
  induction cStart, i, tries, path, ts, pos
    using calculate_path_loop.induct df dmax start ende rng num_points with
  | case1 cStart i tries path ts pos hle htgt =>
    intro _ _ _ _ nodes h
    rw [dite_eq_ite] at htgt
    rw [calculate_path_loop, dif_pos hle] at h
    simp only [htgt] at h
    exact Option.noConfusion h
  | case2 cStart i tries path ts pos hle posAfter cEnd htgt p hseg newNodes ih =>
    intro hND hPN hPB hE nodes h
    rw [dite_eq_ite] at htgt
    rw [calculate_path_loop, dif_pos hle] at h
    simp only [htgt, hseg] at h
    have hnew : newNodes = p.nodes.filter (fun n => ¬ n = cEnd) := rfl
    have hpathable : ∀ n ∈ p.nodes, ¬ n = cEnd → can_be_path ts n :=
      (try_get_path_pathable df dmax ts cStart cEnd p hseg).2
    have hnodes_cb : ∀ n ∈ newNodes, can_be_path ts n := by
      intro n hn
      rw [hnew] at hn
      have h2 := List.mem_filter.1 hn
      exact hpathable n h2.1 (of_decide_eq_true h2.2)
    have hnodes_ne : ∀ n ∈ newNodes, ¬ n = cEnd := by
      intro n hn
      rw [hnew] at hn
      exact of_decide_eq_true (List.mem_filter.1 hn).2
    have hdisj : ∀ n ∈ path, n ∉ newNodes := by
      intro n hn hn2
      exact hnodes_cb n hn2 (hPB n hn)
    have hnodup2 : newNodes.Nodup := by
      rw [hnew]
      exact List.Nodup.filter _
        (try_get_path_nodup df dmax ts cStart cEnd p hdmax hND hseg)
    refine ih ?_ ?_ ?_ ?_ nodes h
    · exact foldl_set_state_nodup TileState.Blocked newNodes ts hND
    · exact List.Nodup.append hPN hnodup2 hdisj
    · intro n hn
      rcases List.mem_append.1 hn with h2 | h2
      · exact (foldl_block_spec newNodes ts).1 n (hPB n h2)
      · exact (foldl_block_spec newNodes ts).2 n h2
    · intro hgt hmem
      have hi : i = num_points := by omega
      have hce : cEnd = ende := by
        rw [if_pos hi] at htgt
        exact (Option.some.inj htgt).symm
      rcases List.mem_append.1 hmem with h2 | h2
      · have hcb : can_be_path ts cEnd :=
          (try_get_path_pathable df dmax ts cStart cEnd p hseg).1
        rw [hce] at hcb
        exact hcb (hPB ende h2)
      · have h3 := hnodes_ne ende h2
        rw [hce] at h3
        exact h3 rfl
  | case3 cStart i tries path ts pos hle cEnd htgt hseg hgt =>
    intro _ _ _ _ nodes h
    rw [dite_eq_ite] at htgt
    rw [calculate_path_loop, dif_pos hle] at h
    simp only [htgt, hseg, dif_pos hgt] at h
    exact Option.noConfusion h
  | case4 cStart i tries path ts pos hle posAfter cEnd htgt hseg hgt ih =>
    intro hND _ _ _ nodes h
    rw [dite_eq_ite] at htgt
    rw [calculate_path_loop, dif_pos hle] at h
    simp only [htgt, hseg, dif_neg hgt] at h
    refine ih ?_ ?_ ?_ ?_ nodes h
    · exact foldl_set_state_nodup TileState.Useable path ts hND
    · exact List.nodup_nil
    · intro n hn
      exact absurd hn (List.not_mem_nil n)
    · intro _ hmem
      exact absurd hmem (List.not_mem_nil ende)
  | case5 cStart i tries path ts pos hle =>
    intro _ hPN _ hE nodes h
    rw [calculate_path_loop, dif_neg hle] at h
    have he : path ++ [ende] = nodes := Option.some.inj h
    rw [← he]
    refine List.Nodup.append hPN (List.nodup_singleton ende) ?_
    intro n hn hn2
    rw [List.mem_singleton.1 hn2] at hn
    exact hE (by omega) hn

/-- C6: every path returned by a successful run of the waypoint-stitching
generator visits each cell at most once: each appended node is marked
Blocked in the local tile-state cache so later segments cannot reuse it, the
final segment to `end` can only succeed while `end` itself is unblocked, and
each segment's own target is filtered before appending, so the nodes of the
returned path (including the final appended end cell) are pairwise
distinct. -/
theorem generator_path_distinct (df : GridIndex → GridIndex → α) (dmax : α)
    (c : PathContext) (start ende : GridIndex) (rng : ℕ → ℕ) (p : HexPath)
    (hdmax : 0 ≤ dmax)
    (h : calculate_path df dmax c start ende rng = some p) :
    p.nodes.Nodup := by
  rw [calculate_path] at h
  cases hg : (calculate_path_loop df dmax start ende rng (1 + rng 0 % 3)
      start 0 0 [] (tile_state c start ende) 1).1 with
  | none =>
    rw [hg] at h
    exact Option.noConfusion h
  | some nodes =>
    rw [hg] at h
    have he : HexPath.mk nodes start ende = p := Option.some.inj h
    have hn : p.nodes = nodes := by rw [← he]
    rw [hn]
    exact calculate_path_loop_nodup df dmax start ende rng (1 + rng 0 % 3)
      hdmax start 0 0 [] (tile_state c start ende) 1
      (tile_state_nodup c start ende) List.nodup_nil
      (fun n hn2 => absurd hn2 (List.not_mem_nil n))
      (fun _ hmem => absurd hmem (List.not_mem_nil ende)) nodes hg

end ClaimC6

section ClaimC6Witness

/-- Concrete one-column, three-cell region for the C6 witness. -/
def ctxG : PathContext := ⟨0, 1, grid_from_rows_and_columns 0 1⟩

/-- Identity rng stream: waypoint count 1, first draw picks the middle
cell. -/
def rngG : ℕ → ℕ := fun n => n

/-- First segment: engine run from the start cell to the drawn waypoint. -/
theorem segA :
    try_get_path constOneDF u32MAX (tile_state ctxG ⟨-1, 0⟩ ⟨1, 0⟩)
      ⟨-1, 0⟩ ⟨0, 0⟩ =
    some ⟨[⟨-1, 0⟩, ⟨0, 0⟩], ⟨-1, 0⟩, ⟨0, 0⟩⟩ := by
  rw [try_get_path, dijkstra_run]
  rw [calc_step constOneDF u32MAX (tile_state ctxG ⟨-1, 0⟩ ⟨1, 0⟩)
      (get_initial_distances u32MAX (tile_state ctxG ⟨-1, 0⟩ ⟨1, 0⟩) ⟨-1, 0⟩)
      [] ⟨-1, 0⟩ 0 [(⟨0, 0⟩, u32MAX), (⟨1, 0⟩, u32MAX)]
      (by decide) (by decide) (by decide)]
  have h1a : (relaxAll constOneDF (tile_state ctxG ⟨-1, 0⟩ ⟨1, 0⟩) ⟨-1, 0⟩ 0
      [(⟨0, 0⟩, u32MAX), (⟨1, 0⟩, u32MAX)] []).1
      = [(⟨0, 0⟩, 1), (⟨1, 0⟩, u32MAX)] := by decide
  have h1b : (relaxAll constOneDF (tile_state ctxG ⟨-1, 0⟩ ⟨1, 0⟩) ⟨-1, 0⟩ 0
      [(⟨0, 0⟩, u32MAX), (⟨1, 0⟩, u32MAX)] []).2
      = [(⟨0, 0⟩, ⟨-1, 0⟩)] := by decide
  rw [h1a, h1b]
  rw [calc_step constOneDF u32MAX (tile_state ctxG ⟨-1, 0⟩ ⟨1, 0⟩)
      [(⟨0, 0⟩, 1), (⟨1, 0⟩, u32MAX)] [(⟨0, 0⟩, ⟨-1, 0⟩)]
      ⟨0, 0⟩ 1 [(⟨1, 0⟩, u32MAX)] (by decide) (by decide) (by decide)]
  have h2a : (relaxAll constOneDF (tile_state ctxG ⟨-1, 0⟩ ⟨1, 0⟩) ⟨0, 0⟩ 1
      [(⟨1, 0⟩, u32MAX)] [(⟨0, 0⟩, ⟨-1, 0⟩)]).1 = [(⟨1, 0⟩, 2)] := by decide
  have h2b : (relaxAll constOneDF (tile_state ctxG ⟨-1, 0⟩ ⟨1, 0⟩) ⟨0, 0⟩ 1
      [(⟨1, 0⟩, u32MAX)] [(⟨0, 0⟩, ⟨-1, 0⟩)]).2
      = [(⟨0, 0⟩, ⟨-1, 0⟩), (⟨1, 0⟩, ⟨0, 0⟩)] := by decide
  rw [h2a, h2b]
  rw [calc_step constOneDF u32MAX (tile_state ctxG ⟨-1, 0⟩ ⟨1, 0⟩)
      [(⟨1, 0⟩, 2)] [(⟨0, 0⟩, ⟨-1, 0⟩), (⟨1, 0⟩, ⟨0, 0⟩)]
      ⟨1, 0⟩ 2 [] (by decide) (by decide) (by decide)]
  have h3a : (relaxAll constOneDF (tile_state ctxG ⟨-1, 0⟩ ⟨1, 0⟩) ⟨1, 0⟩ 2
      [] [(⟨0, 0⟩, ⟨-1, 0⟩), (⟨1, 0⟩, ⟨0, 0⟩)]).1 = [] := by decide
  have h3b : (relaxAll constOneDF (tile_state ctxG ⟨-1, 0⟩ ⟨1, 0⟩) ⟨1, 0⟩ 2
      [] [(⟨0, 0⟩, ⟨-1, 0⟩), (⟨1, 0⟩, ⟨0, 0⟩)]).2
      = [(⟨0, 0⟩, ⟨-1, 0⟩), (⟨1, 0⟩, ⟨0, 0⟩)] := by decide
  rw [h3a, h3b]
  rw [calc_none constOneDF u32MAX (tile_state ctxG ⟨-1, 0⟩ ⟨1, 0⟩) []
      [(⟨0, 0⟩, ⟨-1, 0⟩), (⟨1, 0⟩, ⟨0, 0⟩)] (by decide)]
  decide

/-- Second segment: engine run from the waypoint to the end cell after the
start cell has been blocked. -/
theorem segB :
    try_get_path constOneDF u32MAX
      [(⟨-1, 0⟩, TileState.Blocked), (⟨0, 0⟩, TileState.Useable),
        (⟨1, 0⟩, TileState.Useable)] ⟨0, 0⟩ ⟨1, 0⟩ =
    some ⟨[⟨0, 0⟩, ⟨1, 0⟩], ⟨0, 0⟩, ⟨1, 0⟩⟩ := by
  rw [try_get_path, dijkstra_run]
  rw [calc_step constOneDF u32MAX
      [(⟨-1, 0⟩, TileState.Blocked), (⟨0, 0⟩, TileState.Useable),
        (⟨1, 0⟩, TileState.Useable)]
      (get_initial_distances u32MAX
        [(⟨-1, 0⟩, TileState.Blocked), (⟨0, 0⟩, TileState.Useable),
          (⟨1, 0⟩, TileState.Useable)] ⟨0, 0⟩)
      [] ⟨0, 0⟩ 0 [(⟨1, 0⟩, u32MAX)] (by decide) (by decide) (by decide)]
  have h1a : (relaxAll constOneDF
      [(⟨-1, 0⟩, TileState.Blocked), (⟨0, 0⟩, TileState.Useable),
        (⟨1, 0⟩, TileState.Useable)] ⟨0, 0⟩ 0
      [(⟨1, 0⟩, u32MAX)] []).1 = [(⟨1, 0⟩, 1)] := by decide
  have h1b : (relaxAll constOneDF
      [(⟨-1, 0⟩, TileState.Blocked), (⟨0, 0⟩, TileState.Useable),
        (⟨1, 0⟩, TileState.Useable)] ⟨0, 0⟩ 0
      [(⟨1, 0⟩, u32MAX)] []).2 = [(⟨1, 0⟩, ⟨0, 0⟩)] := by decide
  rw [h1a, h1b]
  rw [calc_step constOneDF u32MAX
      [(⟨-1, 0⟩, TileState.Blocked), (⟨0, 0⟩, TileState.Useable),
        (⟨1, 0⟩, TileState.Useable)]
      [(⟨1, 0⟩, 1)] [(⟨1, 0⟩, ⟨0, 0⟩)] ⟨1, 0⟩ 1 []
      (by decide) (by decide) (by decide)]
  have h2a : (relaxAll constOneDF
      [(⟨-1, 0⟩, TileState.Blocked), (⟨0, 0⟩, TileState.Useable),
        (⟨1, 0⟩, TileState.Useable)] ⟨1, 0⟩ 1 [] [(⟨1, 0⟩, ⟨0, 0⟩)]).1
      = [] := by decide
  have h2b : (relaxAll constOneDF
      [(⟨-1, 0⟩, TileState.Blocked), (⟨0, 0⟩, TileState.Useable),
        (⟨1, 0⟩, TileState.Useable)] ⟨1, 0⟩ 1 [] [(⟨1, 0⟩, ⟨0, 0⟩)]).2
      = [(⟨1, 0⟩, ⟨0, 0⟩)] := by decide
  rw [h2a, h2b]
  rw [calc_none constOneDF u32MAX
      [(⟨-1, 0⟩, TileState.Blocked), (⟨0, 0⟩, TileState.Useable),
        (⟨1, 0⟩, TileState.Useable)] [] [(⟨1, 0⟩, ⟨0, 0⟩)] (by decide)]
  decide

/-- First iteration of the stitching loop on the witness region. -/
theorem genStep0 :
    calculate_path_loop constOneDF u32MAX ⟨-1, 0⟩ ⟨1, 0⟩ rngG 1 ⟨-1, 0⟩ 0 0 []
      (tile_state ctxG ⟨-1, 0⟩ ⟨1, 0⟩) 1 =
    calculate_path_loop constOneDF u32MAX ⟨-1, 0⟩ ⟨1, 0⟩ rngG 1 ⟨0, 0⟩ 1 0
      [⟨-1, 0⟩]
      [(⟨-1, 0⟩, TileState.Blocked), (⟨0, 0⟩, TileState.Useable),
        (⟨1, 0⟩, TileState.Useable)] 2 := by
  rw [calculate_path_loop, dif_pos (by decide : (0 : ℕ) ≤ 1)]
  have h1 : (if (0 : ℕ) = 1 then some (⟨1, 0⟩ : GridIndex)
      else get_random_unoccupied (tile_state ctxG ⟨-1, 0⟩ ⟨1, 0⟩) (rngG 1))
      = some ⟨0, 0⟩ := by decide
  simp only [h1, segA]
  rfl

/-- Second iteration and exit of the stitching loop on the witness
region. -/
theorem genStep1 :
    calculate_path_loop constOneDF u32MAX ⟨-1, 0⟩ ⟨1, 0⟩ rngG 1 ⟨0, 0⟩ 1 0
      [⟨-1, 0⟩]
      [(⟨-1, 0⟩, TileState.Blocked), (⟨0, 0⟩, TileState.Useable),
        (⟨1, 0⟩, TileState.Useable)] 2 =
    (some [⟨-1, 0⟩, ⟨0, 0⟩, ⟨1, 0⟩], 0) := by
  rw [calculate_path_loop, dif_pos (by decide : (1 : ℕ) ≤ 1)]
  simp only [if_true, segB]
  rw [calculate_path_loop, dif_neg (by decide : ¬ (1 + 1 : ℕ) ≤ 1)]
  rfl

/-- Concrete evaluation of the whole generator on the witness region. -/
theorem calc_gen_eval :
    calculate_path constOneDF u32MAX ctxG ⟨-1, 0⟩ ⟨1, 0⟩ rngG =
      some ⟨[⟨-1, 0⟩, ⟨0, 0⟩, ⟨1, 0⟩], ⟨-1, 0⟩, ⟨1, 0⟩⟩ := by
  rw [calculate_path]
  have h0 : 1 + rngG 0 % 3 = 1 := rfl
  rw [h0, genStep0, genStep1]
  rfl

/-- C6 witness: a concrete successful generation whose returned nodes are
pairwise distinct. -/
theorem generator_path_distinct_witness :
    (0 : ℕ) ≤ u32MAX ∧
    calculate_path constOneDF u32MAX ctxG ⟨-1, 0⟩ ⟨1, 0⟩ rngG =
      some ⟨[⟨-1, 0⟩, ⟨0, 0⟩, ⟨1, 0⟩], ⟨-1, 0⟩, ⟨1, 0⟩⟩ ∧
    (HexPath.mk [⟨-1, 0⟩, ⟨0, 0⟩, ⟨1, 0⟩] ⟨-1, 0⟩ ⟨1, 0⟩).nodes.Nodup :=
  ⟨Nat.zero_le _, calc_gen_eval,
    generator_path_distinct constOneDF u32MAX ctxG ⟨-1, 0⟩ ⟨1, 0⟩ rngG
      (HexPath.mk [⟨-1, 0⟩, ⟨0, 0⟩, ⟨1, 0⟩] ⟨-1, 0⟩ ⟨1, 0⟩)
      (Nat.zero_le _) calc_gen_eval⟩

end ClaimC6Witness

section ClaimC3

variable {α : Type} [LinearOrder α] [AddCommMonoid α]

/-- Resetting a list of cells to `Useable` makes each of them `Useable` and
leaves every other entry unchanged. -/
theorem foldl_useable_spec (l : List GridIndex) :
    ∀ ts : List (GridIndex × TileState),
      (∀ n, getV (l.foldl (fun t n2 => set_state t n2 TileState.Useable) ts) n
          = some TileState.Useable ∨
        getV (l.foldl (fun t n2 => set_state t n2 TileState.Useable) ts) n
          = getV ts n) ∧
      (∀ n ∈ l, getV (l.foldl (fun t n2 => set_state t n2 TileState.Useable) ts)
          n = some TileState.Useable) := by
  induction l with
  | nil =>
    intro ts
    exact ⟨fun n => Or.inr rfl, fun n hn => absurd hn (List.not_mem_nil n)⟩
  | cons x t ih =>
    intro ts
    rw [List.foldl_cons]
    constructor
    · intro n
      rcases (ih (set_state ts x TileState.Useable)).1 n with h | h
      · exact Or.inl h
      · rw [h]
        show (getV (setKey ts x TileState.Useable) n = some TileState.Useable)
          ∨ (getV (setKey ts x TileState.Useable) n = getV ts n)
        rw [getV_setKey]
        by_cases hx : n = x
        · rw [if_pos hx]; exact Or.inl rfl
        · rw [if_neg hx]; exact Or.inr rfl
    · intro n hn
      rcases List.mem_cons.1 hn with h | h
      · rcases (ih (set_state ts x TileState.Useable)).1 n with h2 | h2
        · exact h2
        · rw [h2, h]
          show getV (setKey ts x TileState.Useable) x = some TileState.Useable
          rw [getV_setKey, if_pos rfl]
      · exact (ih (set_state ts x TileState.Useable)).2 n h

/-- C3 (amended): whenever a segment of the stitching generator fails to
connect and the retry ceiling is not yet exceeded, the generator resets
every accumulated node back to `Useable` (leaving all other cache entries
unchanged), discards the accumulated path, resets the cursor to `start`, and
retries — drawing fresh targets from the rng stream but keeping the *same*
waypoint count chosen before the loop. -/
theorem generator_failure_reset (df : GridIndex → GridIndex → α) (dmax : α)
    (start ende : GridIndex) (rng : ℕ → ℕ) (num_points : ℕ)
    (cStart : GridIndex) (i tries : ℕ) (path : List GridIndex)
    (ts : List (GridIndex × TileState)) (pos : ℕ) (cEnd : GridIndex)
    (hi : i ≤ num_points)
    (htgt : (if i = num_points then some ende
        else get_random_unoccupied ts (rng pos)) = some cEnd)
    (hseg : try_get_path df dmax ts cStart cEnd = none)
    (htries : ¬ tries > 100) :
    calculate_path_loop df dmax start ende rng num_points cStart i tries path
        ts pos =
      calculate_path_loop df dmax start ende rng num_points start 0
        (tries + 1) []
        (path.foldl (fun t n => set_state t n TileState.Useable) ts)
        (if i = num_points then pos else pos + 1) ∧
    ∀ n ∈ path,
      getV (path.foldl (fun t n => set_state t n TileState.Useable) ts) n
        = some TileState.Useable := by
  constructor
  · rw [calculate_path_loop, dif_pos hi]
    simp only [htgt, hseg]
    rw [dif_neg htries]
  · exact (foldl_useable_spec path ts).2

end ClaimC3

section ClaimC3Witness

/-- The rng stream driving the C3 scenarios: draw 3 picks index 1, every
other draw picks index 0. -/
def rngC : ℕ → ℕ := fun n => if n = 3 then 1 else 0

/-- The final distance run of the engine on the witness region from the
start cell (used for both of its segment evaluations). -/
theorem calcEvalG :
    calcualte_distances constOneDF u32MAX (tile_state ctxG ⟨-1, 0⟩ ⟨1, 0⟩)
      (get_initial_distances u32MAX (tile_state ctxG ⟨-1, 0⟩ ⟨1, 0⟩) ⟨-1, 0⟩)
      [] = [(⟨0, 0⟩, ⟨-1, 0⟩), (⟨1, 0⟩, ⟨0, 0⟩)] := by
  rw [calc_step constOneDF u32MAX (tile_state ctxG ⟨-1, 0⟩ ⟨1, 0⟩)
      (get_initial_distances u32MAX (tile_state ctxG ⟨-1, 0⟩ ⟨1, 0⟩) ⟨-1, 0⟩)
      [] ⟨-1, 0⟩ 0 [(⟨0, 0⟩, u32MAX), (⟨1, 0⟩, u32MAX)]
      (by decide) (by decide) (by decide)]
  have h1a : (relaxAll constOneDF (tile_state ctxG ⟨-1, 0⟩ ⟨1, 0⟩) ⟨-1, 0⟩ 0
      [(⟨0, 0⟩, u32MAX), (⟨1, 0⟩, u32MAX)] []).1
      = [(⟨0, 0⟩, 1), (⟨1, 0⟩, u32MAX)] := by decide
  have h1b : (relaxAll constOneDF (tile_state ctxG ⟨-1, 0⟩ ⟨1, 0⟩) ⟨-1, 0⟩ 0
      [(⟨0, 0⟩, u32MAX), (⟨1, 0⟩, u32MAX)] []).2
      = [(⟨0, 0⟩, ⟨-1, 0⟩)] := by decide
  rw [h1a, h1b]
  rw [calc_step constOneDF u32MAX (tile_state ctxG ⟨-1, 0⟩ ⟨1, 0⟩)
      [(⟨0, 0⟩, 1), (⟨1, 0⟩, u32MAX)] [(⟨0, 0⟩, ⟨-1, 0⟩)]
      ⟨0, 0⟩ 1 [(⟨1, 0⟩, u32MAX)] (by decide) (by decide) (by decide)]
  have h2a : (relaxAll constOneDF (tile_state ctxG ⟨-1, 0⟩ ⟨1, 0⟩) ⟨0, 0⟩ 1
      [(⟨1, 0⟩, u32MAX)] [(⟨0, 0⟩, ⟨-1, 0⟩)]).1 = [(⟨1, 0⟩, 2)] := by decide
  have h2b : (relaxAll constOneDF (tile_state ctxG ⟨-1, 0⟩ ⟨1, 0⟩) ⟨0, 0⟩ 1
      [(⟨1, 0⟩, u32MAX)] [(⟨0, 0⟩, ⟨-1, 0⟩)]).2
      = [(⟨0, 0⟩, ⟨-1, 0⟩), (⟨1, 0⟩, ⟨0, 0⟩)] := by decide
  rw [h2a, h2b]
  rw [calc_step constOneDF u32MAX (tile_state ctxG ⟨-1, 0⟩ ⟨1, 0⟩)
      [(⟨1, 0⟩, 2)] [(⟨0, 0⟩, ⟨-1, 0⟩), (⟨1, 0⟩, ⟨0, 0⟩)]
      ⟨1, 0⟩ 2 [] (by decide) (by decide) (by decide)]
  have h3a : (relaxAll constOneDF (tile_state ctxG ⟨-1, 0⟩ ⟨1, 0⟩) ⟨1, 0⟩ 2
      [] [(⟨0, 0⟩, ⟨-1, 0⟩), (⟨1, 0⟩, ⟨0, 0⟩)]).1 = [] := by decide
  have h3b : (relaxAll constOneDF (tile_state ctxG ⟨-1, 0⟩ ⟨1, 0⟩) ⟨1, 0⟩ 2
      [] [(⟨0, 0⟩, ⟨-1, 0⟩), (⟨1, 0⟩, ⟨0, 0⟩)]).2
      = [(⟨0, 0⟩, ⟨-1, 0⟩), (⟨1, 0⟩, ⟨0, 0⟩)] := by decide
  rw [h3a, h3b]
  rw [calc_none constOneDF u32MAX (tile_state ctxG ⟨-1, 0⟩ ⟨1, 0⟩) []
      [(⟨0, 0⟩, ⟨-1, 0⟩), (⟨1, 0⟩, ⟨0, 0⟩)] (by decide)]

/-- A segment whose target equals its cursor fails. -/
theorem segAA :
    try_get_path constOneDF u32MAX (tile_state ctxG ⟨-1, 0⟩ ⟨1, 0⟩)
      ⟨-1, 0⟩ ⟨-1, 0⟩ = none := by
  rw [try_get_path, dijkstra_run, calcEvalG]
  decide

/-- Source semantics, first attempt: the drawn target equals the cursor, the
segment fails, and the loop retries with the same waypoint count `2`. -/
theorem srcStep0 :
    calculate_path_loop constOneDF u32MAX ⟨-1, 0⟩ ⟨1, 0⟩ rngC 2 ⟨-1, 0⟩ 0 100
      [] (tile_state ctxG ⟨-1, 0⟩ ⟨1, 0⟩) 1 =
    calculate_path_loop constOneDF u32MAX ⟨-1, 0⟩ ⟨1, 0⟩ rngC 2 ⟨-1, 0⟩ 0 101
      [] (tile_state ctxG ⟨-1, 0⟩ ⟨1, 0⟩) 2 := by
  rw [calculate_path_loop, dif_pos (by decide : (0 : ℕ) ≤ 2)]
  rw [if_neg (by decide : ¬ (0 : ℕ) = 2), if_neg (by decide : ¬ (0 : ℕ) = 2)]
  have h1 : get_random_unoccupied (tile_state ctxG ⟨-1, 0⟩ ⟨1, 0⟩) (rngC 1)
      = some ⟨-1, 0⟩ := by decide
  simp only [h1, segAA]
  rw [dif_neg (by decide : ¬ (100 : ℕ) > 100)]
  rfl

/-- Source semantics, second attempt: the same target is drawn again, the
segment fails again, and the exhausted counter yields overall failure. -/
theorem srcStep1 :
    calculate_path_loop constOneDF u32MAX ⟨-1, 0⟩ ⟨1, 0⟩ rngC 2 ⟨-1, 0⟩ 0 101
      [] (tile_state ctxG ⟨-1, 0⟩ ⟨1, 0⟩) 2 = (none, 101) := by
  rw [calculate_path_loop, dif_pos (by decide : (0 : ℕ) ≤ 2)]
  rw [if_neg (by decide : ¬ (0 : ℕ) = 2), if_neg (by decide : ¬ (0 : ℕ) = 2)]
  have h1 : get_random_unoccupied (tile_state ctxG ⟨-1, 0⟩ ⟨1, 0⟩) (rngC 2)
      = some ⟨-1, 0⟩ := by decide
  simp only [h1, segAA]
  rw [dif_pos (by decide : (101 : ℕ) > 100)]

/-- Spec semantics, first attempt: same failure, but the retry redraws the
waypoint count, obtaining `1` instead of `2`. -/
theorem freshStep0 :
    calculate_path_loop_fresh constOneDF u32MAX ⟨-1, 0⟩ ⟨1, 0⟩ rngC 2 ⟨-1, 0⟩
      0 100 [] (tile_state ctxG ⟨-1, 0⟩ ⟨1, 0⟩) 1 =
    calculate_path_loop_fresh constOneDF u32MAX ⟨-1, 0⟩ ⟨1, 0⟩ rngC 1 ⟨-1, 0⟩
      0 101 [] (tile_state ctxG ⟨-1, 0⟩ ⟨1, 0⟩) 3 := by
  rw [calculate_path_loop_fresh, dif_pos (by decide : (0 : ℕ) ≤ 2)]
  rw [if_neg (by decide : ¬ (0 : ℕ) = 2), if_neg (by decide : ¬ (0 : ℕ) = 2)]
  have h1 : get_random_unoccupied (tile_state ctxG ⟨-1, 0⟩ ⟨1, 0⟩) (rngC 1)
      = some ⟨-1, 0⟩ := by decide
  simp only [h1, segAA]
  rw [dif_neg (by decide : ¬ (100 : ℕ) > 100)]
  rfl

/-- Spec semantics, second attempt with the redrawn count `1`: the drawn
waypoint now differs and the segment succeeds. -/
theorem freshStep1 :
    calculate_path_loop_fresh constOneDF u32MAX ⟨-1, 0⟩ ⟨1, 0⟩ rngC 1 ⟨-1, 0⟩
      0 101 [] (tile_state ctxG ⟨-1, 0⟩ ⟨1, 0⟩) 3 =
    calculate_path_loop_fresh constOneDF u32MAX ⟨-1, 0⟩ ⟨1, 0⟩ rngC 1 ⟨0, 0⟩
      1 101 [⟨-1, 0⟩]
      [(⟨-1, 0⟩, TileState.Blocked), (⟨0, 0⟩, TileState.Useable),
        (⟨1, 0⟩, TileState.Useable)] 4 := by
  rw [calculate_path_loop_fresh, dif_pos (by decide : (0 : ℕ) ≤ 1)]
  rw [if_neg (by decide : ¬ (0 : ℕ) = 1), if_neg (by decide : ¬ (0 : ℕ) = 1)]
  have h1 : get_random_unoccupied (tile_state ctxG ⟨-1, 0⟩ ⟨1, 0⟩) (rngC 3)
      = some ⟨0, 0⟩ := by decide
  simp only [h1, segA]
  rfl

/-- Spec semantics, final segment to `end` succeeds and the loop exits with
a path. -/
theorem freshStep2 :
    calculate_path_loop_fresh constOneDF u32MAX ⟨-1, 0⟩ ⟨1, 0⟩ rngC 1 ⟨0, 0⟩
      1 101 [⟨-1, 0⟩]
      [(⟨-1, 0⟩, TileState.Blocked), (⟨0, 0⟩, TileState.Useable),
        (⟨1, 0⟩, TileState.Useable)] 4 =
    (some [⟨-1, 0⟩, ⟨0, 0⟩, ⟨1, 0⟩], 101) := by
  rw [calculate_path_loop_fresh, dif_pos (by decide : (1 : ℕ) ≤ 1)]
  simp only [if_true, segB]
  rw [calculate_path_loop_fresh, dif_neg (by decide : ¬ (1 + 1 : ℕ) ≤ 1)]
  rfl

/-- C3 counterexample: at a concrete failing state, the source loop (which
keeps its waypoint count) and the spec's fresh-count loop return different
results — overall failure versus a successful path. -/
theorem failure_reset_not_fresh :
    ¬ ((calculate_path_loop constOneDF u32MAX ⟨-1, 0⟩ ⟨1, 0⟩ rngC 2 ⟨-1, 0⟩
        0 100 [] (tile_state ctxG ⟨-1, 0⟩ ⟨1, 0⟩) 1).1 =
      (calculate_path_loop_fresh constOneDF u32MAX ⟨-1, 0⟩ ⟨1, 0⟩ rngC 2
        ⟨-1, 0⟩ 0 100 [] (tile_state ctxG ⟨-1, 0⟩ ⟨1, 0⟩) 1).1) := by
  rw [srcStep0, srcStep1, freshStep0, freshStep1, freshStep2]
  exact fun h => Option.noConfusion h

/-- C3 witness: the amended reset equation at a concrete failing state. -/
theorem generator_failure_reset_witness :
    (0 : ℕ) ≤ 1 ∧
    (if (0 : ℕ) = 1 then some (⟨1, 0⟩ : GridIndex)
      else get_random_unoccupied (tile_state ctxG ⟨-1, 0⟩ ⟨1, 0⟩) (rngC 1))
      = some ⟨-1, 0⟩ ∧
    try_get_path constOneDF u32MAX (tile_state ctxG ⟨-1, 0⟩ ⟨1, 0⟩)
      ⟨-1, 0⟩ ⟨-1, 0⟩ = none ∧
    ¬ (0 : ℕ) > 100 ∧
    (calculate_path_loop constOneDF u32MAX ⟨-1, 0⟩ ⟨1, 0⟩ rngC 1 ⟨-1, 0⟩ 0 0
        [⟨0, 0⟩] (tile_state ctxG ⟨-1, 0⟩ ⟨1, 0⟩) 1 =
      calculate_path_loop constOneDF u32MAX ⟨-1, 0⟩ ⟨1, 0⟩ rngC 1 ⟨-1, 0⟩ 0
        1 []
        ([⟨0, 0⟩].foldl (fun t n => set_state t n TileState.Useable)
          (tile_state ctxG ⟨-1, 0⟩ ⟨1, 0⟩))
        (if (0 : ℕ) = 1 then 1 else 1 + 1) ∧
      ∀ n ∈ [(⟨0, 0⟩ : GridIndex)],
        getV ([⟨0, 0⟩].foldl (fun t n => set_state t n TileState.Useable)
          (tile_state ctxG ⟨-1, 0⟩ ⟨1, 0⟩)) n = some TileState.Useable) :=
  ⟨Nat.zero_le _, by decide, segAA, by decide,
    generator_failure_reset constOneDF u32MAX ⟨-1, 0⟩ ⟨1, 0⟩ rngC 1 ⟨-1, 0⟩
      0 0 [⟨0, 0⟩] (tile_state ctxG ⟨-1, 0⟩ ⟨1, 0⟩) 1 ⟨-1, 0⟩
      (Nat.zero_le _) (by decide) segAA (by decide)⟩

end ClaimC3Witness

section Walks

variable {α : Type} [AddCommMonoid α]

/-- Two cells are hex-adjacent when the second is the first plus one of the
six directions the relaxation loop iterates. -/
def Adjacent (a b : GridIndex) : Prop :=
  ∃ dir ∈ GridDirections, b = a + dir

instance (a b : GridIndex) : Decidable (Adjacent a b) := by
  unfold Adjacent; infer_instance

/-- A cell present in the tile state with a non-`Blocked` value: exactly the
cells `get_initial_distances` seeds. -/
def UseableCell (ts : List (GridIndex × TileState)) (x : GridIndex) : Prop :=
  ∃ s, getV ts x = some s ∧ ¬ s = TileState.Blocked

instance instDecUseableCell (ts : List (GridIndex × TileState))
    (x : GridIndex) : Decidable (UseableCell ts x) :=
  match h : getV ts x with
  | none => isFalse (fun ⟨s, hs, _⟩ => by rw [h] at hs; exact Option.noConfusion hs)
  | some s =>
    if hb : s = TileState.Blocked then
      isFalse (fun ⟨s2, hs2, hb2⟩ => by
        rw [h] at hs2
        exact hb2 ((Option.some.inj hs2).symm ▸ hb))
    else isTrue ⟨s, h, hb⟩

/-- A Useable route: a nonempty list of cells from `a` to `b`, consecutive
cells hex-adjacent, every cell a Useable tile-state entry. -/
def IsWalk (ts : List (GridIndex × TileState)) :
    List GridIndex → GridIndex → GridIndex → Prop
  | [], _, _ => False
  | [x], a, b => x = a ∧ x = b ∧ UseableCell ts x
  | x :: y :: rest, a, b =>
    x = a ∧ UseableCell ts x ∧ Adjacent x y ∧ IsWalk ts (y :: rest) y b

instance instDecIsWalk (ts : List (GridIndex × TileState)) :
    (l : List GridIndex) → (a b : GridIndex) → Decidable (IsWalk ts l a b)
  | [], a, b => isFalse (fun h => h)
  | [x], a, b => by
    simp only [IsWalk]
    infer_instance
  | x :: y :: rest, a, b => by
    simp only [IsWalk]
    have := instDecIsWalk ts (y :: rest) y b
    infer_instance

/-- Summed edge distance of a route (`df next current`, matching the
relaxation's `df.get_distance(&n, &min) + d`). -/
def walkCost (df : GridIndex → GridIndex → α) : List GridIndex → α
  | [] => 0
  | [_] => 0
  | x :: y :: rest => df y x + walkCost df (y :: rest)

/-- The backward chains the resolver follows: `A` closes a chain, and a cell
with predecessor entry `m` extends `m`'s chain. -/
inductive PrevChain (prevs : List (GridIndex × GridIndex)) (A : GridIndex) :
    GridIndex → List GridIndex → Prop
  | base : PrevChain prevs A A [A]
  | step (x m : GridIndex) (l : List GridIndex) :
      getV prevs x = some m → PrevChain prevs A m l →
      PrevChain prevs A x (l ++ [x])

theorem isWalk_ne_nil {ts : List (GridIndex × TileState)}
    {l : List GridIndex} {a b : GridIndex} (h : IsWalk ts l a b) : ¬ l = [] := by
  intro he
  rw [he] at h
  exact h

theorem isWalk_first {ts : List (GridIndex × TileState)} :
    ∀ {l : List GridIndex} {a b : GridIndex}, IsWalk ts l a b →
      ∃ t, l = a :: t := by
  intro l a b h
  match l with
  | [] => exact absurd h (fun h => h)
  | [x] => exact ⟨[], by rw [h.1]⟩
  | x :: y :: rest => exact ⟨y :: rest, by rw [h.1]⟩

theorem isWalk_useable {ts : List (GridIndex × TileState)} :
    ∀ (l : List GridIndex) (a b : GridIndex), IsWalk ts l a b →
      ∀ n ∈ l, UseableCell ts n
  | [], a, b, h => absurd h (fun h => h)
  | [x], a, b, h => by
    intro n hn
    rw [List.mem_singleton.1 hn]
    exact h.2.2
  | x :: y :: rest, a, b, h => by
    intro n hn
    rcases List.mem_cons.1 hn with h2 | h2
    · rw [h2]; exact h.2.1
    · exact isWalk_useable (y :: rest) y b h.2.2.2 n h2

theorem isWalk_single {ts : List (GridIndex × TileState)} {a : GridIndex}
    (h : UseableCell ts a) : IsWalk ts [a] a a :=
  ⟨rfl, rfl, h⟩

theorem isWalk_cost_single (df : GridIndex → GridIndex → α) (a : GridIndex) :
    walkCost df [a] = 0 := rfl

/-- Extending a route by one adjacent Useable cell, with its cost. -/
theorem isWalk_append_one {ts : List (GridIndex × TileState)}
    (df : GridIndex → GridIndex → α) :
    ∀ (l : List GridIndex) (a z x : GridIndex), IsWalk ts l a z →
      Adjacent z x → UseableCell ts x →
      IsWalk ts (l ++ [x]) a x ∧
        walkCost df (l ++ [x]) = walkCost df l + df x z
  | [], a, z, x, h, _, _ => absurd h (fun h => h)
  | [y], a, z, x, h, hadj, hu => by
    obtain ⟨hya, hyz, hyu⟩ := h
    constructor
    · exact ⟨hya, hyu, by rw [hyz]; exact hadj, rfl, rfl, hu⟩
    · show df x y + walkCost df [x] = walkCost df [y] + df x z
      rw [hyz]
      show df x z + 0 = 0 + df x z
      rw [add_zero, zero_add]
  | y :: y2 :: rest, a, z, x, h, hadj, hu => by
    obtain ⟨hya, hyu, hadj2, hrest⟩ := h
    obtain ⟨hw, hc⟩ :=
      isWalk_append_one df (y2 :: rest) y2 z x hrest hadj hu
    constructor
    · exact ⟨hya, hyu, hadj2, hw⟩
    · show df y2 y + walkCost df ((y2 :: rest) ++ [x])
        = df y2 y + walkCost df (y2 :: rest) + df x z
      rw [hc, add_assoc]

/-- Constant-one edge costs measure node count minus one. -/
theorem walkCost_constOne :
    ∀ l : List GridIndex, walkCost constOneDF l = l.length - 1
  | [] => rfl
  | [_] => rfl
  | x :: y :: rest => by
    show 1 + walkCost constOneDF (y :: rest) = (y :: rest).length + 1 - 1
    rw [walkCost_constOne (y :: rest)]
    have h1 : 1 ≤ (y :: rest).length := by
      simp [List.length_cons]
    omega

end Walks

section ClaimC1Inv

theorem prevChain_setKey (prevs : List (GridIndex × GridIndex)) (A : GridIndex)
    (k v : GridIndex) :
    ∀ z l, PrevChain prevs A z l → k ∉ l →
      PrevChain (setKey prevs k v) A z l := by
  intro z l h
  induction h with
  | base => intro _; exact PrevChain.base
  | step x m l2 hx hm ih =>
    intro hk
    have hkl : k ∉ l2 := fun h2 => hk (List.mem_append.2 (Or.inl h2))
    have hkx : ¬ k = x := fun h2 =>
      hk (List.mem_append.2 (Or.inr (by rw [h2]; exact List.mem_singleton.2 rfl)))
    refine PrevChain.step x m l2 ?_ (ih hkl)
    rw [getV_setKey, if_neg (fun h2 => hkx h2.symm)]
    exact hx

/-- When the start cell has no predecessor entry, backward chains are
unique. -/
theorem prevChain_unique (prevs : List (GridIndex × GridIndex))
    (A : GridIndex) (hA : getV prevs A = none) :
    ∀ z l1, PrevChain prevs A z l1 → ∀ l2, PrevChain prevs A z l2 →
      l1 = l2 := by
  intro z l1 h1
  induction h1 with
  | base =>
    intro l2 h2
    cases h2 with
    | base => rfl
    | step x m l hx hm => rw [hA] at hx; exact Option.noConfusion hx
  | step x m l hx hm ih =>
    intro l2 h2
    cases h2 with
    | base => rw [hA] at hx; exact Option.noConfusion hx
    | step x2 m2 l3 hx2 hm2 =>
      have hmm : m = m2 := Option.some.inj (hx.symm.trans hx2)
      rw [← hmm] at hm2
      rw [ih l3 hm2]

theorem prevChain_entries (prevs : List (GridIndex × GridIndex))
    (A : GridIndex) :
    ∀ z l, PrevChain prevs A z l → ∀ n ∈ l, ¬ n = A →
      ∃ v, getV prevs n = some v := by
  intro z l h
  induction h with
  | base =>
    intro n hn hna
    exact absurd (List.mem_singleton.1 hn) hna
  | step x m l2 hx hm ih =>
    intro n hn hna
    rcases List.mem_append.1 hn with h2 | h2
    · exact ih n h2 hna
    · rw [List.mem_singleton.1 h2]
      exact ⟨m, hx⟩

theorem nodup_subset_length {l1 l2 : List GridIndex} (h1 : l1.Nodup)
    (hsub : l1 ⊆ l2) : l1.length ≤ l2.length :=
  (List.subperm_of_subset h1 hsub).length_le

theorem prevChain_length_le (prevs : List (GridIndex × GridIndex))
    (A : GridIndex) (hA : getV prevs A = none) (z : GridIndex)
    (l : List GridIndex) (h : PrevChain prevs A z l) (hnd : l.Nodup) :
    l.length ≤ prevs.length + 1 := by
  have hkey : ∀ n ∈ l, ¬ n = A → n ∈ keysOf prevs := by
    intro n hn hna
    obtain ⟨v, hv⟩ := prevChain_entries prevs A z l h n hn hna
    exact List.mem_map.2 ⟨(n, v), getV_mem hv, rfl⟩
  by_cases hAl : A ∈ l
  · have hperm : l.Perm (A :: l.erase A) := List.perm_cons_erase hAl
    have hlen : l.length = (l.erase A).length + 1 := by
      rw [hperm.length_eq, List.length_cons]
    have hsub : l.erase A ⊆ keysOf prevs := by
      intro n hn
      obtain ⟨hne, hnl⟩ := (List.Nodup.mem_erase_iff hnd).1 hn
      exact hkey n hnl hne
    have h2 : (l.erase A).length ≤ prevs.length := by
      have h3 := nodup_subset_length (hnd.erase A) hsub
      rw [keysOf, List.length_map] at h3
      exact h3
    omega
  · have hsub : l ⊆ keysOf prevs := by
      intro n hn
      exact hkey n hn (fun he => hAl (he ▸ hn))
    have h2 : l.length ≤ prevs.length := by
      have h3 := nodup_subset_length hnd hsub
      rw [keysOf, List.length_map] at h3
      exact h3
    omega

theorem mem_keysOf_eraseKey {K V : Type} [DecidableEq K]
    {l : List (K × V)} {m k : K} :
    k ∈ keysOf (eraseKey l m) ↔ ¬ k = m ∧ k ∈ keysOf l := by
  induction l with
  | nil => simp [eraseKey, keysOf]
  | cons p t ih =>
    obtain ⟨k0, v0⟩ := p
    rw [eraseKey_cons]
    by_cases h0 : k0 = m
    · rw [if_pos h0, keysOf_cons]
      constructor
      · intro h
        obtain ⟨h1, h2⟩ := ih.1 h
        exact ⟨h1, List.mem_cons_of_mem _ h2⟩
      · rintro ⟨h1, h2⟩
        rcases List.mem_cons.1 h2 with h3 | h3
        · exact absurd (h3.trans h0) h1
        · exact ih.2 ⟨h1, h3⟩
    · rw [if_neg h0, keysOf_cons, keysOf_cons]
      constructor
      · intro h
        rcases List.mem_cons.1 h with h3 | h3
        · refine ⟨?_, by rw [h3]; exact List.mem_cons_self _ _⟩
          intro he
          exact h0 (h3.symm.trans he)
        · obtain ⟨h1, h2⟩ := ih.1 h3
          exact ⟨h1, List.mem_cons_of_mem _ h2⟩
      · rintro ⟨h1, h2⟩
        rcases List.mem_cons.1 h2 with h3 | h3
        · rw [h3]
          exact List.mem_cons_self _ _
        · exact List.mem_cons_of_mem _ (ih.2 ⟨h1, h3⟩)

theorem mem_keysOf_getV {K V : Type} [DecidableEq K]
    {l : List (K × V)} {k : K} (h : k ∈ keysOf l) :
    ∃ v, getV l k = some v := by
  induction l with
  | nil => simp [keysOf] at h
  | cons p t ih =>
    obtain ⟨k0, v0⟩ := p
    rw [getV_cons]
    by_cases h0 : k0 = k
    · rw [if_pos h0]; exact ⟨v0, rfl⟩
    · rw [if_neg h0]
      rcases List.mem_cons.1 h with h1 | h1
      · exact absurd h1.symm h0
      · exact ih h1

/-- Cells already removed from the distance cache (finalized) among the
Useable cells. -/
def SettledC (ts : List (GridIndex × TileState))
    (dists : List (GridIndex × ℕ)) (z : GridIndex) : Prop :=
  UseableCell ts z ∧ z ∉ keysOf dists

/-- The Dijkstra correctness invariant of `calcualte_distances` over the
`u32` distance model. -/
structure INV (df : GridIndex → GridIndex → ℕ) (dmax : ℕ)
    (ts : List (GridIndex × TileState)) (A : GridIndex)
    (dists : List (GridIndex × ℕ)) (prevs : List (GridIndex × GridIndex)) :
    Prop where
  nodup : NodupKeys dists
  keys_useable : ∀ x ∈ keysOf dists, UseableCell ts x
  val_le : ∀ x dx, getV dists x = some dx → dx ≤ dmax
  a_none : getV prevs A = none
  a_zero : ∀ dA, getV dists A = some dA → dA = 0
  settled : ∀ z, SettledC ts dists z →
    ∃ l, PrevChain prevs A z l ∧ IsWalk ts l A z ∧ l.Nodup ∧
      (∀ w, IsWalk ts w A z → walkCost df l ≤ walkCost df w) ∧
      (∀ n ∈ l, SettledC ts dists n) ∧
      (∀ x dx, getV dists x = some dx → walkCost df l ≤ dx)
  frontier : ∀ x dx, getV dists x = some dx → ¬ dx = dmax →
    ∃ l, PrevChain prevs A x l ∧ IsWalk ts l A x ∧ l.Nodup ∧
      walkCost df l = dx ∧ (∀ n ∈ l, ¬ n = x → SettledC ts dists n)
  relaxed : ∀ x dx z lz, getV dists x = some dx → SettledC ts dists z →
    PrevChain prevs A z lz → Adjacent z x →
    dx ≤ walkCost df lz + df x z

end ClaimC1Inv

section ClaimC1Bound

/-- Crossing argument: following a route that starts at a finalized cell
whose chain is optimal, some distance-cache entry is bounded by the chain
cost plus the route cost (the first non-finalized cell on the route was
relaxed from the finalized prefix). -/
theorem walk_bound (df : GridIndex → GridIndex → ℕ) (dmax : ℕ)
    (ts : List (GridIndex × TileState)) (A : GridIndex)
    (dists : List (GridIndex × ℕ)) (prevs : List (GridIndex × GridIndex))
    (hinv : INV df dmax ts A dists prevs) :
    ∀ (w : List GridIndex) (z x : GridIndex), IsWalk ts w z x →
      SettledC ts dists z →
      ∀ lz, PrevChain prevs A z lz → IsWalk ts lz A z → lz.Nodup →
        (∀ w2, IsWalk ts w2 A z → walkCost df lz ≤ walkCost df w2) →
        (∀ n ∈ lz, SettledC ts dists n) →
        x ∈ keysOf dists →
        ∃ y dy, getV dists y = some dy ∧
          dy ≤ walkCost df lz + walkCost df w
  | [], z, x, hw, _, _, _, _, _, _, _, _ => absurd hw (fun h => h)
  | [y], z, x, hw, hz, lz, _, _, _, _, _, hxk => by
    obtain ⟨hyz, hyx, _⟩ := hw
    rw [← hyx, hyz] at hxk
    exact absurd hxk hz.2
  | y :: y2 :: rest, z, x, hw, hz, lz, hch, hwlk, hnd, hmin, hset, hxk => by
    obtain ⟨hyz, hyu, hadj, hrest⟩ := hw
    have hadj2 : Adjacent z y2 := by rw [← hyz]; exact hadj
    have hu2 : UseableCell ts y2 :=
      isWalk_useable (y2 :: rest) y2 x hrest y2 (List.mem_cons_self _ _)
    have hcostw : walkCost df (y :: y2 :: rest)
        = df y2 z + walkCost df (y2 :: rest) := by
      show df y2 y + walkCost df (y2 :: rest) = _
      rw [hyz]
    by_cases hs2 : SettledC ts dists y2
    · obtain ⟨l2, hch2, hwlk2, hnd2, hmin2, hset2, _⟩ := hinv.settled y2 hs2
      have hext := isWalk_append_one df lz A z y2 hwlk hadj2 hu2
      have hc2 : walkCost df l2 ≤ walkCost df lz + df y2 z := by
        have := hmin2 (lz ++ [y2]) hext.1
        rw [hext.2] at this
        exact this
      obtain ⟨y3, dy, hy3, hle⟩ := walk_bound df dmax ts A dists prevs hinv
        (y2 :: rest) y2 x hrest hs2 l2 hch2 hwlk2 hnd2 hmin2 hset2 hxk
      refine ⟨y3, dy, hy3, ?_⟩
      rw [hcostw]
      omega
    · have hk2 : y2 ∈ keysOf dists := by
        by_contra hk
        exact hs2 ⟨hu2, hk⟩
      obtain ⟨v, hv⟩ := mem_keysOf_getV hk2
      have hrel := hinv.relaxed y2 v z lz hv hz hch hadj2
      refine ⟨y2, v, hv, ?_⟩
      rw [hcostw]
      omega

/-- Any route from the seed cell to a still-unfinalized cell witnesses a
distance-cache entry bounded by the route cost. -/
theorem walk_min_bound (df : GridIndex → GridIndex → ℕ) (dmax : ℕ)
    (ts : List (GridIndex × TileState)) (A : GridIndex)
    (dists : List (GridIndex × ℕ)) (prevs : List (GridIndex × GridIndex))
    (hinv : INV df dmax ts A dists prevs)
    (w : List GridIndex) (x : GridIndex) (hw : IsWalk ts w A x)
    (hxk : x ∈ keysOf dists) :
    ∃ y dy, getV dists y = some dy ∧ dy ≤ walkCost df w := by
  have hAu : UseableCell ts A := by
    obtain ⟨t, ht⟩ := isWalk_first hw
    refine isWalk_useable w A x hw A ?_
    rw [ht]
    exact List.mem_cons_self _ _
  by_cases hA : A ∈ keysOf dists
  · obtain ⟨v, hv⟩ := mem_keysOf_getV hA
    have h0 : v = 0 := hinv.a_zero v hv
    exact ⟨A, v, hv, by omega⟩
  · have hAs : SettledC ts dists A := ⟨hAu, hA⟩
    obtain ⟨lA, hch, hwlk, hnd, hmin, hset, _⟩ := hinv.settled A hAs
    obtain ⟨y, dy, hy, hle⟩ := walk_bound df dmax ts A dists prevs hinv
      w A x hw hAs lA hch hwlk hnd hmin hset hxk
    have hc0 : walkCost df lA ≤ 0 := by
      have h1 := hmin [A] (isWalk_single hAu)
      rw [isWalk_cost_single] at h1
      exact h1
    exact ⟨y, dy, hy, by omega⟩

end ClaimC1Bound

section ClaimC1Relax

theorem useable_can_be_path {ts : List (GridIndex × TileState)}
    {x : GridIndex} (h : UseableCell ts x) : can_be_path ts x := by
  obtain ⟨s, hs, hb⟩ := h
  intro hbl
  rw [is_blocked, hs] at hbl
  exact hb (Option.some.inj hbl)

theorem relaxAll_keys (df : GridIndex → GridIndex → ℕ) (ts)
    (m : GridIndex) (d : ℕ) (rest : List (GridIndex × ℕ))
    (prevs : List (GridIndex × GridIndex)) :
    keysOf (relaxAll df ts m d rest prevs).1 = keysOf rest := by
  unfold relaxAll
  generalize GridDirections = dirs
  induction dirs generalizing rest prevs with
  | nil => rfl
  | cons dir t ih =>
    rw [List.foldl_cons]
    have h1 := relaxDir_keys df ts m d (rest, prevs) dir
    have h2 : relaxDir df ts m d (rest, prevs) dir =
        ((relaxDir df ts m d (rest, prevs) dir).1,
         (relaxDir df ts m d (rest, prevs) dir).2) := rfl
    rw [h2, ih]
    exact h1

theorem relaxDir_mono (df : GridIndex → GridIndex → ℕ) (ts)
    (m : GridIndex) (d : ℕ)
    (st : List (GridIndex × ℕ) × List (GridIndex × GridIndex)) (dir : GridIndex)
    (x : GridIndex) (v2 : ℕ)
    (h : getV (relaxDir df ts m d st dir).1 x = some v2) :
    ∃ v, getV st.1 x = some v ∧ v2 ≤ v := by
  rcases relaxDir_cases df ts m d st dir with he | ⟨old, hcb, hold, hlt, he⟩
  · rw [he] at h
    exact ⟨v2, h, le_refl v2⟩
  · rw [he] at h
    rw [getV_updateValue] at h
    by_cases hx : x = m + dir
    · rw [if_pos hx, if_pos (containsK_of_getV hold)] at h
      refine ⟨old, ?_, ?_⟩
      · rw [hx]; exact hold
      · rw [← Option.some.inj h]
        exact le_of_lt hlt
    · rw [if_neg hx] at h
      exact ⟨v2, h, le_refl v2⟩

theorem relax_fold_mono (df : GridIndex → GridIndex → ℕ) (ts)
    (m : GridIndex) (d : ℕ) :
    ∀ (dirs : List GridIndex)
      (st : List (GridIndex × ℕ) × List (GridIndex × GridIndex))
      (x : GridIndex) (v2 : ℕ),
      getV (dirs.foldl (relaxDir df ts m d) st).1 x = some v2 →
      ∃ v, getV st.1 x = some v ∧ v2 ≤ v := by
  intro dirs
  induction dirs with
  | nil => intro st x v2 h; exact ⟨v2, h, le_refl v2⟩
  | cons dir t ih =>
    intro st x v2 h
    rw [List.foldl_cons] at h
    obtain ⟨v1, h1, hle1⟩ := ih (relaxDir df ts m d st dir) x v2 h
    obtain ⟨v0, h0, hle0⟩ := relaxDir_mono df ts m d st dir x v1 h1
    exact ⟨v0, h0, le_trans hle1 hle0⟩

/-- After the whole neighbor loop, every neighbor of the extracted cell that
can be a path holds a value at most the relaxation candidate. -/
theorem relax_fold_bound (df : GridIndex → GridIndex → ℕ) (ts)
    (m : GridIndex) (d : ℕ) :
    ∀ (dirs : List GridIndex)
      (st : List (GridIndex × ℕ) × List (GridIndex × GridIndex)),
      ∀ dir ∈ dirs, can_be_path ts (m + dir) →
      ∀ v, getV (dirs.foldl (relaxDir df ts m d) st).1 (m + dir) = some v →
        v ≤ df (m + dir) m + d := by
  intro dirs
  induction dirs with
  | nil => intro st dir hdir; exact absurd hdir (List.not_mem_nil dir)
  | cons dir0 t ih =>
    intro st dir hdir hcb v h
    rw [List.foldl_cons] at h
    rcases List.mem_cons.1 hdir with he | hmem
    · subst he
      obtain ⟨v1, h1, hle1⟩ := relax_fold_mono df ts m d t
        (relaxDir df ts m d st dir) (m + dir) v h
      rcases relaxDir_cases df ts m d st dir with heq | ⟨old, _, hold, hlt, heq⟩
      · rw [heq] at h1
        -- the step left the state alone: can_be_path holds, so either the
        -- key is absent (contradiction) or the candidate did not improve
        cases hg : getV st.1 (m + dir) with
        | none =>
          rw [hg] at h1
          exact Option.noConfusion h1
        | some old =>
          by_cases hv : df (m + dir) m + d < old
          · exfalso
            have heq2 : relaxDir df ts m d st dir =
                (updateValue st.1 (m + dir) (df (m + dir) m + d),
                 setKey st.2 (m + dir) m) := by
              unfold relaxDir update_distance
              rw [if_pos hcb]
              simp only [hg, if_pos hv]
            have heq3 := heq.symm.trans heq2
            have h4 := congrArg (fun s => getV s.1 (m + dir)) heq3
            simp only at h4
            rw [hg, getV_updateValue, if_pos rfl,
              if_pos (containsK_of_getV hg)] at h4
            have hvv := Option.some.inj h4
            omega
          · rw [hg] at h1
            have := Option.some.inj h1
            omega
      · rw [heq] at h1
        rw [getV_updateValue, if_pos rfl, if_pos (containsK_of_getV hold)]
          at h1
        have := Option.some.inj h1
        omega
    · exact ih (relaxDir df ts m d st dir0) dir hmem hcb v h

end ClaimC1Relax

section ClaimC1Main

/-- Bundled facts about one full relaxation round over the remaining
distance cache: keys and their distinctness are preserved, values stay below
the sentinel, never fall below the extracted distance, and only shrink;
the seed cell keeps value `0` and gains no predecessor; entries of keys
outside the cache are untouched; and every entry either kept its value and
predecessor or was freshly relaxed from the extracted cell. -/
theorem relax_main (df : GridIndex → GridIndex → ℕ) (dmax : ℕ)
    (ts : List (GridIndex × TileState)) (A m : GridIndex) (d : ℕ)
    (rest : List (GridIndex × ℕ)) (prevs : List (GridIndex × GridIndex))
    (hA1 : getV prevs A = none)
    (hA0 : ∀ dA, getV rest A = some dA → dA = 0)
    (hVr : ∀ x v, getV rest x = some v → v ≤ dmax)
    (hNr : NodupKeys rest)
    (hdl : ∀ x v, getV rest x = some v → d ≤ v) :
    keysOf (relaxAll df ts m d rest prevs).1 = keysOf rest ∧
    NodupKeys (relaxAll df ts m d rest prevs).1 ∧
    (∀ x v, getV (relaxAll df ts m d rest prevs).1 x = some v → v ≤ dmax) ∧
    (∀ dA, getV (relaxAll df ts m d rest prevs).1 A = some dA → dA = 0) ∧
    getV (relaxAll df ts m d rest prevs).2 A = none ∧
    (∀ k, k ∉ keysOf rest →
      getV (relaxAll df ts m d rest prevs).2 k = getV prevs k) ∧
    (∀ x v, getV (relaxAll df ts m d rest prevs).1 x = some v → d ≤ v) ∧
    (∀ x v, getV (relaxAll df ts m d rest prevs).1 x = some v →
      (getV rest x = some v ∧
        getV (relaxAll df ts m d rest prevs).2 x = getV prevs x) ∨
      (Adjacent m x ∧ can_be_path ts x ∧ v = df x m + d ∧
        getV (relaxAll df ts m d rest prevs).2 x = some m)) ∧
    (∀ x v vr, getV (relaxAll df ts m d rest prevs).1 x = some v →
      getV rest x = some vr → v ≤ vr) := by
  unfold relaxAll
  refine foldl_preserve_mem
    (fun st =>
      keysOf st.1 = keysOf rest ∧
      NodupKeys st.1 ∧
      (∀ x v, getV st.1 x = some v → v ≤ dmax) ∧
      (∀ dA, getV st.1 A = some dA → dA = 0) ∧
      getV st.2 A = none ∧
      (∀ k, k ∉ keysOf rest → getV st.2 k = getV prevs k) ∧
      (∀ x v, getV st.1 x = some v → d ≤ v) ∧
      (∀ x v, getV st.1 x = some v →
        (getV rest x = some v ∧ getV st.2 x = getV prevs x) ∨
        (Adjacent m x ∧ can_be_path ts x ∧ v = df x m + d ∧
          getV st.2 x = some m)) ∧
      (∀ x v vr, getV st.1 x = some v → getV rest x = some vr → v ≤ vr))
    (relaxDir df ts m d) GridDirections ?_ (rest, prevs)
    ⟨rfl, hNr, hVr, hA0, hA1, fun k _ => rfl, hdl,
      fun x v hx => Or.inl ⟨hx, rfl⟩,
      fun x v vr hx hxr => le_of_eq (Option.some.inj (hx.symm.trans hxr))⟩
  intro st dir hdir hI
  obtain ⟨p1, p2, p3, p4, p5, p6, p7, p8, p9⟩ := hI
  rcases relaxDir_cases df ts m d st dir with he | ⟨old, hcb, hold, hlt, he⟩
  · rw [he]
    exact ⟨p1, p2, p3, p4, p5, p6, p7, p8, p9⟩
  · rw [he]
    have hcont : containsK st.1 (m + dir) := containsK_of_getV hold
    have hxkeys : (m + dir) ∈ keysOf rest := by rw [← p1]; exact hcont
    have hxA : ¬ (m + dir) = A := by
      intro hea
      rw [hea] at hold hlt
      rw [p4 old hold] at hlt
      exact Nat.not_lt_zero _ hlt
    refine ⟨?_, ?_, ?_, ?_, ?_, ?_, ?_, ?_, ?_⟩
    · rw [keysOf_updateValue]
      exact p1
    · show NodupKeys (updateValue st.1 (m + dir) (df (m + dir) m + d))
      unfold NodupKeys
      rw [keysOf_updateValue]
      exact p2
    · intro x v hx
      rw [getV_updateValue] at hx
      by_cases hxe : x = m + dir
      · rw [if_pos hxe, if_pos hcont] at hx
        rw [← Option.some.inj hx]
        exact le_of_lt (lt_of_lt_of_le hlt (p3 _ _ hold))
      · rw [if_neg hxe] at hx
        exact p3 x v hx
    · intro dA hx
      rw [getV_updateValue, if_neg (fun h2 => hxA h2.symm)] at hx
      exact p4 dA hx
    · rw [getV_setKey, if_neg (fun h2 => hxA h2.symm)]
      exact p5
    · intro k hk
      have hkx : ¬ k = m + dir := fun h2 => hk (h2 ▸ hxkeys)
      rw [getV_setKey, if_neg hkx]
      exact p6 k hk
    · intro x v hx
      rw [getV_updateValue] at hx
      by_cases hxe : x = m + dir
      · rw [if_pos hxe, if_pos hcont] at hx
        rw [← Option.some.inj hx]
        exact Nat.le_add_left d (df (m + dir) m)
      · rw [if_neg hxe] at hx
        exact p7 x v hx
    · intro x v hx
      rw [getV_updateValue] at hx
      by_cases hxe : x = m + dir
      · rw [if_pos hxe, if_pos hcont] at hx
        refine Or.inr ⟨⟨dir, hdir, hxe⟩, ?_, ?_, ?_⟩
        · rw [hxe]; exact hcb
        · rw [← Option.some.inj hx, hxe]
        · rw [getV_setKey, if_pos hxe]
      · rw [if_neg hxe] at hx
        rcases p8 x v hx with ⟨hr, hp⟩ | ⟨ha, hc, hv, hp⟩
        · refine Or.inl ⟨hr, ?_⟩
          rw [getV_setKey, if_neg hxe]
          exact hp
        · refine Or.inr ⟨ha, hc, hv, ?_⟩
          rw [getV_setKey, if_neg hxe]
          exact hp
    · intro x v vr hx hxr
      rw [getV_updateValue] at hx
      by_cases hxe : x = m + dir
      · rw [if_pos hxe, if_pos hcont] at hx
        have hov : old ≤ vr := p9 x old vr (by rw [hxe]; exact hold) hxr
        rw [← Option.some.inj hx]
        omega
      · rw [if_neg hxe] at hx
        exact p9 x v vr hx hxr

/-- A chain survives any modification of the predecessor cache that leaves
the entries of its nodes unchanged. -/
theorem prevChain_transfer (prevs prevs2 : List (GridIndex × GridIndex))
    (A : GridIndex) (hA : getV prevs A = none) :
    ∀ z l, PrevChain prevs A z l →
      (∀ n ∈ l, ¬ n = A → getV prevs2 n = getV prevs n) →
      PrevChain prevs2 A z l := by
  intro z l h
  induction h with
  | base => intro _; exact PrevChain.base
  | step x m l2 hx hm ih =>
    intro hpr
    have hxA : ¬ x = A := by
      intro he
      rw [he, hA] at hx
      exact Option.noConfusion hx
    refine PrevChain.step x m l2 ?_ (ih ?_)
    · rw [hpr x (List.mem_append.2 (Or.inr (List.mem_singleton.2 rfl))) hxA]
      exact hx
    · intro n hn hna
      exact hpr n (List.mem_append.2 (Or.inl hn)) hna

/-- One extraction step of the relaxation loop preserves the Dijkstra
invariant: the extracted cell is finalized with an optimal chain (by the
crossing argument), every fresh relaxation hangs a neighbor below it, and
everything else is untouched. -/
theorem inv_step (df : GridIndex → GridIndex → ℕ) (dmax : ℕ)
    (ts : List (GridIndex × TileState)) (A : GridIndex)
    (dists : List (GridIndex × ℕ)) (prevs : List (GridIndex × GridIndex))
    (m : GridIndex) (d : ℕ) (rest : List (GridIndex × ℕ))
    (hinv : INV df dmax ts A dists prevs)
    (hmin : get_min dists = some ((m, d), rest)) (hd : ¬ d = dmax) :
    INV df dmax ts A (relaxAll df ts m d rest prevs).1
      (relaxAll df ts m d rest prevs).2 := by
  obtain ⟨hmem, hminv, hrest⟩ := get_min_spec hmin
  have hgm : getV dists m = some d := mem_getV_of_nodup hinv.nodup hmem
  have hmkeys : m ∈ keysOf dists := List.mem_map.2 ⟨(m, d), hmem, rfl⟩
  have hmrest : m ∉ keysOf rest := by
    rw [hrest]
    exact not_mem_keysOf_eraseKey dists m
  have hgr : ∀ x, getV rest x = if x = m then none else getV dists x := by
    intro x
    rw [hrest, getV_eraseKey]
  have hNr : NodupKeys rest := by
    rw [hrest]
    exact nodupKeys_eraseKey dists m hinv.nodup
  have hVr : ∀ x v, getV rest x = some v → v ≤ dmax := by
    intro x v hx
    rw [hgr x] at hx
    by_cases hxm : x = m
    · rw [if_pos hxm] at hx; exact Option.noConfusion hx
    · rw [if_neg hxm] at hx; exact hinv.val_le x v hx
  have hA0r : ∀ dA, getV rest A = some dA → dA = 0 := by
    intro dA hx
    rw [hgr A] at hx
    by_cases hxm : A = m
    · rw [if_pos hxm] at hx; exact Option.noConfusion hx
    · rw [if_neg hxm] at hx; exact hinv.a_zero dA hx
  have hdl : ∀ x v, getV rest x = some v → d ≤ v := by
    intro x v hx
    rw [hgr x] at hx
    by_cases hxm : x = m
    · rw [if_pos hxm] at hx; exact Option.noConfusion hx
    · rw [if_neg hxm] at hx
      exact hminv (x, v) (getV_mem hx)
  obtain ⟨k1, k2, k3, k4, k5, k6, k7, k8, k9⟩ :=
    relax_main df dmax ts A m d rest prevs hinv.a_none hA0r hVr hNr hdl
  have hsubkeys : ∀ x, x ∈ keysOf rest → x ∈ keysOf dists := by
    intro x hx
    rw [hrest] at hx
    exact (mem_keysOf_eraseKey.1 hx).2
  have hSold_new : ∀ z, SettledC ts dists z →
      SettledC ts (relaxAll df ts m d rest prevs).1 z := by
    rintro z ⟨hu, hk⟩
    refine ⟨hu, ?_⟩
    rw [k1]
    exact fun h2 => hk (hsubkeys z h2)
  have hSm : SettledC ts (relaxAll df ts m d rest prevs).1 m := by
    refine ⟨hinv.keys_useable m hmkeys, ?_⟩
    rw [k1]
    exact hmrest
  have hSnew_cases : ∀ z, SettledC ts (relaxAll df ts m d rest prevs).1 z →
      z = m ∨ SettledC ts dists z := by
    rintro z ⟨hu, hk⟩
    by_cases hzm : z = m
    · exact Or.inl hzm
    · refine Or.inr ⟨hu, ?_⟩
      intro hzk
      rw [k1, hrest] at hk
      exact hk (mem_keysOf_eraseKey.2 ⟨hzm, hzk⟩)
  have hpres : ∀ z, SettledC ts dists z →
      getV (relaxAll df ts m d rest prevs).2 z = getV prevs z :=
    fun z hz => k6 z (fun h2 => hz.2 (hsubkeys z h2))
  have hpresm : getV (relaxAll df ts m d rest prevs).2 m = getV prevs m :=
    k6 m hmrest
  have htransfer : ∀ z l, PrevChain prevs A z l →
      (∀ n ∈ l, ¬ n = A → (SettledC ts dists n ∨ n = m)) →
      PrevChain (relaxAll df ts m d rest prevs).2 A z l := by
    intro z l hch hnodes
    refine prevChain_transfer prevs _ A hinv.a_none z l hch ?_
    intro n hn hna
    rcases hnodes n hn hna with h2 | h2
    · exact hpres n h2
    · rw [h2]; exact hpresm
  obtain ⟨lm, hchm, hwlkm, hndm, hcostm, hsetm⟩ := hinv.frontier m d hgm hd
  have hminm : ∀ w, IsWalk ts w A m → walkCost df lm ≤ walkCost df w := by
    intro w hw
    obtain ⟨y, dy, hy, hle⟩ :=
      walk_min_bound df dmax ts A dists prevs hinv w m hw hmkeys
    have hdy : d ≤ dy := hminv (y, dy) (getV_mem hy)
    rw [hcostm]
    omega
  have hchm2 : PrevChain (relaxAll df ts m d rest prevs).2 A m lm := by
    refine htransfer m lm hchm ?_
    intro n hn hna
    by_cases hnm : n = m
    · exact Or.inr hnm
    · exact Or.inl (hsetm n hn hnm)
  have hnodesm : ∀ n ∈ lm, SettledC ts (relaxAll df ts m d rest prevs).1 n := by
    intro n hn
    by_cases hnm : n = m
    · rw [hnm]; exact hSm
    · exact hSold_new n (hsetm n hn hnm)
  refine ⟨k2, ?_, k3, k5, k4, ?_, ?_, ?_⟩
  · -- keys useable
    intro x hx
    rw [k1] at hx
    exact hinv.keys_useable x (hsubkeys x hx)
  · -- settled
    intro z hz
    rcases hSnew_cases z hz with hzm | hzold
    · subst hzm
      refine ⟨lm, hchm2, hwlkm, hndm, hminm, hnodesm, ?_⟩
      intro x dx hx
      rw [hcostm]
      exact k7 x dx hx
    · obtain ⟨lz, hchz, hwlkz, hndz, hminz, hsetz, hMz⟩ :=
        hinv.settled z hzold
      refine ⟨lz, htransfer z lz hchz
          (fun n hn _ => Or.inl (hsetz n hn)), hwlkz, hndz, hminz,
        fun n hn => hSold_new n (hsetz n hn), ?_⟩
      intro x dx hx
      rcases k8 x dx hx with ⟨hxr, _⟩ | ⟨_, _, hveq, _⟩
      · have hxm : ¬ x = m := by
          intro he
          rw [hgr x, if_pos he] at hxr
          exact Option.noConfusion hxr
        rw [hgr x, if_neg hxm] at hxr
        exact hMz x dx hxr
      · have h1 := hMz m d hgm
        omega
  · -- frontier
    intro x dx hx hdx
    have hxrest : x ∈ keysOf rest := by
      rw [← k1]
      exact containsK_of_getV hx
    have hxm : ¬ x = m := fun he => hmrest (he ▸ hxrest)
    have hxdists : x ∈ keysOf dists := hsubkeys x hxrest
    rcases k8 x dx hx with ⟨hxr, hxp⟩ | ⟨hadj, hcb, hveq, hxp⟩
    · have hxd : getV dists x = some dx := by
        rw [hgr x, if_neg hxm] at hxr
        exact hxr
      obtain ⟨lx, hchx, hwlkx, hndx, hcostx, hsetx⟩ :=
        hinv.frontier x dx hxd hdx
      refine ⟨lx, ?_, hwlkx, hndx, hcostx, ?_⟩
      · refine prevChain_transfer prevs _ A hinv.a_none x lx hchx ?_
        intro n hn hna
        by_cases hnx : n = x
        · rw [hnx]; exact hxp
        · exact hpres n (hsetx n hn hnx)
      · intro n hn hnx
        exact hSold_new n (hsetx n hn hnx)
    · have hxu : UseableCell ts x := hinv.keys_useable x hxdists
      have hext := isWalk_append_one df lm A m x hwlkm hadj hxu
      have hxnotlm : x ∉ lm := by
        intro hxl
        by_cases hxm2 : x = m
        · exact hxm hxm2
        · exact (hsetm x hxl hxm2).2 hxdists
      refine ⟨lm ++ [x], PrevChain.step x m lm hxp hchm2, hext.1, ?_, ?_, ?_⟩
      · refine List.Nodup.append hndm (List.nodup_singleton x) ?_
        intro n hn hn2
        rw [List.mem_singleton.1 hn2] at hn
        exact hxnotlm hn
      · rw [hext.2, hcostm]
        omega
      · intro n hn hnx
        rcases List.mem_append.1 hn with h2 | h2
        · exact hnodesm n h2
        · exact absurd (List.mem_singleton.1 h2) hnx
  · -- relaxed
    intro x dx z lz hx hz hchz hadj
    have hxrest : x ∈ keysOf rest := by
      rw [← k1]
      exact containsK_of_getV hx
    have hxm : ¬ x = m := fun he => hmrest (he ▸ hxrest)
    rcases hSnew_cases z hz with hzm | hzold
    · subst hzm
      have hlz : lz = lm := prevChain_unique _ A k5 z lz hchz lm hchm2
      obtain ⟨dir, hdir, hxe⟩ := hadj
      have hcb2 : can_be_path ts (z + dir) := by
        rw [← hxe]
        exact useable_can_be_path (hinv.keys_useable x (hsubkeys x hxrest))
      have hx2 : getV (GridDirections.foldl (relaxDir df ts z d)
          (rest, prevs)).1 (z + dir) = some dx := by
        rw [← hxe]
        exact hx
      have hb := relax_fold_bound df ts z d GridDirections (rest, prevs)
        dir hdir hcb2 dx hx2
      rw [hlz, hcostm, ← hxe] at *
      omega
    · obtain ⟨lz0, hchz0, hwlkz0, hndz0, hminz0, hsetz0, hMz0⟩ :=
        hinv.settled z hzold
      have hchz02 : PrevChain (relaxAll df ts m d rest prevs).2 A z lz0 :=
        htransfer z lz0 hchz0 (fun n hn _ => Or.inl (hsetz0 n hn))
      have hlz : lz = lz0 := prevChain_unique _ A k5 z lz hchz lz0 hchz02
      obtain ⟨vr, hvr⟩ := mem_keysOf_getV hxrest
      have hdxvr : dx ≤ vr := k9 x dx vr hx hvr
      have hvd : getV dists x = some vr := by
        rw [hgr x, if_neg hxm] at hvr
        exact hvr
      have hrel := hinv.relaxed x vr z lz0 hvd hzold hchz0 hadj
      rw [hlz]
      omega

theorem isWalk_mem_last {ts : List (GridIndex × TileState)} :
    ∀ (l : List GridIndex) (a b : GridIndex), IsWalk ts l a b → b ∈ l
  | [], a, b, h => absurd h (fun h => h)
  | [x], a, b, h => by rw [List.mem_singleton, ← h.2.1]
  | x :: y :: rest, a, b, h =>
    List.mem_cons_of_mem x (isWalk_mem_last (y :: rest) y b h.2.2.2)

/-- Main induction: from any state satisfying the invariant, the finished
predecessor cache contains an optimal chain for every cell connected to the
seed by a route cheaper than the sentinel, and the seed cell never gains an
entry. -/
theorem calc_optimal (df : GridIndex → GridIndex → ℕ) (dmax : ℕ)
    (ts : List (GridIndex × TileState)) (A B : GridIndex)
    (dists : List (GridIndex × ℕ)) (prevs : List (GridIndex × GridIndex)) :
    INV df dmax ts A dists prevs →
    (∀ w, IsWalk ts w A B → walkCost df w < dmax →
      ∃ l, PrevChain (calcualte_distances df dmax ts dists prevs) A B l ∧
        IsWalk ts l A B ∧ l.Nodup ∧
        (∀ w2, IsWalk ts w2 A B → walkCost df l ≤ walkCost df w2)) ∧
    getV (calcualte_distances df dmax ts dists prevs) A = none := by
  induction dists, prevs using calcualte_distances.induct df dmax ts with
  | case1 dists prevs hmin =>
    intro hinv
    rw [calc_none df dmax ts dists prevs hmin]
    constructor
    · intro w hw hcost
      have hdnil : dists = [] := (get_min_eq_none_iff dists).1 hmin
      have hBu : UseableCell ts B :=
        isWalk_useable w A B hw B (isWalk_mem_last w A B hw)
      have hBs : SettledC ts dists B := by
        refine ⟨hBu, ?_⟩
        rw [hdnil]
        exact List.not_mem_nil B
      obtain ⟨l, hch, hwlk, hnd, hmin2, _, _⟩ := hinv.settled B hBs
      exact ⟨l, hch, hwlk, hnd, hmin2⟩
    · exact hinv.a_none
  | case2 dists prevs m rest hmin =>
    intro hinv
    rw [calc_max df dmax ts dists prevs m rest hmin]
    constructor
    · intro w hw hcost
      obtain ⟨hmem, hminv, _⟩ := get_min_spec hmin
      have hBu : UseableCell ts B :=
        isWalk_useable w A B hw B (isWalk_mem_last w A B hw)
      by_cases hBk : B ∈ keysOf dists
      · exfalso
        obtain ⟨y, dy, hy, hle⟩ :=
          walk_min_bound df dmax ts A dists prevs hinv w B hw hBk
        have hdy : dmax ≤ dy := hminv (y, dy) (getV_mem hy)
        omega
      · obtain ⟨l, hch, hwlk, hnd, hmin2, _, _⟩ :=
          hinv.settled B ⟨hBu, hBk⟩
        exact ⟨l, hch, hwlk, hnd, hmin2⟩
    · exact hinv.a_none
  | case3 dists prevs m d rest hmin hd hb ih =>
    intro hinv
    obtain ⟨hmem, _, _⟩ := get_min_spec hmin
    have hmkeys : m ∈ keysOf dists := List.mem_map.2 ⟨(m, d), hmem, rfl⟩
    exact absurd (useable_can_be_path (hinv.keys_useable m hmkeys)) hb
  | case4 dists prevs m d rest hmin hd hb st ih =>
    intro hinv
    rw [calc_step df dmax ts dists prevs m d rest hmin hd (not_not.1 hb)]
    exact ih (inv_step df dmax ts A dists prevs m d rest hinv hmin hd)

theorem keysOf_map_pair {β : Type} (f : (GridIndex × TileState) → β)
    (l : List (GridIndex × TileState)) :
    keysOf (l.map fun p => (p.1, f p)) = keysOf l := by
  induction l with
  | nil => rfl
  | cons p t ih =>
    rw [List.map_cons, keysOf_cons, keysOf_cons, ih]

theorem useable_mem_initial (dmax : ℕ) (ts : List (GridIndex × TileState))
    (A z : GridIndex) (h : UseableCell ts z) :
    z ∈ keysOf (get_initial_distances dmax ts A) := by
  obtain ⟨s, hs, hb⟩ := h
  rw [get_initial_distances, keysOf_map_pair]
  exact List.mem_map.2 ⟨(z, s),
    List.mem_filter.2 ⟨getV_mem hs, decide_eq_true hb⟩, rfl⟩

/-- The invariant holds at the seeding of `DijkstraData::run`. -/
theorem initial_INV (df : GridIndex → GridIndex → ℕ) (dmax : ℕ)
    (ts : List (GridIndex × TileState)) (A : GridIndex)
    (hts : NodupKeys ts) :
    INV df dmax ts A (get_initial_distances dmax ts A) [] := by
  have hnotset : ∀ z, ¬ SettledC ts (get_initial_distances dmax ts A) z := by
    rintro z ⟨hu, hk⟩
    exact hk (useable_mem_initial dmax ts A z hu)
  have hKU : ∀ x ∈ keysOf (get_initial_distances dmax ts A),
      UseableCell ts x := by
    intro x hx
    rw [get_initial_distances, keysOf_map_pair] at hx
    obtain ⟨p, hp, hpk⟩ := List.mem_map.1 hx
    obtain ⟨k0, v0⟩ := p
    obtain ⟨hpts, hpb⟩ := List.mem_filter.1 hp
    refine ⟨v0, ?_, of_decide_eq_true hpb⟩
    rw [← hpk]
    exact mem_getV_of_nodup hts hpts
  refine ⟨?_, hKU, ?_, rfl, ?_, ?_, ?_, ?_⟩
  · unfold NodupKeys
    rw [get_initial_distances, keysOf_map_pair]
    exact List.Nodup.sublist
      (List.Sublist.map Prod.fst (List.filter_sublist ts)) hts
  · exact initial_ValLe dmax ts A (Nat.zero_le dmax)
  · intro dA hx
    have h1 := getV_initial dmax ts A A dA hx
    rw [if_pos rfl] at h1
    exact h1
  · intro z hz
    exact absurd hz (hnotset z)
  · intro x dx hx hdx
    have hval := getV_initial dmax ts A x dx hx
    by_cases hxA : x = A
    · subst hxA
      rw [if_pos rfl] at hval
      have hAu : UseableCell ts x := hKU x (containsK_of_getV hx)
      refine ⟨[x], PrevChain.base, isWalk_single hAu,
        List.nodup_singleton x, ?_, ?_⟩
      · rw [isWalk_cost_single, hval]
      · intro n hn hnx
        exact absurd (List.mem_singleton.1 hn) hnx
    · rw [if_neg hxA] at hval
      exact absurd hval hdx
  · intro x dx z lz hx hz hch hadj
    exact absurd hz (hnotset z)

/-- The resolver's backward walk reproduces a predecessor chain exactly,
given enough fuel. -/
theorem walk_of_chain (F : List (GridIndex × GridIndex)) (A : GridIndex)
    (hA : getV F A = none) :
    ∀ m l, PrevChain F A m l → ∀ x, getV F x = some m →
      ∀ fuel acc, l.length ≤ fuel →
        walk_prevs F A fuel x acc = some (some (l ++ acc)) := by
  intro m l h
  induction h with
  | base =>
    intro x hx fuel acc hfuel
    match fuel with
    | 0 => simp at hfuel
    | fuel + 1 =>
      simp only [walk_prevs, hx]
      rw [if_true]
      rfl
  | step y my ly hy hmy ih =>
    intro x hx fuel acc hfuel
    match fuel with
    | 0 =>
      rw [List.length_append, List.length_singleton] at hfuel
      exact absurd hfuel (by omega)
    | fuel + 1 =>
      simp only [walk_prevs, hx]
      have hyA : ¬ y = A := by
        intro he
        rw [he, hA] at hy
        exact Option.noConfusion hy
      rw [if_neg hyA]
      have hfuel2 : ly.length ≤ fuel := by
        rw [List.length_append, List.length_singleton] at hfuel
        omega
      rw [ih y hy fuel (y :: acc) hfuel2]
      rw [List.append_cons ly y acc, List.append_assoc]

/-- C1 (amended): for any region and tile state and any Useable route from
`A` to `B` of cost below the sentinel (`A ≠ B`, hash-map keys distinct), the
Dijkstra engine returns a path from `A` to `B` whose summed edge distance is
minimal over all Useable routes; under the constant-one edge-distance
function its node count is minimal, i.e. node count minus one equals the
shortest tile-count. -/
theorem dijkstra_shortest (df : GridIndex → GridIndex → ℕ) (dmax : ℕ)
    (ts : List (GridIndex × TileState)) (A B : GridIndex)
    (w : List GridIndex) (hts : NodupKeys ts) (hAB : ¬ A = B)
    (hw : IsWalk ts w A B) (hcost : walkCost df w < dmax) :
    ∃ p, try_get_path df dmax ts A B = some p ∧
      IsWalk ts p.nodes A B ∧
      (∀ w2, IsWalk ts w2 A B → walkCost df p.nodes ≤ walkCost df w2) ∧
      (df = constOneDF → ∀ w2, IsWalk ts w2 A B →
        p.nodes.length ≤ w2.length) := by
  obtain ⟨hmain, hAfin⟩ := calc_optimal df dmax ts A B
    (get_initial_distances dmax ts A) [] (initial_INV df dmax ts A hts)
  obtain ⟨l, hch, hwlk, hnd, hminl⟩ := hmain w hw hcost
  have hlen1 : ¬ l = [] := isWalk_ne_nil hwlk
  cases hch with
  | base => exact absurd rfl hAB
  | step x mB lB hx hmB =>
    have hndB : lB.Nodup := by
      have h2 : (lB ++ [B]).Nodup := hnd
      exact h2.of_append_left
    have hlen : lB.length ≤
        (calcualte_distances df dmax ts
          (get_initial_distances dmax ts A) []).length + 1 :=
      prevChain_length_le _ A hAfin mB lB hmB hndB
    have hwalk := walk_of_chain _ A hAfin mB lB hmB B hx
      ((calcualte_distances df dmax ts
        (get_initial_distances dmax ts A) []).length + 1) [B] hlen
    have hgsp : get_shortest_path (calcualte_distances df dmax ts
        (get_initial_distances dmax ts A) []) B A = some (lB ++ [B]) := by
      rw [get_shortest_path, hwalk]
    refine ⟨⟨lB ++ [B], A, B⟩, ?_, hwlk, hminl, ?_⟩
    · rw [try_get_path, dijkstra_run, resolve_path, hgsp]
      rfl
    · intro hdf w2 hw2
      have h1 := hminl w2 hw2
      rw [hdf, walkCost_constOne, walkCost_constOne] at h1
      have hl1 : 0 < (lB ++ [B]).length := by
        rw [List.length_append]
        simp
      have hw21 : 0 < w2.length :=
        List.length_pos.2 (isWalk_ne_nil hw2)
      show (lB ++ [B]).length ≤ w2.length
      omega

end ClaimC1Main

section ClaimC1Witness

/-- C1 witness: the three-cell witness region, its straight route, and the
amended optimality conclusion at that input. -/
theorem dijkstra_shortest_witness :
    NodupKeys (tile_state ctxG ⟨-1, 0⟩ ⟨1, 0⟩) ∧
    ¬ (⟨-1, 0⟩ : GridIndex) = ⟨1, 0⟩ ∧
    IsWalk (tile_state ctxG ⟨-1, 0⟩ ⟨1, 0⟩) [⟨-1, 0⟩, ⟨0, 0⟩, ⟨1, 0⟩]
      ⟨-1, 0⟩ ⟨1, 0⟩ ∧
    walkCost constOneDF [⟨-1, 0⟩, ⟨0, 0⟩, ⟨1, 0⟩] < u32MAX ∧
    (∃ p, try_get_path constOneDF u32MAX (tile_state ctxG ⟨-1, 0⟩ ⟨1, 0⟩)
        ⟨-1, 0⟩ ⟨1, 0⟩ = some p ∧
      IsWalk (tile_state ctxG ⟨-1, 0⟩ ⟨1, 0⟩) p.nodes ⟨-1, 0⟩ ⟨1, 0⟩ ∧
      (∀ w2, IsWalk (tile_state ctxG ⟨-1, 0⟩ ⟨1, 0⟩) w2 ⟨-1, 0⟩ ⟨1, 0⟩ →
        walkCost constOneDF p.nodes ≤ walkCost constOneDF w2) ∧
      (constOneDF = constOneDF →
        ∀ w2, IsWalk (tile_state ctxG ⟨-1, 0⟩ ⟨1, 0⟩) w2 ⟨-1, 0⟩ ⟨1, 0⟩ →
          p.nodes.length ≤ w2.length)) :=
  ⟨by decide, by decide, by decide, by decide,
    dijkstra_shortest constOneDF u32MAX (tile_state ctxG ⟨-1, 0⟩ ⟨1, 0⟩)
      ⟨-1, 0⟩ ⟨1, 0⟩ [⟨-1, 0⟩, ⟨0, 0⟩, ⟨1, 0⟩]
      (by decide) (by decide) (by decide) (by decide)⟩

/-- Edge-distance table with a negative edge `C → B`. -/
def dfZ : GridIndex → GridIndex → ℤ := fun b a =>
  if b = ⟨1, 0⟩ ∧ a = ⟨0, 0⟩ then 1
  else if b = ⟨0, 1⟩ ∧ a = ⟨0, 0⟩ then 2
  else if b = ⟨1, 0⟩ ∧ a = ⟨0, 1⟩ then -2
  else 5

/-- Three mutually adjacent Useable cells. -/
def tsZ : List (GridIndex × TileState) :=
  [(⟨0, 0⟩, TileState.Useable), (⟨1, 0⟩, TileState.Useable),
   (⟨0, 1⟩, TileState.Useable)]

/-- C1 counterexample: under a general (here negative-valued) edge-distance
function the engine's answer is not minimal — it returns the direct route of
cost `1` although the detour through `(0,1)` costs `0`. -/
theorem dijkstra_not_optimal_negative :
    try_get_path dfZ 1000 tsZ ⟨0, 0⟩ ⟨1, 0⟩ =
      some ⟨[⟨0, 0⟩, ⟨1, 0⟩], ⟨0, 0⟩, ⟨1, 0⟩⟩ ∧
    IsWalk tsZ [⟨0, 0⟩, ⟨0, 1⟩, ⟨1, 0⟩] ⟨0, 0⟩ ⟨1, 0⟩ ∧
    walkCost dfZ [⟨0, 0⟩, ⟨0, 1⟩, ⟨1, 0⟩] <
      walkCost dfZ [⟨0, 0⟩, ⟨1, 0⟩] := by
  refine ⟨?_, by decide, by decide⟩
  rw [try_get_path, dijkstra_run]
  rw [calc_step dfZ 1000 tsZ (get_initial_distances 1000 tsZ ⟨0, 0⟩) []
      ⟨0, 0⟩ 0 [(⟨1, 0⟩, 1000), (⟨0, 1⟩, 1000)]
      (by decide) (by decide) (by decide)]
  have h1a : (relaxAll dfZ tsZ ⟨0, 0⟩ 0
      [(⟨1, 0⟩, 1000), (⟨0, 1⟩, 1000)] []).1
      = [(⟨1, 0⟩, 1), (⟨0, 1⟩, 2)] := by decide
  have h1b : (relaxAll dfZ tsZ ⟨0, 0⟩ 0
      [(⟨1, 0⟩, 1000), (⟨0, 1⟩, 1000)] []).2
      = [(⟨1, 0⟩, ⟨0, 0⟩), (⟨0, 1⟩, ⟨0, 0⟩)] := by decide
  rw [h1a, h1b]
  rw [calc_step dfZ 1000 tsZ [(⟨1, 0⟩, 1), (⟨0, 1⟩, 2)]
      [(⟨1, 0⟩, ⟨0, 0⟩), (⟨0, 1⟩, ⟨0, 0⟩)] ⟨1, 0⟩ 1 [(⟨0, 1⟩, 2)]
      (by decide) (by decide) (by decide)]
  have h2a : (relaxAll dfZ tsZ ⟨1, 0⟩ 1 [(⟨0, 1⟩, 2)]
      [(⟨1, 0⟩, ⟨0, 0⟩), (⟨0, 1⟩, ⟨0, 0⟩)]).1 = [(⟨0, 1⟩, 2)] := by decide
  have h2b : (relaxAll dfZ tsZ ⟨1, 0⟩ 1 [(⟨0, 1⟩, 2)]
      [(⟨1, 0⟩, ⟨0, 0⟩), (⟨0, 1⟩, ⟨0, 0⟩)]).2
      = [(⟨1, 0⟩, ⟨0, 0⟩), (⟨0, 1⟩, ⟨0, 0⟩)] := by decide
  rw [h2a, h2b]
  rw [calc_step dfZ 1000 tsZ [(⟨0, 1⟩, 2)]
      [(⟨1, 0⟩, ⟨0, 0⟩), (⟨0, 1⟩, ⟨0, 0⟩)] ⟨0, 1⟩ 2 []
      (by decide) (by decide) (by decide)]
  have h3a : (relaxAll dfZ tsZ ⟨0, 1⟩ 2 []
      [(⟨1, 0⟩, ⟨0, 0⟩), (⟨0, 1⟩, ⟨0, 0⟩)]).1 = [] := by decide
  have h3b : (relaxAll dfZ tsZ ⟨0, 1⟩ 2 []
      [(⟨1, 0⟩, ⟨0, 0⟩), (⟨0, 1⟩, ⟨0, 0⟩)]).2
      = [(⟨1, 0⟩, ⟨0, 0⟩), (⟨0, 1⟩, ⟨0, 0⟩)] := by decide
  rw [h3a, h3b]
  rw [calc_none dfZ 1000 tsZ []
      [(⟨1, 0⟩, ⟨0, 0⟩), (⟨0, 1⟩, ⟨0, 0⟩)] (by decide)]
  decide

end ClaimC1Witness

end RandomTD
